import Mathlib

/-!
# libraff: a shallow embedding of `raff.c`

The development models the RIFF codec of `raff.c` over an explicit heap.

* Objects that the C code obtains from `alloc`/`malloc` live in the lists of
  a `Heap`; a pointer is the index of the object in its list and `NULL` is
  `none`.  Allocation appends, so a pointer stays valid for ever (the C code
  frees nothing before `raff_closeFile`).
* A `char*` into a byte buffer is a `CharPtr`: the buffer and an offset.
  A `char` is represented by its bit pattern `0..255`.
* `size_t` is 64 bits wide: arithmetic that can wrap is taken `% 2 ^ 64`.
  `long` and `long long` (`raff_ID`) are 64 bits wide and are represented by
  their two's complement bit pattern, a natural number below `2 ^ 64`;
  `char` is signed, as on the x86-64 System V ABI.
* A byte source (`raff_Stream`) is a state together with its `next` callback,
  a function from the state to the returned `int` and the new state.
* Loops whose termination is not structural take a fuel argument and return
  `none` when it runs out.
-/

namespace Raff

/-! ## Data model (`raff.h`, `raff.c` lines 7-57) -/

/-- The type `raff_ID` is a `long long`, kept as its 64-bit pattern. -/
abbrev raff_ID := Nat

/-- The enumeration `raff_Type`. -/
inductive raff_Type where
  | TYPE_LIST
  | TYPE_RIFF
  | TYPE_OTHER
  deriving DecidableEq, Repr, Inhabited

/-- The enumeration `raff_Error`. -/
inductive raff_Error where
  | raff_ERR_NONE
  | raff_ERR_NOT_LIST
  | raff_ERR_IS_LIST
  | raff_ERR_NOT_RIFF
  | raff_ERR_CORRUPT
  | raff_ERR_CANT_OPEN
  deriving DecidableEq, Repr, Inhabited

open raff_Type raff_Error

/-- A `char*`: the buffer it points into and the offset inside that buffer. -/
structure CharPtr where
  buf : Nat
  off : Nat
  deriving DecidableEq, Repr, Inhabited

/-- The struct `raff_File`; `data` is the index of the flexible array
`data[]`, and the arena bookkeeping `allocs` is not represented. -/
structure raff_File where
  chunk : Option Nat
  size  : Nat
  data  : Nat
  deriving DecidableEq, Repr, Inhabited

/-- The struct `raff_Chunk`. -/
structure raff_Chunk where
  next   : Option Nat
  file   : Nat
  list   : Option Nat
  type   : raff_Type
  id     : raff_ID
  size   : Nat
  start  : CharPtr
  asList : Option Nat
  asData : Option Nat
  deriving DecidableEq, Repr, Inhabited

/-- The struct `raff_List`. -/
structure raff_List where
  file    : Nat
  id      : raff_ID
  cursor  : Option Nat
  first   : Option Nat
  last    : Option Nat
  asChunk : Option Nat
  deriving DecidableEq, Repr, Inhabited

/-- The struct `raff_Data`. -/
structure raff_Data where
  file    : Nat
  id      : raff_ID
  size    : Nat
  start   : CharPtr
  asChunk : Option Nat
  deriving DecidableEq, Repr, Inhabited

/-- The memory of the program: every allocated object, the byte buffers, and
the global `errnum`. -/
structure Heap where
  files  : List raff_File
  chunks : List raff_Chunk
  lists  : List raff_List
  datas  : List raff_Data
  bufs   : List (List Nat)
  errnum : raff_Error
  deriving DecidableEq, Repr, Inhabited

/-- The state of the program before any call: nothing allocated and
`errnum = raff_ERR_NONE`. -/
def Heap.empty : Heap :=
  { files := [], chunks := [], lists := [], datas := [], bufs := [],
    errnum := raff_ERR_NONE }

/-- Dereference a `raff_Chunk*`. -/
def Heap.chunk (h : Heap) (p : Nat) : raff_Chunk := h.chunks.getD p default

/-- Dereference a `raff_List*`. -/
def Heap.list (h : Heap) (p : Nat) : raff_List := h.lists.getD p default

/-- Dereference a `raff_Data*`. -/
def Heap.data (h : Heap) (p : Nat) : raff_Data := h.datas.getD p default

/-- Dereference a `raff_File*`. -/
def Heap.file (h : Heap) (p : Nat) : raff_File := h.files.getD p default

/-- The contents of a byte buffer. -/
def Heap.buf (h : Heap) (b : Nat) : List Nat := h.bufs.getD b []

/-- Read the `char` at `p[j]`, as its bit pattern. -/
def Heap.readByte (h : Heap) (p : CharPtr) (j : Nat) : Nat :=
  (h.buf p.buf).getD (p.off + j) 0

/-- Store through a `raff_Chunk*`. -/
def Heap.setChunk (h : Heap) (p : Nat) (c : raff_Chunk) : Heap :=
  { h with chunks := h.chunks.set p c }

/-- Store through a `raff_List*`. -/
def Heap.setList (h : Heap) (p : Nat) (l : raff_List) : Heap :=
  { h with lists := h.lists.set p l }

/-- Store through a `raff_Data*`. -/
def Heap.setData (h : Heap) (p : Nat) (d : raff_Data) : Heap :=
  { h with datas := h.datas.set p d }

/-- Store through a `raff_File*`. -/
def Heap.setFile (h : Heap) (p : Nat) (f : raff_File) : Heap :=
  { h with files := h.files.set p f }

/-- Assign the global `errnum`. -/
def Heap.setErr (h : Heap) (e : raff_Error) : Heap :=
  { h with errnum := e }

/-- The function `raff_errorNum`. -/
def raff_errorNum (h : Heap) : raff_Error := h.errnum

/-- The bytes a chunk spans: `size` bytes from `start`. -/
def Heap.range (h : Heap) (c : raff_Chunk) : List Nat :=
  ((h.buf c.start.buf).drop c.start.off).take c.size

/-- The range of a chunk lies inside its buffer. -/
def Heap.inBounds (h : Heap) (c : raff_Chunk) : Prop :=
  c.start.off + c.size ≤ (h.buf c.start.buf).length

instance (h : Heap) (c : raff_Chunk) : Decidable (h.inBounds c) := by
  unfold Heap.inBounds; infer_instance

/-! ## Machine integers -/

/-- The modulus `2 ^ 64` of `size_t`, `long` and `long long` arithmetic. -/
def WORD : Nat := 2 ^ 64

/-- The `size_t` subtraction `x - 4` for `x < 2 ^ 64`: it wraps modulo
`2 ^ 64` when `x < 4`. -/
def sizeSub4 (x : Nat) : Nat := if 4 ≤ x then x - 4 else x + WORD - 4

/-- Conversion of a non-negative `int`/`long` to `char`: the low 8 bits. -/
def toChar (i : Int) : Nat := (i % 256).toNat

/-- The 64-bit pattern of `(long)c` for a (signed) `char` with bit pattern
`c`: sign extension. -/
def charToLong (c : Nat) : Nat := if c < 128 then c else c + (WORD - 256)

/-- The byte `(unsigned char)x` or the `char` stored by `data[i] = x`. -/
def lowByte (x : Nat) : Nat := x % 256

/-! ## Identifiers (`raff.c` lines 103-107 and 624-645) -/

/-- The constant `RIFF_ID`. -/
def RIFF_ID : raff_ID := (82 <<< 24) ||| (73 <<< 16) ||| (70 <<< 8) ||| 70

/-- The constant `LIST_ID`. -/
def LIST_ID : raff_ID := (76 <<< 24) ||| (73 <<< 16) ||| (83 <<< 8) ||| 84

/-- The function `raff_newID`.  The C string is the list of its `char`s;
reading past its end reads the terminating NUL. -/
def raff_newID (idstr : List Nat) : raff_ID :=
  let id : Nat := 0
  if idstr.getD 0 0 = 0 then id else
  let id := id ||| (charToLong (idstr.getD 0 0) <<< 24) % WORD
  if idstr.getD 1 0 = 0 then id else
  let id := id ||| (charToLong (idstr.getD 1 0) <<< 16) % WORD
  if idstr.getD 2 0 = 0 then id else
  let id := id ||| (charToLong (idstr.getD 2 0) <<< 8) % WORD
  if idstr.getD 3 0 = 0 then id else
  let id := id ||| charToLong (idstr.getD 3 0)
  id

/-! ## Byte sources and the header readers (`raff.c` lines 59-101) -/

/-- The function `parseID`: four calls of `next`, then `raff_newID` on the
four `char`s. -/
def parseID {σ : Type} (next : σ → Int × σ) (stream : σ) : Option raff_ID × σ :=
  let r1 := next stream
  let r2 := next r1.2
  let r3 := next r2.2
  let r4 := next r3.2
  if r1.1 < 0 ∨ r2.1 < 0 ∨ r3.1 < 0 ∨ r4.1 < 0 then (none, r4.2)
  else (some (raff_newID [toChar r1.1, toChar r2.1, toChar r3.1, toChar r4.1, 0]), r4.2)

/-- The function `parseSize`: four calls of `next`, combined little-endian. -/
def parseSize {σ : Type} (next : σ → Int × σ) (stream : σ) : Option Nat × σ :=
  let r1 := next stream
  let r2 := next r1.2
  let r3 := next r2.2
  let r4 := next r3.2
  if r1.1 < 0 ∨ r2.1 < 0 ∨ r3.1 < 0 ∨ r4.1 < 0 then (none, r4.2)
  else (some ((r1.1.toNat ||| (r2.1.toNat <<< 8) ||| (r3.1.toNat <<< 16)
          ||| (r4.1.toNat <<< 24)) % WORD), r4.2)

/-- The struct `FileStream`: the bytes of the `FILE*` that are still unread. -/
structure FileStream where
  file : List Nat
  deriving DecidableEq, Repr, Inhabited

/-- The callback `fnextCb`: `fgetc`, the next byte or `EOF = -1`. -/
def fnextCb (fs : FileStream) : Int × FileStream :=
  match fs.file with
  | [] => (-1, fs)
  | b :: rest => ((b : Int), { file := rest })

/-! ## Opening a container (`raff.c` lines 109-169) -/

/-- The read loop of `openStream` (lines 137-145): `size` calls of `next`,
each stored as a `char` at the next index of `file->data`. -/
def readData {σ : Type} (next : σ → Int × σ) : Nat → σ → List Nat → Option (List Nat) × σ
  | 0, stream, data => (some data, stream)
  | size + 1, stream, data =>
    let r := next stream
    if r.1 < 0 then (none, r.2)
    else readData next size r.2 (data ++ [toChar r.1])

/-- The function `openStream`.  Returns the `raff_File*` (or `NULL`) and the
new heap. -/
def openStream {σ : Type} (next : σ → Int × σ) (h : Heap) (stream : σ) : Option Nat × Heap :=
  let idp := parseID next stream
  if idp.1 ≠ some RIFF_ID then (none, h.setErr raff_ERR_NOT_RIFF)
  else
    let sizep := parseSize next idp.2
    match sizep.1 with
    | none => (none, h.setErr raff_ERR_CORRUPT)
    | some sz =>
      let size := sizeSub4 sz
      let listIDp := parseID next sizep.2
      match listIDp.1 with
      | none => (none, h.setErr raff_ERR_CORRUPT)
      | some listID =>
        match (readData next size listIDp.2 []).1 with
        | none => (none, h.setErr raff_ERR_CORRUPT)
        | some data =>
          let file := h.files.length
          let chunk := h.chunks.length
          let buf := h.bufs.length
          let ck : raff_Chunk :=
            { next := none, file := file, list := none, type := TYPE_RIFF,
              id := listID, size := size, start := { buf := buf, off := 0 },
              asList := none, asData := none }
          let fl : raff_File := { chunk := some chunk, size := size, data := buf }
          (some file,
            { h with files := h.files ++ [fl], chunks := h.chunks ++ [ck],
                     bufs := h.bufs ++ [data], errnum := raff_ERR_NONE })

/-- The function `raff_openStream`. -/
def raff_openStream {σ : Type} (next : σ → Int × σ) (h : Heap) (stream : σ) : Option Nat × Heap :=
  openStream next h stream

/-- The function `raff_fileAsChunk`. -/
def raff_fileAsChunk (h : Heap) (file : Nat) : Option Nat := (h.file file).chunk

/-! ## Reading a chunk's bytes as a stream (`raff.c` lines 243-267) -/

/-- The struct `ChunkStream`. -/
structure ChunkStream where
  chunk : Nat
  next  : Nat
  deriving DecidableEq, Repr, Inhabited

/-- The callback `cnextCb`.  Here `next < size`, so `next++` cannot wrap. -/
def cnextCb (h : Heap) (cs : ChunkStream) : Int × ChunkStream :=
  if cs.next ≥ (h.chunk cs.chunk).size then (-1, cs)
  else ((lowByte (h.readByte (h.chunk cs.chunk).start cs.next) : Nat),
        { cs with next := cs.next + 1 })

/-- The function `makeChunkStream`. -/
def makeChunkStream (chunk : Nat) : ChunkStream := { chunk := chunk, next := 0 }

/-! ## Parsing the children of a chunk (`raff.c` lines 269-374) -/

/-- Allocate a `raff_Chunk` and return the pointer to it. -/
def Heap.allocChunk (h : Heap) (c : raff_Chunk) : Nat × Heap :=
  (h.chunks.length, { h with chunks := h.chunks ++ [c] })

/-- The function `parseNextChunk`.  The chunk is allocated at line 288, on
the failure paths after it too; fields not yet assigned there are shown with
their default value. -/
def parseNextChunk (h : Heap) (file : Nat) (stream : ChunkStream) :
    Option Nat × Heap × ChunkStream :=
  let idp := parseID (cnextCb h) stream
  match idp.1 with
  | none => (none, h.setErr raff_ERR_CORRUPT, idp.2)
  | some id =>
    let sizep := parseSize (cnextCb h) idp.2
    match sizep.1 with
    | none => (none, h.setErr raff_ERR_CORRUPT, sizep.2)
    | some size =>
      let pad := size % 2
      let chunk0 : raff_Chunk :=
        { next := none, file := file, list := none, type := default, id := 0,
          size := 0, start := default, asList := none, asData := none }
      if id = LIST_ID ∨ id = RIFF_ID then
        let listIDp := parseID (cnextCb h) sizep.2
        match listIDp.1 with
        | none => (none, (h.allocChunk chunk0).2.setErr raff_ERR_CORRUPT, listIDp.2)
        | some listID =>
          let size := sizeSub4 size
          let stream := listIDp.2
          let chunk : raff_Chunk :=
            { chunk0 with
              type := if id = LIST_ID then TYPE_LIST else TYPE_RIFF,
              id := listID, size := size,
              start := { buf := (h.chunk stream.chunk).start.buf,
                         off := (h.chunk stream.chunk).start.off + stream.next } }
          let stream := { stream with next := (stream.next + (size + pad)) % WORD }
          if stream.next > (h.chunk stream.chunk).size then
            (none, (h.allocChunk chunk).2.setErr raff_ERR_CORRUPT, stream)
          else
            (some (h.allocChunk chunk).1, (h.allocChunk chunk).2.setErr raff_ERR_NONE, stream)
      else
        let stream := sizep.2
        let chunk : raff_Chunk :=
          { chunk0 with
            type := TYPE_OTHER, id := id, size := size,
            start := { buf := (h.chunk stream.chunk).start.buf,
                       off := (h.chunk stream.chunk).start.off + stream.next } }
        let stream := { stream with next := (stream.next + (size + pad)) % WORD }
        if stream.next > (h.chunk stream.chunk).size then
          (none, (h.allocChunk chunk).2.setErr raff_ERR_CORRUPT, stream)
        else
          (some (h.allocChunk chunk).1, (h.allocChunk chunk).2.setErr raff_ERR_NONE, stream)

/-- Outcome of the loop of `raff_chunkAsList`. -/
inductive LoopResult where
  | outOfFuel
  | failed (h : Heap)
  | done (h : Heap) (firstChunk lastChunk : Option Nat)
  deriving DecidableEq, Repr, Inhabited

/-- The `while` loop of `raff_chunkAsList` (lines 350-365). -/
def chunkAsListLoop (list chunk : Nat) :
    Nat → Heap → ChunkStream → Option Nat → Option Nat → LoopResult
  | 0, _, _, _, _ => LoopResult.outOfFuel
  | fuel + 1, h, cs, firstChunk, lastChunk =>
    if cs.next < (h.chunk chunk).size then
      match parseNextChunk h (h.list list).file cs with
      | (none, h1, _) => LoopResult.failed h1
      | (some sub, h1, cs1) =>
        let h2 := h1.setChunk sub { h1.chunk sub with list := some list }
        match firstChunk, lastChunk with
        | some _, some last =>
          let h3 := h2.setChunk last { h2.chunk last with next := some sub }
          chunkAsListLoop list chunk fuel h3 cs1 firstChunk (some sub)
        | _, _ => chunkAsListLoop list chunk fuel h2 cs1 (some sub) (some sub)
    else LoopResult.done h firstChunk lastChunk

/-- The function `raff_chunkAsList`; `none` when the fuel runs out, else the
returned `raff_List*` and the new heap.  The fields `cursor`, `first` and
`last` are unassigned until the loop ends and are shown as `none`. -/
def raff_chunkAsList (fuel : Nat) (h : Heap) (chunk : Nat) : Option (Option Nat × Heap) :=
  if (h.chunk chunk).type = TYPE_OTHER then some (none, h.setErr raff_ERR_NOT_LIST)
  else
    match (h.chunk chunk).asList with
    | some l => some (some l, h.setErr raff_ERR_NONE)
    | none =>
      let list := h.lists.length
      let h0 : Heap :=
        { h with lists := h.lists ++
            [{ file := (h.chunk chunk).file, id := (h.chunk chunk).id, cursor := none,
               first := none, last := none, asChunk := some chunk }] }
      match chunkAsListLoop list chunk fuel h0 (makeChunkStream chunk) none none with
      | LoopResult.outOfFuel => none
      | LoopResult.failed h1 => some (none, h1)
      | LoopResult.done h1 firstChunk lastChunk =>
        let h2 := h1.setList list
          { h1.list list with cursor := firstChunk, first := firstChunk, last := lastChunk }
        let h3 := h2.setChunk chunk { h2.chunk chunk with asList := some list }
        some (some list, h3.setErr raff_ERR_NONE)

/-- The function `raff_chunkAsData`. -/
def raff_chunkAsData (h : Heap) (chunk : Nat) : Option Nat × Heap :=
  if (h.chunk chunk).type ≠ TYPE_OTHER then (none, h.setErr raff_ERR_IS_LIST)
  else
    match (h.chunk chunk).asData with
    | some d => (some d, h.setErr raff_ERR_NONE)
    | none =>
      let data := h.datas.length
      let h1 : Heap :=
        { h with datas := h.datas ++
            [{ file := (h.chunk chunk).file, id := (h.chunk chunk).id,
               size := (h.chunk chunk).size, start := (h.chunk chunk).start,
               asChunk := some chunk }] }
      let h2 := h1.setChunk chunk { h1.chunk chunk with asData := some data }
      (some data, h2.setErr raff_ERR_NONE)

/-! ## Encoding a list as a chunk (`raff.c` lines 399-501) -/

/-- The function `addID`: `data` is the part of the buffer written so far,
so the write index `*next` is its length. -/
def addID (data : List Nat) (id : raff_ID) : List Nat :=
  data ++ [lowByte (id >>> 24), lowByte (id >>> 16), lowByte (id >>> 8), lowByte id]

/-- The function `addSize`, with the same convention as `addID`. -/
def addSize (data : List Nat) (size : Nat) : List Nat :=
  data ++ [lowByte size, lowByte (size >>> 8), lowByte (size >>> 16), lowByte (size >>> 24)]

/-- The size loop of `raff_listAsChunk` (lines 423-445). -/
def listSizeLoop (h : Heap) : Nat → Option Nat → Nat → Option Nat
  | _, none, size => some size
  | 0, some _, _ => none
  | fuel + 1, some iter, size =>
    let size := (size + 4) % WORD
    let size := (size + 4) % WORD
    let size := if (h.chunk iter).type ≠ TYPE_OTHER then (size + 4) % WORD else size
    let size := (size + (h.chunk iter).size) % WORD
    let size := if (h.chunk iter).size % 2 = 1 then (size + 1) % WORD else size
    listSizeLoop h fuel (h.chunk iter).next size

/-- The copy loop `for j < size: dst[i++] = src[j]` (lines 486-487 and
607-608, 699-700): the bytes it writes. -/
def copyBytes (read : Nat → Nat) (size : Nat) : List Nat :=
  (List.range size).map read

/-- The serialisation loop of `raff_listAsChunk` (lines 460-494); `data` is
the part of `chunk->start` written so far and `i` is its length. -/
def listWriteLoop (h : Heap) : Nat → Option Nat → List Nat → Option (List Nat)
  | _, none, data => some data
  | 0, some _, _ => none
  | fuel + 1, some iter, data =>
    let data :=
      if (h.chunk iter).type ≠ TYPE_OTHER then
        let data :=
          if (h.chunk iter).type = TYPE_RIFF then addID data RIFF_ID
          else addID data LIST_ID
        let data := addSize data (h.chunk iter).size
        addID data (h.chunk iter).id
      else
        let data := addID data (h.chunk iter).id
        addSize data (h.chunk iter).size
    let data := data ++ copyBytes (h.readByte (h.chunk iter).start) (h.chunk iter).size
    let data := if (h.chunk iter).size % 2 = 1 then data ++ [0] else data
    listWriteLoop h fuel (h.chunk iter).next data

/-- The function `raff_listAsChunk`; `none` when the fuel runs out.  The new
buffer holds the bytes the serialisation loop wrote. -/
def raff_listAsChunk (fuel : Nat) (h : Heap) (list : Nat) (riff : Bool) :
    Option (Nat × Heap) :=
  let cached : Option Nat :=
    match (h.list list).asChunk with
    | some c => if decide ((h.chunk c).type = TYPE_RIFF) = riff then some c else none
    | none => none
  match cached with
  | some c => some (c, h.setErr raff_ERR_NONE)
  | none =>
    match listSizeLoop h fuel (h.list list).first 0,
          listWriteLoop h fuel (h.list list).first [] with
    | some size, some data =>
      let chunk := h.chunks.length
      let ck : raff_Chunk :=
        { next := none, file := (h.list list).file, list := none,
          type := if riff then TYPE_RIFF else TYPE_LIST, id := (h.list list).id,
          size := size, start := { buf := h.bufs.length, off := 0 },
          asList := some list, asData := none }
      let h1 : Heap := { h with chunks := h.chunks ++ [ck], bufs := h.bufs ++ [data] }
      let h2 := h1.setList list { h1.list list with asChunk := some chunk }
      some (chunk, h2.setErr raff_ERR_NONE)
    | _, _ => none

/-- The function `raff_dataAsChunk`.  Line 510-518 leave `chunk->asList`
unassigned: `asListJunk` is the value the fresh memory happens to hold. -/
def raff_dataAsChunk (h : Heap) (data : Nat) (asListJunk : Option Nat) : Nat × Heap :=
  match (h.data data).asChunk with
  | some c => (c, h.setErr raff_ERR_NONE)
  | none =>
    let chunk := h.chunks.length
    let ck : raff_Chunk :=
      { next := none, file := (h.data data).file, list := none, type := TYPE_OTHER,
        id := (h.data data).id, size := (h.data data).size, start := (h.data data).start,
        asList := asListJunk, asData := some data }
    let h1 : Heap := { h with chunks := h.chunks ++ [ck] }
    let h2 := h1.setData data { h1.data data with asChunk := some chunk }
    (chunk, h2.setErr raff_ERR_NONE)

/-! ## Cursor and insertion (`raff.c` lines 526-586) -/

/-- The function `raff_start`. -/
def raff_start (h : Heap) (list : Nat) : Heap :=
  h.setList list { h.list list with cursor := (h.list list).first }

/-- The function `raff_next`. -/
def raff_next (h : Heap) (list : Nat) : Option Nat × Heap :=
  match (h.list list).cursor with
  | none => (none, h)
  | some c => (some c, h.setList list { h.list list with cursor := (h.chunk c).next })

/-- Lines 545-549 and 569-573: drop the cached chunk of a list that is about
to change. -/
def clearCache (h : Heap) (list : Nat) : Heap :=
  match (h.list list).asChunk with
  | none => h
  | some c =>
    let h1 :=
      if (h.chunk c).asList = some list then h.setChunk c { h.chunk c with asList := none }
      else h
    h1.setList list { h1.list list with asChunk := none }

/-- The function `raff_prepend`; `none` when an `assert` fails. -/
def raff_prepend (h : Heap) (list chunk : Nat) : Option Heap :=
  let h := clearCache h list
  if (h.chunk chunk).file ≠ (h.list list).file then none
  else if (h.chunk chunk).list ≠ none then none
  else
    let h := h.setChunk chunk { h.chunk chunk with next := (h.list list).first }
    let h := h.setList list { h.list list with first := some chunk }
    let h :=
      if (h.list list).last = none then
        h.setList list { h.list list with last := (h.list list).first }
      else h
    some h

/-- The function `raff_append`; `none` when an `assert` fails. -/
def raff_append (h : Heap) (list chunk : Nat) : Option Heap :=
  let h := clearCache h list
  if (h.chunk chunk).file ≠ (h.list list).file then none
  else if (h.chunk chunk).list ≠ none then none
  else
    let h :=
      match (h.list list).last with
      | some l => h.setChunk l { h.chunk l with next := some chunk }
      | none => h
    let h := h.setList list { h.list list with last := some chunk }
    let h :=
      if (h.list list).first = none then
        h.setList list { h.list list with first := (h.list list).last }
      else h
    some h

/-! ## Constructors and accessors (`raff.c` lines 588-703, 796-804) -/

/-- The function `raff_newFile`. -/
def raff_newFile (h : Heap) : Nat × Heap :=
  (h.files.length,
    { h with files := h.files ++ [{ chunk := none, size := 0, data := h.bufs.length }],
             bufs := h.bufs ++ [[]] })

/-- The function `raff_newData`: the `size` bytes `content[0..size)` are
copied into a fresh buffer. -/
def raff_newData (h : Heap) (file : Nat) (id : raff_ID) (content : List Nat) (size : Nat) :
    Nat × Heap :=
  (h.datas.length,
    { h with
      datas := h.datas ++
        [{ file := file, id := id, size := size,
           start := { buf := h.bufs.length, off := 0 }, asChunk := none }],
      bufs := h.bufs ++ [copyBytes (fun i => content.getD i 0) size] })

/-- The function `raff_newList`.  Lines 614-619 leave `list->last`
unassigned: `lastJunk` is the value the fresh memory happens to hold. -/
def raff_newList (h : Heap) (file : Nat) (id : raff_ID) (lastJunk : Option Nat) : Nat × Heap :=
  (h.lists.length,
    { h with lists := h.lists ++
        [{ file := file, id := id, cursor := none, first := none, last := lastJunk,
           asChunk := none }] })

/-- The function `raff_getID`. -/
def raff_getID (h : Heap) (chunk : Nat) : raff_ID := (h.chunk chunk).id

/-- The loop of `raff_findID` (lines 655-663); the outer `none` is the fuel
running out. -/
def findIDLoop (h : Heap) (id : raff_ID) : Nat → Option Nat → Option (Option Nat)
  | _, none => some none
  | 0, some _ => none
  | fuel + 1, some iter =>
    if (h.chunk iter).id = id then some (some iter)
    else findIDLoop h id fuel (h.chunk iter).next

/-- The function `raff_findID`. -/
def raff_findID (fuel : Nat) (h : Heap) (list : Nat) (id : raff_ID) : Option (Option Nat) :=
  findIDLoop h id fuel (h.list list).first

/-- The function `raff_copyChunk`. -/
def raff_copyChunk (h : Heap) (chunk : Nat) : Nat × Heap :=
  h.allocChunk
    { next := none, file := (h.chunk chunk).file, list := none, type := (h.chunk chunk).type,
      id := (h.chunk chunk).id, size := (h.chunk chunk).size, start := (h.chunk chunk).start,
      asList := none, asData := none }

/-- The function `raff_copyChunkTo`. -/
def raff_copyChunkTo (h : Heap) (file chunk : Nat) : Nat × Heap :=
  (h.chunks.length,
    { h with
      chunks := h.chunks ++
        [{ next := none, file := file, list := none, type := (h.chunk chunk).type,
           id := (h.chunk chunk).id, size := (h.chunk chunk).size,
           start := { buf := h.bufs.length, off := 0 }, asList := none, asData := none }],
      bufs := h.bufs ++
        [copyBytes (h.readByte (h.chunk chunk).start) (h.chunk chunk).size] })

/-- The function `raff_dataSize`. -/
def raff_dataSize (h : Heap) (data : Nat) : Nat := (h.data data).size

/-- The function `raff_dataContent`: the `raff_dataSize` bytes the returned
pointer addresses. -/
def raff_dataContent (h : Heap) (data : Nat) : List Nat :=
  ((h.buf (h.data data).start.buf).drop (h.data data).start.off).take (h.data data).size

/-! ## Serialisation (`raff.c` lines 705-794) -/

/-- The struct `SerializationStream`. -/
structure SerializationStream where
  chunk : Nat
  next  : Nat
  deriving DecidableEq, Repr, Inhabited

/-- The callback `snextCb`. -/
def snextCb (h : Heap) (ss : SerializationStream) : Int × SerializationStream :=
  let i := ss.next
  let ss : SerializationStream := { ss with next := (ss.next + 1) % WORD }
  if i < 4 then
    let id :=
      if (h.chunk ss.chunk).type = TYPE_OTHER then (h.chunk ss.chunk).id
      else if (h.chunk ss.chunk).type = TYPE_LIST then LIST_ID
      else RIFF_ID
    ((lowByte (id >>> (8 * (3 - i))) : Nat), ss)
  else if i < 8 then
    let size := (h.chunk ss.chunk).size
    let size := if (h.chunk ss.chunk).type ≠ TYPE_OTHER then (size + 4) % WORD else size
    ((lowByte (size >>> (8 * (i - 4))) : Nat), ss)
  else if (h.chunk ss.chunk).type ≠ TYPE_OTHER then
    if i < 12 then
      ((lowByte ((h.chunk ss.chunk).id >>> (8 * (11 - i))) : Nat), ss)
    else
      let i := i - 12
      if i ≥ (h.chunk ss.chunk).size then (-1, ss)
      else ((lowByte (h.readByte (h.chunk ss.chunk).start i) : Nat), ss)
  else
    let i := i - 8
    if i ≥ (h.chunk ss.chunk).size then (-1, ss)
    else ((lowByte (h.readByte (h.chunk ss.chunk).start i) : Nat), ss)

/-- The function `raff_serializeChunk`. -/
def raff_serializeChunk (chunk : Nat) : SerializationStream := { chunk := chunk, next := 0 }

/-- The loop `while( ( next = snext( stream ) ) >= 0 ) fputc( next, file )`
of `raff_serializeChunkToFile` (lines 785-787): the bytes put into the file. -/
def drain {σ : Type} (next : σ → Int × σ) : Nat → σ → List Nat → Option (List Nat)
  | 0, _, _ => none
  | fuel + 1, stream, out =>
    let r := next stream
    if r.1 ≥ 0 then drain next fuel r.2 (out ++ [toChar r.1]) else some out

/-- The function `raff_serializeChunkToFile` for a path that can be opened:
the contents of the file written, and the heap with `errnum` reset. -/
def raff_serializeChunkToFile (fuel : Nat) (h : Heap) (chunk : Nat) :
    Option (List Nat × Heap) :=
  match drain (snextCb h) fuel (raff_serializeChunk chunk) [] with
  | none => none
  | some bytes => some (bytes, h.setErr raff_ERR_NONE)

/-- The function `raff_openFile` for a path that holds `content`, or cannot
be opened (`none`). -/
def raff_openFile (h : Heap) (content : Option (List Nat)) : Option Nat × Heap :=
  match content with
  | none => (none, h.setErr raff_ERR_CANT_OPEN)
  | some bytes => openStream fnextCb h { file := bytes }

/-! ## The wire format, as the specification words it -/

/-- The four characters `RIFF`, the outer-container marker. -/
def tagRIFF : List Nat := [82, 73, 70, 70]

/-- The four characters `LIST`, the nested-list marker. -/
def tagLIST : List Nat := [76, 73, 83, 84]

/-- A 4-byte little-endian unsigned size. -/
def le32 (n : Nat) : List Nat :=
  [n % 256, n / 256 % 256, n / 65536 % 256, n / 16777216 % 256]

/-- Every element of a byte sequence is a byte. -/
def allBytes (bs : List Nat) : Prop := ∀ b ∈ bs, b < 256

instance (bs : List Nat) : Decidable (allBytes bs) := by
  unfold allBytes; infer_instance

/-- The number that four little-endian bytes encode. -/
def leValue (bs : List Nat) : Nat :=
  bs.getD 0 0 + bs.getD 1 0 * 2 ^ 8 + bs.getD 2 0 * 2 ^ 16 + bs.getD 3 0 * 2 ^ 24

/-- The size that the header of an outer container declares: bytes 4 to 7 of
the stream, little-endian. -/
def declaredSize (s : List Nat) : Nat := leValue ((s.drop 4).take 4)

/-- A 4-byte tag: the four bytes of an ID, most significant first. -/
def be32 (id : raff_ID) : List Nat :=
  [id / 16777216 % 256, id / 65536 % 256, id / 256 % 256, id % 256]

/-- The wire-level tag of a chunk: the `LIST`/`RIFF` marker for a container,
its own id for a leaf. -/
def wireTag (c : raff_Chunk) : raff_ID :=
  match c.type with
  | TYPE_LIST => LIST_ID
  | TYPE_RIFF => RIFF_ID
  | TYPE_OTHER => c.id

/-- The serialised form of a chunk as section 4.5 of the specification lays
it out: tag, little-endian size (payload size, plus 4 for a container), the
sub-ID of a container, then the payload bytes; no pad byte. -/
def wireChunk (h : Heap) (c : raff_Chunk) : List Nat :=
  be32 (wireTag c) ++
  le32 (if c.type = TYPE_OTHER then c.size else c.size + 4) ++
  (if c.type = TYPE_OTHER then [] else be32 c.id) ++
  h.range c

/-- The value that the call number `k` (counted from 0) of `next` returns
when the stream starts in state `stream`. -/
def callSeq {σ : Type} (next : σ → Int × σ) : Nat → σ → Int
  | 0, stream => (next stream).1
  | k + 1, stream => callSeq next k (next stream).2

/-- The item number `k` of the expected output: the byte, or the
end-of-input signal `-1` past the end. -/
def byteOrEnd (bs : List Nat) (k : Nat) : Int :=
  match bs[k]? with
  | some b => (b : Int)
  | none => -1

/-- The description of a child chunk: its type, its id and its payload. -/
structure Child where
  type    : raff_Type
  id      : raff_ID
  payload : List Nat
  deriving DecidableEq, Repr, Inhabited

/-- The wire-level tag of a described child. -/
def childTag (d : Child) : raff_ID :=
  match d.type with
  | TYPE_LIST => LIST_ID
  | TYPE_RIFF => RIFF_ID
  | TYPE_OTHER => d.id

/-- The nested-chunk wire format of section 6 of the specification: tag,
little-endian size (the payload length, plus 4 for a `LIST`/`RIFF` child,
whose size includes the sub-ID), the sub-ID of a `LIST`/`RIFF` child, the
payload, and one zero pad byte when the payload length is odd. -/
def wireChild (d : Child) : List Nat :=
  be32 (childTag d) ++
  le32 (if d.type = TYPE_OTHER then d.payload.length else d.payload.length + 4) ++
  (if d.type = TYPE_OTHER then [] else be32 d.id) ++
  d.payload ++
  (if d.payload.length % 2 = 1 then [0] else [])

/-- The wire format of a sequence of children: their encodings in order. -/
def wireChildren : List Child → List Nat
  | [] => []
  | d :: ds => wireChild d ++ wireChildren ds

/-- The child that a chunk in the heap is: its type, id and the bytes of its
range. -/
def Heap.child (h : Heap) (p : Nat) : Child :=
  { type := (h.chunk p).type, id := (h.chunk p).id, payload := h.range (h.chunk p) }

/-- The chunks `ps` are linked by their `next` fields, starting at `first`
and ending with `NULL`. -/
def IsChain (h : Heap) : Option Nat → List Nat → Prop
  | none, [] => True
  | some p, q :: qs => p = q ∧ IsChain h (h.chunk q).next qs
  | none, _ :: _ => False
  | some _, [] => False

instance instDecidableIsChain (h : Heap) : (first : Option Nat) → (ps : List Nat) →
    Decidable (IsChain h first ps)
  | none, [] => isTrue trivial
  | some p, q :: qs =>
    match decEq p q, instDecidableIsChain h (h.chunk q).next qs with
    | isTrue e, isTrue c => isTrue ⟨e, c⟩
    | isFalse e, _ => isFalse (fun hc => e hc.1)
    | _, isFalse c => isFalse (fun hc => c hc.2)
  | none, _ :: _ => isFalse (fun hc => hc)
  | some _, [] => isFalse (fun hc => hc)

/-- The chunks reached from `first` through at most `fuel` `next` links. -/
def chainOf (h : Heap) : Nat → Option Nat → List Nat
  | _, none => []
  | 0, some _ => []
  | fuel + 1, some p => p :: chainOf h fuel (h.chunk p).next

/-- An id that `parseID` reads back from its own four bytes: `raff_newID`
of the bytes is the id. -/
def idOK (id : raff_ID) : Prop := raff_newID (be32 id) = id

instance (id : raff_ID) : Decidable (idOK id) := by
  unfold idOK; infer_instance

/-- An id of four non-zero 7-bit characters. -/
def asciiID (id : raff_ID) : Prop :=
  id < 2 ^ 32 ∧ ∀ b ∈ be32 id, 0 < b ∧ b < 128

instance (id : raff_ID) : Decidable (asciiID id) := by
  unfold asciiID; infer_instance

/-- A child that the wire format can carry: its id is read back by
`parseID`, a leaf does not carry a structural marker as its id, and its size
field fits four bytes. -/
def okChild (d : Child) : Prop :=
  idOK d.id ∧ (d.type = TYPE_OTHER → d.id ≠ RIFF_ID ∧ d.id ≠ LIST_ID) ∧
    d.payload.length + 4 < 2 ^ 32

instance (d : Child) : Decidable (okChild d) := by
  unfold okChild; infer_instance

/-- The header length of a child on the wire: 8 bytes, or 12 with a sub-ID. -/
def hdrLen (d : Child) : Nat := if d.type = TYPE_OTHER then 8 else 12

/-- The chunk records that parsing the children `ds` allocates, the first at
index `base`, the payload of the first child's encoding starting at offset
`off` of buffer `buf`. -/
def parsedChunks (file list buf : Nat) : Nat → Nat → List Child → List raff_Chunk
  | _, _, [] => []
  | off, base, d :: ds =>
    { next := if ds = [] then none else some (base + 1), file := file, list := some list,
      type := d.type, id := d.id, size := d.payload.length,
      start := { buf := buf, off := off + hdrLen d }, asList := none, asData := none } ::
    parsedChunks file list buf (off + (wireChild d).length) (base + 1) ds

/-- The assignment `lastChunk->next = sub` of the parsing loop on the array
of chunks; nothing to link when there is no last chunk yet. -/
def linkLast (chunks : List raff_Chunk) (last : Option Nat) (sub : Nat) : List raff_Chunk :=
  match last with
  | some l => chunks.set l { chunks.getD l default with next := some sub }
  | none => chunks

/-- The heap holds the records `parsedChunks … base ds` at the indices from `base`. -/
def HoldsParsed (H : Heap) (file list buf off base : Nat) (ds : List Child) : Prop :=
  ∀ i, i < ds.length → H.chunk (base + i) = (parsedChunks file list buf off base ds).getD i default

/-- The heap in which `raff_chunkAsList` runs its loop: the list is allocated. -/
def withNewList (h : Heap) (c : Nat) : Heap :=
  { h with lists := h.lists ++
      [{ file := (h.chunk c).file, id := (h.chunk c).id, cursor := none,
         first := none, last := none, asChunk := some c }] }

/-- The bytes found where a child is expected are corrupt: they are fewer
than the 8 bytes of tag and size, or the tag is `LIST`/`RIFF` and they are
fewer than the 12 bytes that include the sub-ID, or the declared size plus
the pad byte of an odd size runs past their end. -/
def corruptChild (bad : List Nat) : Prop :=
  bad ≠ [] ∧
  (bad.length < 8 ∨
   ((bad.take 4 = tagLIST ∨ bad.take 4 = tagRIFF) ∧ bad.length < 12) ∨
   bad.length < 8 + leValue ((bad.drop 4).take 4) + leValue ((bad.drop 4).take 4) % 2)

instance (bad : List Nat) : Decidable (corruptChild bad) := by
  unfold corruptChild; infer_instance

/-- What a failed `parseNextChunk` leaves behind. -/
def FailFrame (h H : Heap) : Prop :=
  H.errnum = raff_ERR_CORRUPT ∧ H.bufs = h.bufs ∧ H.lists = h.lists ∧
    ∃ xs, H.chunks = h.chunks ++ xs

/-! ## Concrete inputs -/

/-- The file `sample.wav` that `test-gen.c` writes: a `WAVE` form with a
16-byte `fmt ` chunk and an 8-byte `data` chunk. -/
def wavBytes : List Nat :=
  [82, 73, 70, 70, 44, 0, 0, 0, 87, 65, 86, 69,
   102, 109, 116, 32, 16, 0, 0, 0, 1, 0, 2, 0, 34, 86, 0, 0, 136, 88, 1, 0, 4, 0, 16, 0,
   100, 97, 116, 97, 8, 0, 0, 0, 236, 255, 1, 0, 228, 255, 253, 255]

/-- The heap after `raff_openFile( "sample.wav" )`; the root chunk is chunk 0. -/
def wavHeap : Heap := (raff_openFile Heap.empty (some wavBytes)).2

/-- The two children of the `WAVE` form of `sample.wav`. -/
def wavChildren : List Child :=
  [{ type := TYPE_OTHER, id := raff_newID [102, 109, 116, 32],
     payload := [1, 0, 2, 0, 34, 86, 0, 0, 136, 88, 1, 0, 4, 0, 16, 0] },
   { type := TYPE_OTHER, id := raff_newID [100, 97, 116, 97],
     payload := [236, 255, 1, 0, 228, 255, 253, 255] }]

/-- A leaf child described with the `LIST` marker as its id and the payload
`abcd`. -/
def markerLeaf : Child := { type := TYPE_OTHER, id := LIST_ID, payload := [97, 98, 99, 100] }

/-- The heap after opening a container whose payload is the encoding of
`markerLeaf`; the root chunk is chunk 0. -/
def markerLeafHeap : Heap :=
  (raff_openFile Heap.empty
    (some (tagRIFF ++ le32 16 ++ [87, 65, 86, 69] ++ wireChildren [markerLeaf]))).2

/-! ## Well-formed states and scripts of calls -/

/-- A leaf chunk that the wire format carries faithfully. -/
def GoodLeaf (h : Heap) (p : Nat) : Prop :=
  (h.chunk p).type = TYPE_OTHER ∧ h.inBounds (h.chunk p) ∧ idOK (h.chunk p).id ∧
    (h.chunk p).id ≠ RIFF_ID ∧ (h.chunk p).id ≠ LIST_ID ∧ allBytes (h.range (h.chunk p))

instance (h : Heap) (p : Nat) : Decidable (GoodLeaf h p) := by
  unfold GoodLeaf; infer_instance

/-! ## More concrete inputs -/

/-- The leaf `fmt ` with a two-byte payload. -/
def shortFmt : Child :=
  { type := TYPE_OTHER, id := raff_newID [102, 109, 116, 32], payload := [1, 2] }

/-- The bytes of a `data` child that declares eight payload bytes and brings two. -/
def truncatedData : List Nat := [100, 97, 116, 97, 8, 0, 0, 0, 1, 2]

/-- The heap after opening a container whose payload is the encoding of `shortFmt`
followed by `truncatedData`; the root chunk is chunk 0. -/
def corruptHeap : Heap :=
  (raff_openFile Heap.empty
    (some (tagRIFF ++ le32 24 ++ [87, 65, 86, 69] ++ wireChildren [shortFmt] ++
      truncatedData))).2

/-- The calls `file = raff_newFile()`, `inner = raff_newList( file, "abcd" )`,
`d = raff_newData( file, "data", {1,2,3,4}, 4 )`,
`raff_prepend( inner, raff_dataAsChunk( d ) )`,
`ic = raff_listAsChunk( inner, false )`, `outer = raff_newList( file, "WAVE" )`,
`raff_prepend( outer, ic )`, on fresh memory that holds zeros: the list `outer`, the
chunk `ic` and the heap reached. -/
def nestedScript : Option (Nat × Nat × Heap) :=
  let f := raff_newFile Heap.empty
  let inner := raff_newList f.2 f.1 (raff_newID [97, 98, 99, 100]) none
  let d := raff_newData inner.2 f.1 (raff_newID [100, 97, 116, 97]) [1, 2, 3, 4] 4
  let dc := raff_dataAsChunk d.2 d.1 none
  match raff_prepend dc.2 inner.1 dc.1 with
  | none => none
  | some h1 =>
    match raff_listAsChunk 2 h1 inner.1 false with
    | none => none
    | some ic =>
      let outer := raff_newList ic.2 f.1 (raff_newID [87, 65, 86, 69]) none
      match raff_prepend outer.2 outer.1 ic.1 with
      | none => none
      | some h2 => some (outer.1, ic.1, h2)

/-- The list `outer` of `nestedScript`. -/
def nestedOuter : Nat := (nestedScript.getD (0, 0, Heap.empty)).1

/-- The chunk `ic` of `nestedScript`, the only child of `outer`. -/
def nestedInner : Nat := (nestedScript.getD (0, 0, Heap.empty)).2.1

/-- The heap that `nestedScript` reaches. -/
def nestedHeap : Heap := (nestedScript.getD (0, 0, Heap.empty)).2.2

/-- The calls `file = raff_newFile()`, `list = raff_newList( file, "WAVE" )`,
`raff_prepend( list, raff_dataAsChunk( raff_newData( file, "fmt ", {9,8}, 2 ) ) )`,
`raff_prepend( list, raff_dataAsChunk( raff_newData( file, "data", {1,2,3}, 3 ) ) )`, on
fresh memory that holds zeros: the list (list 0) has the three-byte leaf `data`
(chunk 1) followed by the leaf `fmt ` (chunk 0). -/
def oddHeap : Heap :=
  let f := raff_newFile Heap.empty
  let l := raff_newList f.2 f.1 (raff_newID [87, 65, 86, 69]) none
  let d1 := raff_newData l.2 f.1 (raff_newID [102, 109, 116, 32]) [9, 8] 2
  let c1 := raff_dataAsChunk d1.2 d1.1 none
  let h1 := (raff_prepend c1.2 l.1 c1.1).getD Heap.empty
  let d2 := raff_newData h1 f.1 (raff_newID [100, 97, 116, 97]) [1, 2, 3] 3
  let c2 := raff_dataAsChunk d2.2 d2.1 none
  (raff_prepend c2.2 l.1 c2.1).getD Heap.empty

/-- The calls `file = raff_newFile()`, `l1 = raff_newList( file, "WAVE" )`,
`l2 = raff_newList( file, "INFO" )`,
`x = raff_dataAsChunk( raff_newData( file, "data", {1,2}, 2 ) )`, on fresh memory
that holds zeros: the lists are 0 and 1, the chunk `x` is chunk 0. -/
def twoListsHeap : Heap :=
  let f := raff_newFile Heap.empty
  let l1 := raff_newList f.2 f.1 (raff_newID [87, 65, 86, 69]) none
  let l2 := raff_newList l1.2 f.1 (raff_newID [73, 78, 70, 79]) none
  let d := raff_newData l2.2 f.1 (raff_newID [100, 97, 116, 97]) [1, 2] 2
  (raff_dataAsChunk d.2 d.1 none).2

/-- The calls `file = raff_newFile()`,
`x = raff_dataAsChunk( raff_newData( file, "data", {1,2}, 2 ) )`,
`list = raff_newList( file, "WAVE" )`, where the memory that `raff_newList` obtains
holds the non-null pointer `junk` at the place of the field `last`: the chunk `x` is
chunk 0 and the list is list 0. -/
def junkListHeap (junk : Nat) : Heap :=
  let f := raff_newFile Heap.empty
  let d := raff_newData f.2 f.1 (raff_newID [100, 97, 116, 97]) [1, 2] 2
  let x := raff_dataAsChunk d.2 d.1 none
  (raff_newList x.2 f.1 (raff_newID [87, 65, 86, 69]) (some junk)).2

/-- The heap after opening a container whose 16 payload bytes are a `LIST` child that
declares the size 0, with sub-ID `abcd`, followed by four zero bytes; the root chunk
is chunk 0. -/
def wrapHeap : Heap :=
  (raff_openFile Heap.empty
    (some (tagRIFF ++ le32 20 ++ [87, 65, 86, 69] ++
      tagLIST ++ [0, 0, 0, 0] ++ [97, 98, 99, 100] ++ [0, 0, 0, 0]))).2

/-- The heap of `oddHeap` after `c0 = raff_listAsChunk( list, true )` (chunk 2, cached
by the list) and `x = raff_dataAsChunk( raff_newData( file, "note", {7}, 1 ) )`
(chunk 3, in no list). -/
def cachedHeap : Heap :=
  let r := (raff_listAsChunk 3 oddHeap 0 true).getD (0, Heap.empty)
  let d := raff_newData r.2 0 (raff_newID [110, 111, 116, 101]) [7] 1
  (raff_dataAsChunk d.2 d.1 none).2

/-- The heap of `cachedHeap` after `raff_listAsChunk( list, false )`: the cached Riff
chunk 2 is not served, the List chunk 4 is made and replaces it as the cached chunk
of the list. -/
def overwrittenHeap : Heap := ((raff_listAsChunk 3 cachedHeap 0 false).getD (0, Heap.empty)).2

/-- The heap of `overwrittenHeap` after `raff_append( list, x )`, `x` being chunk 3. -/
def staleHeap : Heap := (raff_append overwrittenHeap 0 3).getD Heap.empty

/-! ## The generator of `test-gen.c` -/

/-- A leaf to generate: its id, its content, and the value that the fresh memory of
its chunk holds at the field `asList`, which `raff_dataAsChunk` does not assign. -/
structure Leaf where
  id         : raff_ID
  content    : List Nat
  asListJunk : Option Nat
  deriving DecidableEq, Repr, Inhabited

/-- The calls `dat = raff_newData( file, id, content, sizeof(content) )`,
`ck = raff_dataAsChunk( dat )`, `raff_prepend( list, ck )` of `test-gen.c` for one
leaf; `none` when an assertion of `raff_prepend` fails. -/
def prependLeaf (h : Heap) (file list : Nat) (lf : Leaf) : Option Heap :=
  let d := raff_newData h file lf.id lf.content lf.content.length
  let c := raff_dataAsChunk d.2 d.1 lf.asListJunk
  raff_prepend c.2 list c.1

/-- The calls of `prependLeaf` for the leaves in turn. -/
def prependLeaves (file list : Nat) : Heap → List Leaf → Option Heap
  | h, [] => some h
  | h, lf :: lfs =>
    match prependLeaf h file list lf with
    | none => none
    | some h1 => prependLeaves file list h1 lfs

/-- The generator: `file = raff_newFile()`, `list = raff_newList( file, F )`, then the
leaves prepended in turn; the list and the heap reached.  The memory that
`raff_newList` obtains holds `lastJunk` at the field `last`. -/
def genList (h : Heap) (F : raff_ID) (lastJunk : Option Nat) (leaves : List Leaf) :
    Option (Nat × Heap) :=
  let f := raff_newFile h
  let l := raff_newList f.2 f.1 F lastJunk
  match prependLeaves f.1 l.1 l.2 leaves with
  | none => none
  | some h1 => some (l.1, h1)

/-- The child that a generated leaf is. -/
def leafChild (lf : Leaf) : Child := { type := TYPE_OTHER, id := lf.id, payload := lf.content }

/-- The child sequence of the generated list: the leaves, the last prepended first. -/
def genChildren (leaves : List Leaf) : List Child := leaves.reverse.map leafChild

/-- The state of a list of leaf chunks under construction: the list is valid, belongs
to the file, has no cached chunk, its children `ps` are linked from `first`, they are
valid leaf chunks whose ranges lie in allocated buffers, and they are the described
children `ds`. -/
def LeafListInv (h : Heap) (file list : Nat) (ps : List Nat) (ds : List Child) : Prop :=
  list < h.lists.length ∧ (h.list list).file = file ∧ (h.list list).asChunk = none ∧
  IsChain h (h.list list).first ps ∧ ps.map h.child = ds ∧
  ∀ p ∈ ps, p < h.chunks.length ∧ (h.chunk p).start.buf < h.bufs.length ∧
    (h.chunk p).type = TYPE_OTHER ∧ h.inBounds (h.chunk p)

/-- The two leaves of `test-gen.c` in the order in which they are prepended: `data`,
then `fmt `; the fresh memory holds zeros. -/
def wavLeaves : List Leaf :=
  [{ id := raff_newID [100, 97, 116, 97],
     content := [236, 255, 1, 0, 228, 255, 253, 255], asListJunk := none },
   { id := raff_newID [102, 109, 116, 32],
     content := [1, 0, 2, 0, 34, 86, 0, 0, 136, 88, 1, 0, 4, 0, 16, 0], asListJunk := none }]

/-! ## Specification-level notions -/

/-- The integer whose four big-endian bytes are the characters `cs` followed by zero
bytes: the sum of `c_i * 2 ^ (8 * (3 - i))`. -/
def packedID (cs : List Nat) : Nat :=
  cs.getD 0 0 * 2 ^ 24 + cs.getD 1 0 * 2 ^ 16 + cs.getD 2 0 * 2 ^ 8 + cs.getD 3 0

/-- The four on-disk bytes of a string of at most four characters: the characters,
right-padded with zero bytes. -/
def padded4 (cs : List Nat) : List Nat := [cs.getD 0 0, cs.getD 1 0, cs.getD 2 0, cs.getD 3 0]

/-- The values that `k` successive calls of `raff_next` return, in order, and the heap
after them. -/
def nextCalls (list : Nat) : Nat → Heap → List (Option Nat) × Heap
  | 0, h => ([], h)
  | k + 1, h =>
    ((raff_next h list).1 :: (nextCalls list k (raff_next h list).2).1,
      (nextCalls list k (raff_next h list).2).2)

/-- The data view that a chunk caches, if any, has the id, size and start of the
chunk: `raff_chunkAsData` and `raff_dataAsChunk`, which set `asData`, make it so. -/
def DataCoherent (h : Heap) (c : Nat) : Prop :=
  match (h.chunk c).asData with
  | none => True
  | some d =>
    (h.data d).id = (h.chunk c).id ∧ (h.data d).size = (h.chunk c).size ∧
      (h.data d).start = (h.chunk c).start

instance (h : Heap) (c : Nat) : Decidable (DataCoherent h c) := by
  unfold DataCoherent; split <;> infer_instance

/-- The bytes that one turn of the serialisation loop of `raff_listAsChunk` (lines
461-491) writes for the chunk `iter`: the tag, the size field, the sub-ID of a
List/Riff chunk, the payload and the pad byte of an odd payload. -/
def encodeChild (h : Heap) (iter : Nat) : List Nat :=
  let data : List Nat := []
  let data :=
    if (h.chunk iter).type ≠ TYPE_OTHER then
      let data :=
        if (h.chunk iter).type = TYPE_RIFF then addID data RIFF_ID
        else addID data LIST_ID
      let data := addSize data (h.chunk iter).size
      addID data (h.chunk iter).id
    else
      let data := addID data (h.chunk iter).id
      addSize data (h.chunk iter).size
  let data := data ++ copyBytes (h.readByte (h.chunk iter).start) (h.chunk iter).size
  if (h.chunk iter).size % 2 = 1 then data ++ [0] else data

/-- The bytes that the serialisation loop of `raff_listAsChunk` writes for the chunks
`ps`, in order. -/
def encodeChildren (h : Heap) : List Nat → List Nat
  | [] => []
  | p :: ps => encodeChild h p ++ encodeChildren h ps

/-- The chunk that a list caches, if any, is a List/Riff chunk that caches the list:
`raff_listAsChunk` and `raff_chunkAsList`, which set `asChunk`, make it so. -/
def ListCacheCoherent (h : Heap) (list : Nat) : Prop :=
  match (h.list list).asChunk with
  | none => True
  | some c0 => (h.chunk c0).type ≠ TYPE_OTHER ∧ (h.chunk c0).asList = some list

instance (h : Heap) (list : Nat) : Decidable (ListCacheCoherent h list) := by
  unfold ListCacheCoherent; split <;> infer_instance

/-- The list that a chunk caches, if any, has the chunk as its cached chunk. -/
def ChunkCacheCoherent (h : Heap) (c : Nat) : Prop :=
  match (h.chunk c).asList with
  | none => True
  | some l0 => (h.list l0).asChunk = some c

instance (h : Heap) (c : Nat) : Decidable (ChunkCacheCoherent h c) := by
  unfold ChunkCacheCoherent; split <;> infer_instance

/-- The chunk that a data view caches, if any, is a chunk of type Other that caches
the data view and has its id, size and start: `raff_dataAsChunk` and
`raff_chunkAsData`, which set `asChunk`, make it so. -/
def DataCacheCoherent (h : Heap) (d : Nat) : Prop :=
  match (h.data d).asChunk with
  | none => True
  | some c0 =>
    (h.chunk c0).type = TYPE_OTHER ∧ (h.chunk c0).asData = some d ∧
      (h.chunk c0).id = (h.data d).id ∧ (h.chunk c0).size = (h.data d).size ∧
      (h.chunk c0).start = (h.data d).start

instance (h : Heap) (d : Nat) : Decidable (DataCacheCoherent h d) := by
  unfold DataCacheCoherent; split <;> infer_instance

/-- The state of the chunks that the parsing loop has made so far: they are the `j`
chunks from index `base`, each linked to the next and the last to `NULL`, and
`first` and `last` point to the first and the last of them. -/
def Linked (h : Heap) (base j : Nat) (first last : Option Nat) : Prop :=
  (j = 0 → first = none ∧ last = none) ∧
  (0 < j → first = some base ∧ last = some (base + j - 1)) ∧
  ∀ i, i < j → (h.chunk (base + i)).next = if i + 1 < j then some (base + i + 1) else none

/-- The size that the specification gives for the chunk of a list: for every child 8,
plus 4 if the child is a List/Riff, plus the payload size rounded up to the next even
number. -/
def listSizeSpec (h : Heap) : List Nat → Nat
  | [] => 0
  | p :: ps =>
    8 + (if (h.chunk p).type = TYPE_OTHER then 0 else 4) +
      ((h.chunk p).size + (h.chunk p).size % 2) + listSizeSpec h ps

/-- Four bytes that `raff_newID` packs faithfully: 7-bit characters, zero bytes only
as padding at the end. -/
def plainTag (bs : List Nat) : Prop :=
  bs.length = 4 ∧ (∀ b ∈ bs, b < 128) ∧
    (bs.getD 0 0 = 0 → bs.getD 1 0 = 0) ∧ (bs.getD 1 0 = 0 → bs.getD 2 0 = 0) ∧
    (bs.getD 2 0 = 0 → bs.getD 3 0 = 0)

instance (bs : List Nat) : Decidable (plainTag bs) := by
  unfold plainTag; infer_instance

/-! ## Bit-level facts -/

theorem or_eq_add_of_dvd (x y k : Nat) (hx : 2 ^ k ∣ x) (hy : y < 2 ^ k) : x ||| y = x + y := by
  obtain ⟨q, rfl⟩ := hx
  exact (Nat.mul_add_lt_is_or hy q).symm

theorem pack_be (a b c d : Nat) (hb : b < 256) (hc : c < 256) (hd : d < 256) :
    (a <<< 24) ||| (b <<< 16) ||| (c <<< 8) ||| d = a * 2 ^ 24 + b * 2 ^ 16 + c * 2 ^ 8 + d := by
  simp only [Nat.shiftLeft_eq]
  rw [or_eq_add_of_dvd (a * 2 ^ 24) (b * 2 ^ 16) 24 (Dvd.intro_left _ rfl) (by omega),
    or_eq_add_of_dvd _ (c * 2 ^ 8) 16 (by omega) (by omega),
    or_eq_add_of_dvd _ d 8 (by omega) (by omega)]

theorem pack_le (a b c d : Nat) (ha : a < 256) (hb : b < 256) (hc : c < 256) :
    a ||| (b <<< 8) ||| (c <<< 16) ||| (d <<< 24) = a + b * 2 ^ 8 + c * 2 ^ 16 + d * 2 ^ 24 := by
  simp only [Nat.shiftLeft_eq]
  rw [Nat.or_comm a, or_eq_add_of_dvd (b * 2 ^ 8) a 8 (Dvd.intro_left _ rfl) (by omega),
    Nat.or_comm _ (c * 2 ^ 16), or_eq_add_of_dvd (c * 2 ^ 16) _ 16 (Dvd.intro_left _ rfl) (by omega),
    Nat.or_comm _ (d * 2 ^ 24), or_eq_add_of_dvd (d * 2 ^ 24) _ 24 (Dvd.intro_left _ rfl) (by omega)]
  omega

theorem RIFF_ID_val : RIFF_ID = 1380533830 := by decide
theorem LIST_ID_val : LIST_ID = 1279873876 := by decide
theorem WORD_val : WORD = 18446744073709551616 := by decide

theorem toChar_natCast (b : Nat) (hb : b < 256) : toChar (b : Int) = b := by
  unfold toChar; omega

theorem toChar_lt (i : Int) : toChar i < 256 := by
  unfold toChar; omega

theorem lowByte_lt (x : Nat) : lowByte x < 256 := by
  unfold lowByte; omega

theorem lowByte_of_lt (x : Nat) (h : x < 256) : lowByte x = x := by
  unfold lowByte; omega

theorem charToLong_of_lt (c : Nat) (h : c < 128) : charToLong c = c := by
  simp [charToLong, h]

/-- The value of `raff_newID` on four non-zero 7-bit characters. -/
theorem raff_newID_ascii (a b c d : Nat) (ha : 0 < a ∧ a < 128) (hb : 0 < b ∧ b < 128)
    (hc : 0 < c ∧ c < 128) (hd : 0 < d ∧ d < 128) (tl : List Nat) :
    raff_newID (a :: b :: c :: d :: tl) = a * 2 ^ 24 + b * 2 ^ 16 + c * 2 ^ 8 + d := by
  have h0 : a ≠ 0 := by omega
  have h1 : b ≠ 0 := by omega
  have h2 : c ≠ 0 := by omega
  have h3 : d ≠ 0 := by omega
  simp only [raff_newID, List.getD_cons_zero, List.getD_cons_succ, h0, h1, h2, h3, if_false,
    charToLong_of_lt _ ha.2, charToLong_of_lt _ hb.2, charToLong_of_lt _ hc.2,
    charToLong_of_lt _ hd.2, Nat.zero_or]
  have e1 : (a <<< 24) % WORD = a <<< 24 := by
    rw [Nat.shiftLeft_eq, WORD_val]; omega
  have e2 : (b <<< 16) % WORD = b <<< 16 := by
    rw [Nat.shiftLeft_eq, WORD_val]; omega
  have e3 : (c <<< 8) % WORD = c <<< 8 := by
    rw [Nat.shiftLeft_eq, WORD_val]; omega
  rw [e1, e2, e3]
  exact pack_be a b c d (by omega) (by omega) (by omega)

theorem hi_shift (b k : Nat) (hk : k = 24 ∨ k = 16 ∨ k = 8 ∨ k = 0) (h1 : 128 ≤ b) (h2 : b < 256) :
    ((charToLong b <<< k) % WORD).testBit 32 = true := by
  have hc : charToLong b = b + (WORD - 256) := by
    simp [charToLong]; omega
  rw [hc, Nat.testBit_to_div_mod, Nat.shiftLeft_eq, WORD_val]
  rcases hk with rfl | rfl | rfl | rfl <;> simp <;> omega

theorem hi_last (b : Nat) (h1 : 128 ≤ b) (h2 : b < 256) :
    (charToLong b).testBit 32 = true := by
  have := hi_shift b 0 (by simp) h1 h2
  have hc : charToLong b < WORD := by
    simp [charToLong, WORD_val]; split <;> omega
  simpa [Nat.mod_eq_of_lt hc] using this

theorem lo_shift (b k : Nat) (hk : k = 24 ∨ k = 16 ∨ k = 8) (h2 : b < 128) :
    (charToLong b <<< k) % WORD = b <<< k := by
  rw [charToLong_of_lt b h2, Nat.shiftLeft_eq, WORD_val]
  rcases hk with rfl | rfl | rfl <;> omega

/-- A shifted character whose bit 32 is clear was not sign-extended. -/
theorem term_lo (b k : Nat) (hk : k = 24 ∨ k = 16 ∨ k = 8) (hb : b < 256)
    (h32 : ((charToLong b <<< k) % WORD).testBit 32 = false) :
    b < 128 ∧ (charToLong b <<< k) % WORD = b <<< k ∧
      ((charToLong b <<< k) % WORD).testBit 1 = false := by
  have hlt : b < 128 := by
    by_contra hge
    rw [hi_shift b k (by omega) (by omega) hb] at h32
    cases h32
  refine ⟨hlt, lo_shift b k hk hlt, ?_⟩
  rw [lo_shift b k hk hlt, Nat.testBit_shiftLeft]
  rcases hk with rfl | rfl | rfl <;> simp

theorem last_lo (b : Nat) (hb : b < 256) (h32 : (charToLong b).testBit 32 = false) :
    b < 128 ∧ charToLong b = b := by
  have hlt : b < 128 := by
    by_contra hge
    rw [hi_last b (by omega) hb] at h32
    cases h32
  exact ⟨hlt, charToLong_of_lt b hlt⟩

theorem RIFF_ID_bit32 : RIFF_ID.testBit 32 = false := by
  rw [RIFF_ID_val, Nat.testBit_to_div_mod]; decide

theorem RIFF_ID_bit1 : RIFF_ID.testBit 1 = true := by
  rw [RIFF_ID_val, Nat.testBit_to_div_mod]; decide

/-- Base-256 digits are unique. -/
theorem unpack4 (a b c d a' b' c' d' : Nat) (hb : b < 256) (hc : c < 256)
    (hd : d < 256) (hb' : b' < 256) (hc' : c' < 256) (hd' : d' < 256)
    (h : a * 2 ^ 24 + b * 2 ^ 16 + c * 2 ^ 8 + d = a' * 2 ^ 24 + b' * 2 ^ 16 + c' * 2 ^ 8 + d') :
    a = a' ∧ b = b' ∧ c = c' ∧ d = d' := by
  have e3 : d = d' := by omega
  have e2 : c = c' := by omega
  have e1 : b = b' := by omega
  have e0 : a = a' := by omega
  exact ⟨e0, e1, e2, e3⟩

/-- Only the four characters `RIFF` are packed to `RIFF_ID`. -/
theorem raff_newID_eq_RIFF (b0 b1 b2 b3 : Nat) (h0 : b0 < 256) (h1 : b1 < 256) (h2 : b2 < 256)
    (h3 : b3 < 256) (tl : List Nat) :
    raff_newID (b0 :: b1 :: b2 :: b3 :: tl) = RIFF_ID ↔ (b0 = 82 ∧ b1 = 73 ∧ b2 = 70 ∧ b3 = 70) := by
  constructor
  · intro h
    simp only [raff_newID, List.getD_cons_zero, List.getD_cons_succ, Nat.zero_or] at h
    have hb32 := congrArg (fun x => Nat.testBit x 32) h
    have hb1 := congrArg (fun x => Nat.testBit x 1) h
    simp only [RIFF_ID_bit32, RIFF_ID_bit1] at hb32 hb1
    split_ifs at h hb32 hb1
    · simp at hb1
    · have t0 := term_lo b0 24 (by omega) h0 hb32
      rw [t0.2.2] at hb1; cases hb1
    · simp only [Nat.testBit_or, Bool.or_eq_false_iff] at hb32
      have t0 := term_lo b0 24 (by omega) h0 hb32.1
      have t1 := term_lo b1 16 (by omega) h1 hb32.2
      simp [Nat.testBit_or, t0.2.2, t1.2.2] at hb1
    · simp only [Nat.testBit_or, Bool.or_eq_false_iff] at hb32
      have t0 := term_lo b0 24 (by omega) h0 hb32.1.1
      have t1 := term_lo b1 16 (by omega) h1 hb32.1.2
      have t2 := term_lo b2 8 (by omega) h2 hb32.2
      simp [Nat.testBit_or, t0.2.2, t1.2.2, t2.2.2] at hb1
    · simp only [Nat.testBit_or, Bool.or_eq_false_iff] at hb32
      have t0 := term_lo b0 24 (by omega) h0 hb32.1.1.1
      have t1 := term_lo b1 16 (by omega) h1 hb32.1.1.2
      have t2 := term_lo b2 8 (by omega) h2 hb32.1.2
      have t3 := last_lo b3 h3 hb32.2
      rw [t0.2.1, t1.2.1, t2.2.1, t3.2, pack_be b0 b1 b2 b3 h1 h2 h3, RIFF_ID_val] at h
      exact unpack4 b0 b1 b2 b3 82 73 70 70 h1 h2 h3 (by omega) (by omega) (by omega) h
  · rintro ⟨rfl, rfl, rfl, rfl⟩
    rw [raff_newID_ascii 82 73 70 70 (by omega) (by omega) (by omega) (by omega) tl, RIFF_ID_val]
    norm_num

/-! ## Reading from a file stream -/

theorem parseID_file (b0 b1 b2 b3 : Nat) (rest : List Nat) :
    parseID fnextCb { file := b0 :: b1 :: b2 :: b3 :: rest } =
      (some (raff_newID [toChar b0, toChar b1, toChar b2, toChar b3, 0]), { file := rest }) := by
  have n0 : ¬ ((b0 : Int) < 0) := by omega
  have n1 : ¬ ((b1 : Int) < 0) := by omega
  have n2 : ¬ ((b2 : Int) < 0) := by omega
  have n3 : ¬ ((b3 : Int) < 0) := by omega
  simp [parseID, fnextCb, n0, n1, n2, n3]

theorem parseID_file_short (s : List Nat) (hs : s.length < 4) :
    (parseID fnextCb { file := s }).1 = none := by
  match s, hs with
  | [], _ => simp [parseID, fnextCb]
  | [_], _ => simp [parseID, fnextCb]
  | [_, _], _ => simp [parseID, fnextCb]
  | [_, _, _], _ => simp [parseID, fnextCb]

theorem parseSize_file (b0 b1 b2 b3 : Nat) (rest : List Nat) :
    parseSize fnextCb { file := b0 :: b1 :: b2 :: b3 :: rest } =
      (some ((b0 ||| (b1 <<< 8) ||| (b2 <<< 16) ||| (b3 <<< 24)) % WORD), { file := rest }) := by
  have n0 : ¬ ((b0 : Int) < 0) := by omega
  have n1 : ¬ ((b1 : Int) < 0) := by omega
  have n2 : ¬ ((b2 : Int) < 0) := by omega
  have n3 : ¬ ((b3 : Int) < 0) := by omega
  simp [parseSize, fnextCb, n0, n1, n2, n3]

theorem parseSize_file_short (s : List Nat) (hs : s.length < 4) :
    (parseSize fnextCb { file := s }).1 = none := by
  match s, hs with
  | [], _ => simp [parseSize, fnextCb]
  | [_], _ => simp [parseSize, fnextCb]
  | [_, _], _ => simp [parseSize, fnextCb]
  | [_, _, _], _ => simp [parseSize, fnextCb]

/-- Four little-endian bytes combine to the number they encode. -/
theorem le32_value (n : Nat) (hn : n < 2 ^ 32) :
    ((n % 256) ||| ((n / 256 % 256) <<< 8) ||| ((n / 65536 % 256) <<< 16)
      ||| ((n / 16777216 % 256) <<< 24)) % WORD = n := by
  rw [pack_le _ _ _ _ (by omega) (by omega) (by omega), WORD_val]
  omega

theorem parseSize_file_le32 (n : Nat) (hn : n < 2 ^ 32) (rest : List Nat) :
    parseSize fnextCb { file := le32 n ++ rest } = (some n, { file := rest }) := by
  simp only [le32, List.cons_append, List.nil_append, parseSize_file, le32_value n hn]

theorem allBytes_map_toChar (s : List Nat) (hs : allBytes s) :
    s.map (fun (b : Nat) => toChar (b : Int)) = s := by
  induction s with
  | nil => rfl
  | cons b t ih =>
    have hb : b < 256 := hs b (List.mem_cons_self _ _)
    have ht : allBytes t := fun x hx => hs x (List.mem_cons_of_mem _ hx)
    rw [List.map_cons, ih ht, toChar_natCast b hb]

theorem readData_file_ok (n : Nat) (s data : List Nat) (hn : n ≤ s.length) :
    readData fnextCb n { file := s } data =
      (some (data ++ (s.take n).map (fun (b : Nat) => toChar (b : Int))), { file := s.drop n }) := by
  induction n generalizing s data with
  | zero => simp [readData]
  | succ n ih =>
    match s, hn with
    | b :: t, hn =>
      have nb : ¬ ((b : Int) < 0) := by omega
      have hn2 : n ≤ t.length := by simpa using hn
      simp [readData, fnextCb, nb, ih t _ hn2]

theorem readData_file_short (n : Nat) (s data : List Nat) (hn : s.length < n) :
    (readData fnextCb n { file := s } data).1 = none := by
  induction n generalizing s data with
  | zero => omega
  | succ n ih =>
    match s, hn with
    | [], _ => simp [readData, fnextCb]
    | b :: t, hn =>
      have nb : ¬ ((b : Int) < 0) := by omega
      have hn2 : t.length < n := by simpa using hn
      simp [readData, fnextCb, nb, ih t _ hn2]

/-! ## The paths through `openStream` -/

theorem openStream_notRiff {σ : Type} (next : σ → Int × σ) (h : Heap) (stream : σ)
    (h1 : (parseID next stream).1 ≠ some RIFF_ID) :
    openStream next h stream = (none, h.setErr raff_ERR_NOT_RIFF) := by
  unfold openStream
  simp only [h1, ne_eq, not_false_eq_true, if_true]

theorem openStream_noSize {σ : Type} (next : σ → Int × σ) (h : Heap) (stream s1 : σ)
    (h1 : parseID next stream = (some RIFF_ID, s1))
    (h2 : (parseSize next s1).1 = none) :
    openStream next h stream = (none, h.setErr raff_ERR_CORRUPT) := by
  unfold openStream
  simp only [h1, h2, ne_eq, not_true_eq_false, if_false]

theorem openStream_noForm {σ : Type} (next : σ → Int × σ) (h : Heap) (stream s1 s2 : σ)
    (sz : Nat)
    (h1 : parseID next stream = (some RIFF_ID, s1))
    (h2 : parseSize next s1 = (some sz, s2))
    (h3 : (parseID next s2).1 = none) :
    openStream next h stream = (none, h.setErr raff_ERR_CORRUPT) := by
  unfold openStream
  simp only [h1, h2, h3, ne_eq, not_true_eq_false, if_false]

theorem openStream_short {σ : Type} (next : σ → Int × σ) (h : Heap) (stream s1 s2 s3 : σ)
    (sz id : Nat)
    (h1 : parseID next stream = (some RIFF_ID, s1))
    (h2 : parseSize next s1 = (some sz, s2))
    (h3 : parseID next s2 = (some id, s3))
    (h4 : (readData next (sizeSub4 sz) s3 []).1 = none) :
    openStream next h stream = (none, h.setErr raff_ERR_CORRUPT) := by
  unfold openStream
  simp only [h1, h2, h3, h4, ne_eq, not_true_eq_false, if_false]

theorem openStream_ok {σ : Type} (next : σ → Int × σ) (h : Heap) (stream s1 s2 s3 : σ)
    (sz id : Nat) (data : List Nat)
    (h1 : parseID next stream = (some RIFF_ID, s1))
    (h2 : parseSize next s1 = (some sz, s2))
    (h3 : parseID next s2 = (some id, s3))
    (h4 : (readData next (sizeSub4 sz) s3 []).1 = some data) :
    openStream next h stream =
      (some h.files.length,
        { h with
          files := h.files ++
            [{ chunk := some h.chunks.length, size := sizeSub4 sz,
               data := h.bufs.length }],
          chunks := h.chunks ++
            [{ next := none, file := h.files.length, list := none, type := TYPE_RIFF,
               id := id, size := sizeSub4 sz,
               start := { buf := h.bufs.length, off := 0 },
               asList := none, asData := none }],
          bufs := h.bufs ++ [data],
          errnum := raff_ERR_NONE }) := by
  unfold openStream
  simp only [h1, h2, h3, h4, ne_eq, not_true_eq_false, if_false]

theorem take4_eq (s : List Nat) (a b c d : Nat) (h : s.take 4 = [a, b, c, d]) :
    ∃ t, s = a :: b :: c :: d :: t := by
  match s, h with
  | x0 :: x1 :: x2 :: x3 :: t, h =>
    simp only [List.take_succ_cons, List.take_zero, List.cons.injEq, and_true] at h
    obtain ⟨rfl, rfl, rfl, rfl⟩ := h
    exact ⟨t, rfl⟩

theorem raff_newID_drop_nul (a b c d : Nat) :
    raff_newID [a, b, c, d, 0] = raff_newID [a, b, c, d] := by
  simp [raff_newID]

theorem list_len4 (l : List Nat) (h : l.length = 4) : ∃ a b c d, l = [a, b, c, d] := by
  match l, h with
  | [a, b, c, d], _ => exact ⟨a, b, c, d, rfl⟩

theorem parseID_file_RIFF (rest : List Nat) :
    parseID fnextCb { file := 82 :: 73 :: 70 :: 70 :: rest } = (some RIFF_ID, { file := rest }) := by
  rw [parseID_file]
  have : raff_newID [toChar (82 : Nat), toChar (73 : Nat), toChar (70 : Nat), toChar (70 : Nat), 0]
      = RIFF_ID := by
    rw [toChar_natCast 82 (by omega), toChar_natCast 73 (by omega), toChar_natCast 70 (by omega)]
    exact (raff_newID_eq_RIFF 82 73 70 70 (by omega) (by omega) (by omega) (by omega) [0]).2
      ⟨rfl, rfl, rfl, rfl⟩
  rw [this]

theorem parseID_file_bytes (b0 b1 b2 b3 : Nat) (rest : List Nat) (h0 : b0 < 256) (h1 : b1 < 256)
    (h2 : b2 < 256) (h3 : b3 < 256) :
    parseID fnextCb { file := b0 :: b1 :: b2 :: b3 :: rest } =
      (some (raff_newID [b0, b1, b2, b3]), { file := rest }) := by
  rw [parseID_file, toChar_natCast _ h0, toChar_natCast _ h1, toChar_natCast _ h2,
    toChar_natCast _ h3, raff_newID_drop_nul]

/-- What `openStream` returns on a well-formed stream. -/
theorem openStream_file_ok (h : Heap) (s : Nat) (form rest : List Nat)
    (hs4 : 4 ≤ s) (hs : s < 2 ^ 32) (hform : form.length = 4) (hfb : allBytes form)
    (hrb : allBytes rest) (hlen : s - 4 ≤ rest.length) :
    raff_openStream fnextCb h { file := tagRIFF ++ le32 s ++ form ++ rest } =
      (some h.files.length,
        { h with
          files := h.files ++ [{ chunk := some h.chunks.length, size := s - 4, data := h.bufs.length }],
          chunks := h.chunks ++
            [{ next := none, file := h.files.length, list := none, type := TYPE_RIFF,
               id := raff_newID form, size := s - 4, start := { buf := h.bufs.length, off := 0 },
               asList := none, asData := none }],
          bufs := h.bufs ++ [rest.take (s - 4)],
          errnum := raff_ERR_NONE }) := by
  obtain ⟨f0, f1, f2, f3, rfl⟩ := list_len4 form hform
  have hf0 : f0 < 256 := hfb f0 (by simp)
  have hf1 : f1 < 256 := hfb f1 (by simp)
  have hf2 : f2 < 256 := hfb f2 (by simp)
  have hf3 : f3 < 256 := hfb f3 (by simp)
  have hsz : sizeSub4 s = s - 4 := by
    simp [sizeSub4, hs4]
  have htake : allBytes (rest.take (s - 4)) := fun b hb => hrb b (List.mem_of_mem_take hb)
  have e0 : ({ file := tagRIFF ++ le32 s ++ [f0, f1, f2, f3] ++ rest } : FileStream) =
      { file := 82 :: 73 :: 70 :: 70 :: (le32 s ++ (f0 :: f1 :: f2 :: f3 :: rest)) } := by
    simp [tagRIFF]
  rw [e0]
  have h4 : (readData fnextCb (sizeSub4 s) { file := rest } []).1
      = some (rest.take (s - 4)) := by
    rw [hsz, readData_file_ok _ _ _ hlen, allBytes_map_toChar _ htake]; rfl
  have := openStream_ok fnextCb h _ _ _ _ s _ _ (parseID_file_RIFF _)
    (parseSize_file_le32 s hs _) (parseID_file_bytes f0 f1 f2 f3 rest hf0 hf1 hf2 hf3) h4
  rw [hsz] at this
  exact this

/-! ## Heap lookups after an allocation -/

theorem getD_append_length {α : Type} (l : List α) (a d : α) :
    (l ++ [a]).getD l.length d = a := by
  simp [List.getD_eq_getElem?_getD]

theorem getD_append_lt {α : Type} (l : List α) (a d : α) (p : Nat) (hp : p < l.length) :
    (l ++ [a]).getD p d = l.getD p d := by
  simp [List.getD_eq_getElem?_getD, List.getElem?_append_left hp]

theorem getD_set_eq {α : Type} (l : List α) (a d : α) (p : Nat) (hp : p < l.length) :
    (l.set p a).getD p d = a := by
  simp [List.getD_eq_getElem?_getD, List.getElem?_set, hp]

theorem getD_set_ne {α : Type} (l : List α) (a d : α) (p q : Nat) (hpq : p ≠ q) :
    (l.set p a).getD q d = l.getD q d := by
  simp [List.getD_eq_getElem?_getD, List.getElem?_set, hpq]

/-! ## Claims about `raff_openStream` -/

/-- C7: on a byte stream `RIFF ++ le32 s ++ form ++ rest` with `4 ≤ s` and at least
`s - 4` bytes in `rest`, `raff_openStream` returns a file and sets `raff_ERR_NONE`;
`raff_fileAsChunk` gives a root chunk of type Riff whose id is `raff_newID form`, whose
size is `s - 4` and whose byte range is the first `s - 4` bytes of `rest`. -/
theorem C7_open_success (h : Heap) (s : Nat) (form rest : List Nat)
    (hs4 : 4 ≤ s) (hs : s < 2 ^ 32) (hform : form.length = 4) (hfb : allBytes form)
    (hrb : allBytes rest) (hlen : s - 4 ≤ rest.length) :
    ∃ file root h1,
      raff_openStream fnextCb h { file := tagRIFF ++ le32 s ++ form ++ rest } = (some file, h1) ∧
      raff_errorNum h1 = raff_ERR_NONE ∧
      raff_fileAsChunk h1 file = some root ∧
      (h1.chunk root).type = TYPE_RIFF ∧
      (h1.chunk root).id = raff_newID form ∧
      (h1.chunk root).size = s - 4 ∧
      h1.range (h1.chunk root) = rest.take (s - 4) := by
  refine ⟨h.files.length, h.chunks.length, _,
    openStream_file_ok h s form rest hs4 hs hform hfb hrb hlen, rfl, ?_, ?_, ?_, ?_, ?_⟩
  · simp [raff_fileAsChunk, Heap.file, getD_append_length]
  · simp [Heap.chunk, getD_append_length]
  · simp [Heap.chunk, getD_append_length]
  · simp [Heap.chunk, getD_append_length]
  · simp [Heap.chunk, Heap.range, Heap.buf, getD_append_length]

/-- Witness of C7: a six-byte declared size followed by two payload bytes and one
byte of trailing data. -/
theorem C7_open_success_witness :
    ∃ file root h1,
      raff_openStream fnextCb Heap.empty
        { file := tagRIFF ++ le32 6 ++ [87, 65, 86, 69] ++ [1, 2, 3] } = (some file, h1) ∧
      raff_errorNum h1 = raff_ERR_NONE ∧
      raff_fileAsChunk h1 file = some root ∧
      (h1.chunk root).type = TYPE_RIFF ∧
      (h1.chunk root).id = raff_newID [87, 65, 86, 69] ∧
      (h1.chunk root).size = 6 - 4 ∧
      h1.range (h1.chunk root) = [1, 2, 3].take (6 - 4) :=
  C7_open_success Heap.empty 6 [87, 65, 86, 69] [1, 2, 3] (by decide) (by decide) (by decide)
    (by decide) (by decide) (by decide)

/-- C8: if the first four bytes of a byte stream are not `RIFF`, `raff_openStream`
returns no container and sets `raff_ERR_NOT_RIFF`; if they are `RIFF`, the error code
after the call is not `raff_ERR_NOT_RIFF`. -/
theorem C8_not_riff (h : Heap) (s : List Nat) (hb : allBytes s) :
    (s.take 4 ≠ tagRIFF →
      (raff_openStream fnextCb h { file := s }).1 = none ∧
      raff_errorNum (raff_openStream fnextCb h { file := s }).2 = raff_ERR_NOT_RIFF) ∧
    (s.take 4 = tagRIFF →
      raff_errorNum (raff_openStream fnextCb h { file := s }).2 ≠ raff_ERR_NOT_RIFF) := by
  constructor
  · intro hne
    have key : (parseID fnextCb { file := s }).1 ≠ some RIFF_ID := by
      by_cases hlen : s.length < 4
      · rw [parseID_file_short s hlen]; simp
      · match s, hlen, hb, hne with
        | b0 :: b1 :: b2 :: b3 :: t, _, hb, hne =>
          have h0 : b0 < 256 := hb b0 (by simp)
          have h1 : b1 < 256 := hb b1 (by simp)
          have h2 : b2 < 256 := hb b2 (by simp)
          have h3 : b3 < 256 := hb b3 (by simp)
          rw [parseID_file_bytes b0 b1 b2 b3 t h0 h1 h2 h3]
          intro heq
          have heq2 : raff_newID [b0, b1, b2, b3] = RIFF_ID := by simpa using heq
          have := (raff_newID_eq_RIFF b0 b1 b2 b3 h0 h1 h2 h3 []).1 heq2
          apply hne
          simp [tagRIFF, this.1, this.2.1, this.2.2.1, this.2.2.2]
        | [], hlen, _, _ => simp at hlen
        | [_], hlen, _, _ => simp at hlen
        | [_, _], hlen, _, _ => simp at hlen
        | [_, _, _], hlen, _, _ => simp at hlen
    simp [raff_openStream, openStream_notRiff fnextCb h _ key, raff_errorNum, Heap.setErr]
  · intro heq
    obtain ⟨t, rfl⟩ := take4_eq s 82 73 70 70 heq
    have h1 := parseID_file_RIFF t
    unfold raff_openStream
    rcases h2 : parseSize fnextCb { file := t } with ⟨_ | sz, s2⟩
    · rw [openStream_noSize fnextCb h _ _ h1 (by rw [h2])]
      simp [raff_errorNum, Heap.setErr]
    · rcases h3 : parseID fnextCb s2 with ⟨_ | id, s3⟩
      · rw [openStream_noForm fnextCb h _ _ _ sz h1 h2 (by rw [h3])]
        simp [raff_errorNum, Heap.setErr]
      · rcases h4 : (readData fnextCb (sizeSub4 sz) s3 []).1 with _ | data
        · rw [openStream_short fnextCb h _ _ _ _ sz id h1 h2 h3 h4]
          simp [raff_errorNum, Heap.setErr]
        · rw [openStream_ok fnextCb h _ _ _ _ sz id data h1 h2 h3 h4]
          simp [raff_errorNum]

/-- Witness of C8: the stream `RIFX`. -/
theorem C8_not_riff_witness :
    ([82, 73, 70, 88].take 4 ≠ tagRIFF →
      (raff_openStream fnextCb Heap.empty { file := [82, 73, 70, 88] }).1 = none ∧
      raff_errorNum (raff_openStream fnextCb Heap.empty { file := [82, 73, 70, 88] }).2
        = raff_ERR_NOT_RIFF) ∧
    ([82, 73, 70, 88].take 4 = tagRIFF →
      raff_errorNum (raff_openStream fnextCb Heap.empty { file := [82, 73, 70, 88] }).2
        ≠ raff_ERR_NOT_RIFF) :=
  C8_not_riff Heap.empty [82, 73, 70, 88] (by decide)

theorem parseSize_file_bytes (z0 z1 z2 z3 : Nat) (rest : List Nat) (h0 : z0 < 256)
    (h1 : z1 < 256) (h2 : z2 < 256) (h3 : z3 < 256) :
    parseSize fnextCb { file := z0 :: z1 :: z2 :: z3 :: rest } =
      (some (leValue [z0, z1, z2, z3]), { file := rest }) := by
  rw [parseSize_file, pack_le z0 z1 z2 z3 h0 h1 h2]
  have : (z0 + z1 * 2 ^ 8 + z2 * 2 ^ 16 + z3 * 2 ^ 24) % WORD
      = z0 + z1 * 2 ^ 8 + z2 * 2 ^ 16 + z3 * 2 ^ 24 := by
    rw [WORD_val]; omega
  rw [this]
  simp [leValue]

theorem leValue_lt (z0 z1 z2 z3 : Nat) (h0 : z0 < 256)
    (h1 : z1 < 256) (h2 : z2 < 256) (h3 : z3 < 256) : leValue [z0, z1, z2, z3] < 2 ^ 32 := by
  simp [leValue]; omega

/-- C9: a byte stream that begins with `RIFF` and ends before the size field is
complete, or before the form ID is complete, or before the declared `size - 4` payload
bytes are all there, makes `raff_openStream` return no container with
`raff_ERR_CORRUPT`; and whenever a container is returned its buffer holds exactly
`file->size` bytes, which is no less than the declared size minus 4. -/
theorem C9_truncated (h : Heap) (s : List Nat) (hb : allBytes s) (hR : s.take 4 = tagRIFF) :
    ((s.length < 8 ∨ s.length < 12 ∨ s.length < 8 + declaredSize s) →
      (raff_openStream fnextCb h { file := s }).1 = none ∧
      raff_errorNum (raff_openStream fnextCb h { file := s }).2 = raff_ERR_CORRUPT) ∧
    (∀ file, (raff_openStream fnextCb h { file := s }).1 = some file →
      ((raff_openStream fnextCb h { file := s }).2.buf
          ((raff_openStream fnextCb h { file := s }).2.file file).data).length
        = ((raff_openStream fnextCb h { file := s }).2.file file).size ∧
      declaredSize s ≤ ((raff_openStream fnextCb h { file := s }).2.file file).size + 4) := by
  obtain ⟨t, rfl⟩ := take4_eq s 82 73 70 70 hR
  have h1 := parseID_file_RIFF t
  unfold raff_openStream
  by_cases ht : t.length < 4
  · have e := openStream_noSize fnextCb h _ _ h1 (parseSize_file_short t ht)
    rw [e]
    refine ⟨fun _ => ⟨rfl, rfl⟩, fun f hf => ?_⟩
    simp at hf
  · match t, ht, hb with
    | [], ht, _ => simp at ht
    | [_], ht, _ => simp at ht
    | [_, _], ht, _ => simp at ht
    | [_, _, _], ht, _ => simp at ht
    | z0 :: z1 :: z2 :: z3 :: u, _, hb =>
      have hz0 : z0 < 256 := hb z0 (by simp)
      have hz1 : z1 < 256 := hb z1 (by simp)
      have hz2 : z2 < 256 := hb z2 (by simp)
      have hz3 : z3 < 256 := hb z3 (by simp)
      have h2 := parseSize_file_bytes z0 z1 z2 z3 u hz0 hz1 hz2 hz3
      have hd : declaredSize (82 :: 73 :: 70 :: 70 :: z0 :: z1 :: z2 :: z3 :: u)
          = leValue [z0, z1, z2, z3] := by
        simp [declaredSize]
      have hdlt := leValue_lt z0 z1 z2 z3 hz0 hz1 hz2 hz3
      rw [hd]
      generalize leValue [z0, z1, z2, z3] = d at h2 hdlt
      by_cases hu : u.length < 4
      · have e := openStream_noForm fnextCb h _ _ _ d h1 h2 (parseID_file_short u hu)
        rw [e]
        refine ⟨fun _ => ⟨rfl, rfl⟩, fun f hf => ?_⟩
        simp at hf
      · match u, hu, hb with
        | [], hu, _ => simp at hu
        | [_], hu, _ => simp at hu
        | [_, _], hu, _ => simp at hu
        | [_, _, _], hu, _ => simp at hu
        | f0 :: f1 :: f2 :: f3 :: rest, _, hb =>
          have h3 := parseID_file f0 f1 f2 f3 rest
          by_cases hr : rest.length < sizeSub4 d
          · have e := openStream_short fnextCb h _ _ _ _ d _ h1 h2 h3
              (readData_file_short _ _ _ hr)
            rw [e]
            refine ⟨fun _ => ⟨rfl, rfl⟩, fun f hf => ?_⟩
            simp at hf
          · have hr2 : sizeSub4 d ≤ rest.length := by omega
            have h4 : (readData fnextCb (sizeSub4 d) { file := rest } []).1
                = some ((rest.take (sizeSub4 d)).map (fun (b : Nat) => toChar (b : Int))) := by
              rw [readData_file_ok _ _ _ hr2]; rfl
            have e := openStream_ok fnextCb h _ _ _ _ d _ _ h1 h2 h3 h4
            rw [e]
            constructor
            · intro hc
              exfalso
              simp only [List.length_cons] at hc
              unfold sizeSub4 at hr2
              split_ifs at hr2 <;> omega
            · intro f hf
              simp only [Option.some.injEq] at hf
              subst hf
              simp only [Heap.file, Heap.buf, getD_append_length, List.length_map,
                List.length_take]
              constructor
              · omega
              · unfold sizeSub4
                split_ifs <;> omega

/-- Witness of C9: the header declares twelve payload bytes and three arrive. -/
theorem C9_truncated_witness :
    (([82, 73, 70, 70, 16, 0, 0, 0, 87, 65, 86, 69, 1, 2, 3].length < 8 ∨
        [82, 73, 70, 70, 16, 0, 0, 0, 87, 65, 86, 69, 1, 2, 3].length < 12 ∨
        [82, 73, 70, 70, 16, 0, 0, 0, 87, 65, 86, 69, 1, 2, 3].length <
          8 + declaredSize [82, 73, 70, 70, 16, 0, 0, 0, 87, 65, 86, 69, 1, 2, 3]) ∧
      (raff_openStream fnextCb Heap.empty
        { file := [82, 73, 70, 70, 16, 0, 0, 0, 87, 65, 86, 69, 1, 2, 3] }).1 = none ∧
      raff_errorNum (raff_openStream fnextCb Heap.empty
        { file := [82, 73, 70, 70, 16, 0, 0, 0, 87, 65, 86, 69, 1, 2, 3] }).2
        = raff_ERR_CORRUPT) :=
  ⟨by decide,
   (C9_truncated Heap.empty [82, 73, 70, 70, 16, 0, 0, 0, 87, 65, 86, 69, 1, 2, 3]
      (by decide) (by decide)).1 (by decide)⟩

/-! ## The serialisation stream -/

theorem range_length (h : Heap) (c : raff_Chunk) (hin : h.inBounds c) :
    (h.range c).length = c.size := by
  unfold Heap.inBounds at hin
  simp [Heap.range]; omega

theorem range_getElem? (h : Heap) (c : raff_Chunk) (hin : h.inBounds c) (i : Nat)
    (hi : i < c.size) : (h.range c)[i]? = some (h.readByte c.start i) := by
  unfold Heap.inBounds at hin
  have h1 : c.start.off + i < (h.buf c.start.buf).length := by omega
  simp [Heap.range, Heap.readByte, List.getElem?_take, hi, List.getElem?_drop,
    List.getD_eq_getElem?_getD, List.getElem?_eq_getElem h1]

theorem snextCb_state (h : Heap) (ss : SerializationStream) :
    (snextCb h ss).2 = { chunk := ss.chunk, next := (ss.next + 1) % WORD } := by
  unfold snextCb
  simp only
  split_ifs <;> rfl

theorem callSeq_snext (h : Heap) (c k i : Nat) (hk : i + k < WORD) :
    callSeq (snextCb h) k { chunk := c, next := i } =
      (snextCb h { chunk := c, next := i + k }).1 := by
  induction k generalizing i with
  | zero => rfl
  | succ k ih =>
    have e : (i + 1) % WORD = i + 1 := Nat.mod_eq_of_lt (by omega)
    rw [callSeq, snextCb_state, e, ih (i + 1) (by omega)]
    have e2 : i + 1 + k = i + (k + 1) := by omega
    rw [e2]

theorem be32_eq (id : Nat) :
    be32 id = [lowByte (id >>> 24), lowByte (id >>> 16), lowByte (id >>> 8), lowByte id] := by
  simp [be32, lowByte, Nat.shiftRight_eq_div_pow]

theorem le32_eq (n : Nat) :
    le32 n = [lowByte n, lowByte (n >>> 8), lowByte (n >>> 16), lowByte (n >>> 24)] := by
  simp [le32, lowByte, Nat.shiftRight_eq_div_pow]

theorem byteOrEnd_append_right (pre bs : List Nat) (k : Nat) (hk : pre.length ≤ k) :
    byteOrEnd (pre ++ bs) k = byteOrEnd bs (k - pre.length) := by
  simp [byteOrEnd, List.getElem?_append_right hk]

theorem range_byteOrEnd (h : Heap) (c : raff_Chunk) (hin : h.inBounds c)
    (hby : allBytes (h.range c)) (i : Nat) :
    byteOrEnd (h.range c) i =
      if i ≥ c.size then -1 else ((lowByte (h.readByte c.start i) : Nat) : Int) := by
  by_cases hi : i < c.size
  · have e := range_getElem? h c hin i hi
    have hb : h.readByte c.start i < 256 := hby _ (List.getElem?_mem e)
    have hge : ¬ (i ≥ c.size) := by omega
    simp [byteOrEnd, e, hge, lowByte_of_lt _ hb]
  · have hlen := range_length h c hin
    have e : (h.range c)[i]? = none := List.getElem?_eq_none (by omega)
    have hge : i ≥ c.size := by omega
    simp [byteOrEnd, e, hge]

/-- The value `snextCb` returns, without the state. -/
theorem snextCb_fst (h : Heap) (ss : SerializationStream) :
    (snextCb h ss).1 =
      if ss.next < 4 then
        ((lowByte ((if (h.chunk ss.chunk).type = TYPE_OTHER then (h.chunk ss.chunk).id
          else if (h.chunk ss.chunk).type = TYPE_LIST then LIST_ID else RIFF_ID)
            >>> (8 * (3 - ss.next))) : Nat) : Int)
      else if ss.next < 8 then
        ((lowByte ((if (h.chunk ss.chunk).type ≠ TYPE_OTHER then
          ((h.chunk ss.chunk).size + 4) % WORD else (h.chunk ss.chunk).size)
            >>> (8 * (ss.next - 4))) : Nat) : Int)
      else if (h.chunk ss.chunk).type ≠ TYPE_OTHER then
        if ss.next < 12 then
          ((lowByte ((h.chunk ss.chunk).id >>> (8 * (11 - ss.next))) : Nat) : Int)
        else if ss.next - 12 ≥ (h.chunk ss.chunk).size then -1
        else ((lowByte (h.readByte (h.chunk ss.chunk).start (ss.next - 12)) : Nat) : Int)
      else if ss.next - 8 ≥ (h.chunk ss.chunk).size then -1
      else ((lowByte (h.readByte (h.chunk ss.chunk).start (ss.next - 8)) : Nat) : Int) := by
  unfold snextCb
  simp only
  by_cases h4 : ss.next < 4
  · rw [if_pos h4, if_pos h4]
  · rw [if_neg h4, if_neg h4]
    by_cases h8 : ss.next < 8
    · rw [if_pos h8, if_pos h8]
    · rw [if_neg h8, if_neg h8]
      by_cases ht : (h.chunk ss.chunk).type ≠ TYPE_OTHER
      · rw [if_pos ht, if_pos ht]
        by_cases h12 : ss.next < 12
        · rw [if_pos h12, if_pos h12]
        · rw [if_neg h12, if_neg h12]
          by_cases hi : ss.next - 12 ≥ (h.chunk ss.chunk).size
          · rw [if_pos hi, if_pos hi]
          · rw [if_neg hi, if_neg hi]
      · rw [if_neg ht, if_neg ht]
        by_cases hi : ss.next - 8 ≥ (h.chunk ss.chunk).size
        · rw [if_pos hi, if_pos hi]
        · rw [if_neg hi, if_neg hi]

theorem be_index (x j : Nat) (hj : j < 4) (r : List Nat) :
    byteOrEnd ([lowByte (x >>> 24), lowByte (x >>> 16), lowByte (x >>> 8), lowByte x] ++ r) j =
      ((lowByte (x >>> (8 * (3 - j))) : Nat) : Int) := by
  interval_cases j <;> simp [byteOrEnd]

theorem le_index (x j : Nat) (hj : j < 4) (r : List Nat) :
    byteOrEnd ([lowByte x, lowByte (x >>> 8), lowByte (x >>> 16), lowByte (x >>> 24)] ++ r) j =
      ((lowByte (x >>> (8 * j)) : Nat) : Int) := by
  interval_cases j <;> simp [byteOrEnd]

theorem byteOrEnd_skip4 (a b c d : Nat) (r : List Nat) (k : Nat) (hk : 4 ≤ k) :
    byteOrEnd ([a, b, c, d] ++ r) k = byteOrEnd r (k - 4) :=
  byteOrEnd_append_right [a, b, c, d] r k hk

/-- The value of a call of `snextCb` is the item of the documented layout at the
index the stream has reached. -/
theorem snextCb_value (h : Heap) (c k : Nat)
    (hn4 : (h.chunk c).size < 2 ^ 32 - 4) (hin : h.inBounds (h.chunk c))
    (hby : allBytes (h.range (h.chunk c))) :
    (snextCb h { chunk := c, next := k }).1 = byteOrEnd (wireChunk h (h.chunk c)) k := by
  have hw : ((h.chunk c).size + 4) % WORD = (h.chunk c).size + 4 := by
    rw [WORD_val]; omega
  rw [snextCb_fst]
  unfold wireChunk
  simp only [hw, be32_eq, le32_eq, List.append_assoc]
  by_cases h4 : k < 4
  · rw [if_pos h4, be_index _ k h4]
    rcases ht : (h.chunk c).type <;> simp [wireTag, ht]
  · rw [if_neg h4, byteOrEnd_skip4 _ _ _ _ _ _ (by omega)]
    by_cases h8 : k < 8
    · rw [if_pos h8, le_index _ (k - 4) (by omega)]
      rcases ht : (h.chunk c).type <;> simp
    · rw [if_neg h8, byteOrEnd_skip4 _ _ _ _ _ _ (by omega)]
      by_cases ht : (h.chunk c).type = TYPE_OTHER
      · have hne : ¬ ((h.chunk c).type ≠ TYPE_OTHER) := by simp [ht]
        rw [if_neg hne, if_pos ht, List.nil_append, range_byteOrEnd h _ hin hby]
        have e : k - 4 - 4 = k - 8 := by omega
        rw [e]
      · have hne : (h.chunk c).type ≠ TYPE_OTHER := ht
        rw [if_pos hne, if_neg ht]
        by_cases h12 : k < 12
        · rw [if_pos h12, be_index _ (k - 4 - 4) (by omega)]
          have e : 3 - (k - 4 - 4) = 11 - k := by omega
          rw [e]
        · rw [if_neg h12, byteOrEnd_skip4 _ _ _ _ _ _ (by omega),
            range_byteOrEnd h _ hin hby]
          have e : k - 4 - 4 - 4 = k - 12 := by omega
          rw [e]

theorem wireChunk_length (h : Heap) (c : raff_Chunk) (hin : h.inBounds c) :
    (wireChunk h c).length = if c.type = TYPE_OTHER then 8 + c.size else 12 + c.size := by
  unfold wireChunk
  by_cases ht : c.type = TYPE_OTHER
  · simp [ht, be32, le32, range_length h c hin]; omega
  · simp [ht, be32, le32, range_length h c hin]; omega

theorem byteOrEnd_of_le (bs : List Nat) (k : Nat) (hk : bs.length ≤ k) : byteOrEnd bs k = -1 := by
  simp [byteOrEnd, List.getElem?_eq_none hk]

/-- Every call of the serialisation stream returns the item of the layout at its index. -/
theorem callSeq_serialize (h : Heap) (c : Nat)
    (hn4 : (h.chunk c).size < 2 ^ 32 - 4) (hin : h.inBounds (h.chunk c))
    (hby : allBytes (h.range (h.chunk c))) :
    ∀ k, k < WORD →
      callSeq (snextCb h) k (raff_serializeChunk c) = byteOrEnd (wireChunk h (h.chunk c)) k := by
  intro k hk
  have := callSeq_snext h c k 0 (by omega)
  rw [Nat.zero_add] at this
  unfold raff_serializeChunk
  rw [this, snextCb_value h c k hn4 hin hby]

/-- C6: for a chunk `c` with payload size `n < 2 ^ 32 - 4`, the successive calls of
`next` on `raff_serializeChunk c` return, in order, the items of `wireChunk`: four tag
bytes (the `LIST`/`RIFF` marker or the id of a leaf), the little-endian size (`n`, or
`n + 4` for a container), the four id bytes of a container, the `n` payload bytes; and
from then on `-1`.  The output is `8 + n` bytes for a leaf and `12 + n` for a container.
The call index `k` ranges over the values of the `size_t` call counter. -/
theorem C6_serializer_layout (h : Heap) (c : Nat)
    (hn4 : (h.chunk c).size < 2 ^ 32 - 4) (hin : h.inBounds (h.chunk c))
    (hby : allBytes (h.range (h.chunk c))) :
    (∀ k, k < WORD →
      callSeq (snextCb h) k (raff_serializeChunk c) = byteOrEnd (wireChunk h (h.chunk c)) k) ∧
    (∀ k, k < WORD → (wireChunk h (h.chunk c)).length ≤ k →
      callSeq (snextCb h) k (raff_serializeChunk c) = -1) ∧
    (wireChunk h (h.chunk c)).length =
      (if (h.chunk c).type = TYPE_OTHER then 8 + (h.chunk c).size else 12 + (h.chunk c).size) := by
  have key := callSeq_serialize h c hn4 hin hby
  refine ⟨key, fun k hk hlen => ?_, wireChunk_length h _ hin⟩
  rw [key k hk, byteOrEnd_of_le _ _ hlen]

theorem byteOrEnd_cons_succ (b : Nat) (t : List Nat) (k : Nat) :
    byteOrEnd (b :: t) (k + 1) = byteOrEnd t k := by
  simp [byteOrEnd]

/-- Draining a stream whose calls return the items of `bs` and then `-1`. -/
theorem drain_of_callSeq {σ : Type} (next : σ → Int × σ) (bs : List Nat) (hbs : allBytes bs) :
    ∀ (s : σ) (out : List Nat) (fuel : Nat),
      (∀ k, k ≤ bs.length → callSeq next k s = byteOrEnd bs k) → bs.length < fuel →
      drain next fuel s out = some (out ++ bs) := by
  induction bs with
  | nil =>
    intro s out fuel hc hf
    match fuel, hf with
    | fuel + 1, _ =>
      have h0 := hc 0 (by simp)
      simp only [callSeq, byteOrEnd, List.getElem?_nil] at h0
      simp [drain, h0]
  | cons b t ih =>
    intro s out fuel hc hf
    match fuel, hf with
    | fuel + 1, hf =>
      have h0 := hc 0 (by simp)
      have hb : b < 256 := hbs b (List.mem_cons_self _ _)
      have e0 : (next s).1 = (b : Int) := by
        simpa [callSeq, byteOrEnd] using h0
      have hge : (next s).1 ≥ 0 := by rw [e0]; omega
      have ht : allBytes t := fun x hx => hbs x (List.mem_cons_of_mem _ hx)
      have hc2 : ∀ k, k ≤ t.length → callSeq next k (next s).2 = byteOrEnd t k := by
        intro k hk
        have := hc (k + 1) (by simpa using hk)
        rwa [callSeq, byteOrEnd_cons_succ] at this
      have hf2 : t.length < fuel := by simpa using hf
      rw [drain]
      simp only [hge, if_true, e0, toChar_natCast b hb]
      rw [ih ht _ _ _ hc2 hf2]
      simp

theorem allBytes_append (a b : List Nat) (ha : allBytes a) (hb : allBytes b) :
    allBytes (a ++ b) := by
  intro x hx
  rcases List.mem_append.1 hx with h | h
  · exact ha x h
  · exact hb x h

theorem allBytes_be32 (x : Nat) : allBytes (be32 x) := by
  intro b hb
  simp only [be32, List.mem_cons, List.mem_singleton, List.not_mem_nil, or_false] at hb
  rcases hb with rfl | rfl | rfl | rfl <;> omega

theorem allBytes_le32 (x : Nat) : allBytes (le32 x) := by
  intro b hb
  simp only [le32, List.mem_cons, List.mem_singleton, List.not_mem_nil, or_false] at hb
  rcases hb with rfl | rfl | rfl | rfl <;> omega

theorem allBytes_wireChunk (h : Heap) (c : raff_Chunk) (hby : allBytes (h.range c)) :
    allBytes (wireChunk h c) := by
  unfold wireChunk
  refine allBytes_append _ _ (allBytes_append _ _ (allBytes_append _ _ (allBytes_be32 _)
    (allBytes_le32 _)) ?_) hby
  split
  · intro b hb; simp at hb
  · exact allBytes_be32 _

/-- What `raff_serializeChunkToFile` writes. -/
theorem serializeChunkToFile_eq (fuel : Nat) (h : Heap) (c : Nat)
    (hn4 : (h.chunk c).size < 2 ^ 32 - 4) (hin : h.inBounds (h.chunk c))
    (hby : allBytes (h.range (h.chunk c)))
    (hf : (wireChunk h (h.chunk c)).length < fuel) :
    raff_serializeChunkToFile fuel h c =
      some (wireChunk h (h.chunk c), h.setErr raff_ERR_NONE) := by
  have hlen := wireChunk_length h _ hin
  have hL : (wireChunk h (h.chunk c)).length < WORD := by
    rw [hlen, WORD_val]; split <;> omega
  have hd := drain_of_callSeq (snextCb h) (wireChunk h (h.chunk c))
    (allBytes_wireChunk h _ hby) (raff_serializeChunk c) [] fuel
    (fun k hk => (callSeq_serialize h c hn4 hin hby) k (by omega)) hf
  unfold raff_serializeChunkToFile
  rw [hd]
  simp

/-! ## Reading from a chunk stream -/

theorem drop_cons_getElem? {α : Type} (l : List α) (n : Nat) (x : α) (r : List α)
    (h : l.drop n = x :: r) : l[n]? = some x ∧ l.drop (n + 1) = r ∧ n < l.length := by
  have hlt : n < l.length := by
    by_contra hge
    rw [List.drop_eq_nil_of_le (by omega)] at h
    cases h
  have h1 : l[n]? = some x := by
    have := congrArg (fun t => t[0]?) h
    simpa [List.getElem?_drop] using this
  have h2 : l.drop (n + 1) = r := by
    have := congrArg List.tail h
    simpa [List.tail_drop] using this
  exact ⟨h1, h2, hlt⟩

/-- One call of `cnextCb` when a byte is left. -/
theorem cnextCb_cons (h : Heap) (c pos : Nat) (hin : h.inBounds (h.chunk c)) (x : Nat)
    (r : List Nat) (hd : (h.range (h.chunk c)).drop pos = x :: r) :
    cnextCb h { chunk := c, next := pos } =
        (((lowByte x : Nat) : Int), ({ chunk := c, next := pos + 1 } : ChunkStream)) ∧
      (h.range (h.chunk c)).drop (pos + 1) = r := by
  obtain ⟨h1, h2, hlt⟩ := drop_cons_getElem? _ _ _ _ hd
  rw [range_length h _ hin] at hlt
  have e := range_getElem? h _ hin pos hlt
  rw [h1] at e
  have ex : h.readByte (h.chunk c).start pos = x := by
    simpa using e.symm
  refine ⟨?_, h2⟩
  unfold cnextCb
  have hge : ¬ (pos ≥ (h.chunk c).size) := by omega
  simp only [hge, if_false, ex]

/-- One call of `cnextCb` at the end of the chunk. -/
theorem cnextCb_nil (h : Heap) (c pos : Nat) (hin : h.inBounds (h.chunk c))
    (hd : (h.range (h.chunk c)).drop pos = []) :
    cnextCb h { chunk := c, next := pos } = (-1, { chunk := c, next := pos }) := by
  have hlen := range_length h _ hin
  have hge : pos ≥ (h.chunk c).size := by
    have := congrArg List.length hd
    simp at this
    omega
  unfold cnextCb
  simp only [hge, if_true]

theorem toChar_lowByte (x : Nat) : toChar ((lowByte x : Nat) : Int) = lowByte x :=
  toChar_natCast _ (lowByte_lt x)

theorem natCast_not_neg (x : Nat) : ¬ ((x : Int) < 0) := by omega

/-- Four bytes are left: `parseID` packs them. -/
theorem parseID_chunk (h : Heap) (c pos : Nat) (hin : h.inBounds (h.chunk c))
    (x0 x1 x2 x3 : Nat) (r : List Nat)
    (hd : (h.range (h.chunk c)).drop pos = x0 :: x1 :: x2 :: x3 :: r) :
    parseID (cnextCb h) { chunk := c, next := pos } =
        (some (raff_newID [lowByte x0, lowByte x1, lowByte x2, lowByte x3]),
          { chunk := c, next := pos + 4 }) ∧
      (h.range (h.chunk c)).drop (pos + 4) = r := by
  obtain ⟨e0, d0⟩ := cnextCb_cons h c pos hin _ _ hd
  obtain ⟨e1, d1⟩ := cnextCb_cons h c (pos + 1) hin _ _ d0
  obtain ⟨e2, d2⟩ := cnextCb_cons h c (pos + 2) hin _ _ d1
  obtain ⟨e3, d3⟩ := cnextCb_cons h c (pos + 3) hin _ _ d2
  refine ⟨?_, d3⟩
  unfold parseID
  simp only [e0, e1, e2, e3, natCast_not_neg, or_self, if_false, toChar_lowByte,
    raff_newID_drop_nul]

/-- Fewer than four bytes are left: `parseID` fails. -/
theorem parseID_chunk_short (h : Heap) (c pos : Nat) (hin : h.inBounds (h.chunk c))
    (hd : ((h.range (h.chunk c)).drop pos).length < 4) :
    (parseID (cnextCb h) { chunk := c, next := pos }).1 = none := by
  have neg1 : ((-1 : Int) < 0) := by omega
  rcases hl : (h.range (h.chunk c)).drop pos with _ | ⟨x0, l0⟩
  · have e0 := cnextCb_nil h c pos hin hl
    unfold parseID
    simp only [e0, neg1, true_or, or_true, if_true]
  · obtain ⟨e0, d0⟩ := cnextCb_cons h c pos hin _ _ hl
    rcases l0 with _ | ⟨x1, l1⟩
    · have e1 := cnextCb_nil h c (pos + 1) hin d0
      unfold parseID
      simp only [e0, e1, neg1, true_or, or_true, if_true]
    · obtain ⟨e1, d1⟩ := cnextCb_cons h c (pos + 1) hin _ _ d0
      rcases l1 with _ | ⟨x2, l2⟩
      · have e2 := cnextCb_nil h c (pos + 2) hin d1
        unfold parseID
        simp only [e0, e1, e2, neg1, true_or, or_true, if_true]
      · obtain ⟨e2, d2⟩ := cnextCb_cons h c (pos + 2) hin _ _ d1
        rcases l2 with _ | ⟨x3, l3⟩
        · have e3 := cnextCb_nil h c (pos + 3) hin d2
          unfold parseID
          simp only [e0, e1, e2, e3, neg1, true_or, or_true, if_true]
        · exfalso
          rw [hl] at hd
          simp only [List.length_cons] at hd
          omega

/-- Four bytes are left: `parseSize` combines them. -/
theorem parseSize_chunk (h : Heap) (c pos : Nat) (hin : h.inBounds (h.chunk c))
    (x0 x1 x2 x3 : Nat) (r : List Nat)
    (hd : (h.range (h.chunk c)).drop pos = x0 :: x1 :: x2 :: x3 :: r) :
    parseSize (cnextCb h) { chunk := c, next := pos } =
        (some (leValue [lowByte x0, lowByte x1, lowByte x2, lowByte x3]),
          { chunk := c, next := pos + 4 }) ∧
      (h.range (h.chunk c)).drop (pos + 4) = r := by
  obtain ⟨e0, d0⟩ := cnextCb_cons h c pos hin _ _ hd
  obtain ⟨e1, d1⟩ := cnextCb_cons h c (pos + 1) hin _ _ d0
  obtain ⟨e2, d2⟩ := cnextCb_cons h c (pos + 2) hin _ _ d1
  obtain ⟨e3, d3⟩ := cnextCb_cons h c (pos + 3) hin _ _ d2
  refine ⟨?_, d3⟩
  have hv : (lowByte x0 ||| lowByte x1 <<< 8 ||| lowByte x2 <<< 16 ||| lowByte x3 <<< 24) % WORD
      = leValue [lowByte x0, lowByte x1, lowByte x2, lowByte x3] := by
    have b0 := lowByte_lt x0
    have b1 := lowByte_lt x1
    have b2 := lowByte_lt x2
    have b3 := lowByte_lt x3
    rw [pack_le _ _ _ _ b0 b1 b2, WORD_val]
    simp only [leValue, List.getD_cons_zero, List.getD_cons_succ]
    omega
  unfold parseSize
  simp only [e0, e1, e2, e3, natCast_not_neg, or_self, if_false, Int.toNat_ofNat, hv]

/-- Fewer than four bytes are left: `parseSize` fails. -/
theorem parseSize_chunk_short (h : Heap) (c pos : Nat) (hin : h.inBounds (h.chunk c))
    (hd : ((h.range (h.chunk c)).drop pos).length < 4) :
    (parseSize (cnextCb h) { chunk := c, next := pos }).1 = none := by
  have neg1 : ((-1 : Int) < 0) := by omega
  rcases hl : (h.range (h.chunk c)).drop pos with _ | ⟨x0, l0⟩
  · have e0 := cnextCb_nil h c pos hin hl
    unfold parseSize
    simp only [e0, neg1, true_or, or_true, if_true]
  · obtain ⟨e0, d0⟩ := cnextCb_cons h c pos hin _ _ hl
    rcases l0 with _ | ⟨x1, l1⟩
    · have e1 := cnextCb_nil h c (pos + 1) hin d0
      unfold parseSize
      simp only [e0, e1, neg1, true_or, or_true, if_true]
    · obtain ⟨e1, d1⟩ := cnextCb_cons h c (pos + 1) hin _ _ d0
      rcases l1 with _ | ⟨x2, l2⟩
      · have e2 := cnextCb_nil h c (pos + 2) hin d1
        unfold parseSize
        simp only [e0, e1, e2, neg1, true_or, or_true, if_true]
      · obtain ⟨e2, d2⟩ := cnextCb_cons h c (pos + 2) hin _ _ d1
        rcases l2 with _ | ⟨x3, l3⟩
        · have e3 := cnextCb_nil h c (pos + 3) hin d2
          unfold parseSize
          simp only [e0, e1, e2, e3, neg1, true_or, or_true, if_true]
        · exfalso
          rw [hl] at hd
          simp only [List.length_cons] at hd
          omega

/-! ## The paths through `parseNextChunk` -/

theorem parseNextChunk_noID (h : Heap) (file : Nat) (cs : ChunkStream)
    (h1 : (parseID (cnextCb h) cs).1 = none) :
    (parseNextChunk h file cs).1 = none ∧
      (parseNextChunk h file cs).2.1 = h.setErr raff_ERR_CORRUPT := by
  unfold parseNextChunk
  simp only [h1, and_self]

theorem parseNextChunk_noSize (h : Heap) (file : Nat) (cs s1 : ChunkStream) (id : Nat)
    (h1 : parseID (cnextCb h) cs = (some id, s1))
    (h2 : (parseSize (cnextCb h) s1).1 = none) :
    (parseNextChunk h file cs).1 = none ∧
      (parseNextChunk h file cs).2.1 = h.setErr raff_ERR_CORRUPT := by
  unfold parseNextChunk
  simp only [h1, h2, and_self]

theorem parseNextChunk_noListID (h : Heap) (file : Nat) (cs s1 s2 : ChunkStream) (id size : Nat)
    (h1 : parseID (cnextCb h) cs = (some id, s1))
    (h2 : parseSize (cnextCb h) s1 = (some size, s2))
    (hid : id = LIST_ID ∨ id = RIFF_ID)
    (h3 : (parseID (cnextCb h) s2).1 = none) :
    (parseNextChunk h file cs).1 = none ∧
      (parseNextChunk h file cs).2.1.errnum = raff_ERR_CORRUPT ∧
      (parseNextChunk h file cs).2.1.bufs = h.bufs ∧
      (parseNextChunk h file cs).2.1.lists = h.lists ∧
      ∃ x, (parseNextChunk h file cs).2.1.chunks = h.chunks ++ [x] := by
  unfold parseNextChunk
  simp only [h1, h2, h3, hid, if_true]
  simp [Heap.allocChunk, Heap.setErr]

theorem parseNextChunk_leaf (h : Heap) (file : Nat) (cs s1 s2 : ChunkStream) (id size : Nat)
    (h1 : parseID (cnextCb h) cs = (some id, s1))
    (h2 : parseSize (cnextCb h) s1 = (some size, s2))
    (hid : ¬ (id = LIST_ID ∨ id = RIFF_ID))
    (hfit : ¬ ((s2.next + (size + size % 2)) % WORD > (h.chunk s2.chunk).size)) :
    parseNextChunk h file cs =
      (some h.chunks.length,
        { h with
          chunks := h.chunks ++
            [{ next := none, file := file, list := none, type := TYPE_OTHER, id := id,
               size := size,
               start := { buf := (h.chunk s2.chunk).start.buf,
                          off := (h.chunk s2.chunk).start.off + s2.next },
               asList := none, asData := none }],
          errnum := raff_ERR_NONE },
        { s2 with next := (s2.next + (size + size % 2)) % WORD }) := by
  unfold parseNextChunk
  simp only [h1, h2, hid, hfit, if_false]
  rfl

theorem parseNextChunk_leaf_over (h : Heap) (file : Nat) (cs s1 s2 : ChunkStream)
    (id size : Nat)
    (h1 : parseID (cnextCb h) cs = (some id, s1))
    (h2 : parseSize (cnextCb h) s1 = (some size, s2))
    (hid : ¬ (id = LIST_ID ∨ id = RIFF_ID))
    (hfit : (s2.next + (size + size % 2)) % WORD > (h.chunk s2.chunk).size) :
    (parseNextChunk h file cs).1 = none ∧
      (parseNextChunk h file cs).2.1.errnum = raff_ERR_CORRUPT ∧
      (parseNextChunk h file cs).2.1.bufs = h.bufs ∧
      (parseNextChunk h file cs).2.1.lists = h.lists ∧
      ∃ x, (parseNextChunk h file cs).2.1.chunks = h.chunks ++ [x] := by
  unfold parseNextChunk
  simp only [h1, h2, hid, hfit, if_false, if_true]
  simp [Heap.allocChunk, Heap.setErr]

theorem parseNextChunk_list (h : Heap) (file : Nat) (cs s1 s2 s3 : ChunkStream)
    (id size listID : Nat)
    (h1 : parseID (cnextCb h) cs = (some id, s1))
    (h2 : parseSize (cnextCb h) s1 = (some size, s2))
    (hid : id = LIST_ID ∨ id = RIFF_ID)
    (h3 : parseID (cnextCb h) s2 = (some listID, s3))
    (hfit : ¬ ((s3.next + (sizeSub4 size + size % 2)) % WORD > (h.chunk s3.chunk).size)) :
    parseNextChunk h file cs =
      (some h.chunks.length,
        { h with
          chunks := h.chunks ++
            [{ next := none, file := file, list := none,
               type := if id = LIST_ID then TYPE_LIST else TYPE_RIFF, id := listID,
               size := sizeSub4 size,
               start := { buf := (h.chunk s3.chunk).start.buf,
                          off := (h.chunk s3.chunk).start.off + s3.next },
               asList := none, asData := none }],
          errnum := raff_ERR_NONE },
        { s3 with next := (s3.next + (sizeSub4 size + size % 2)) % WORD }) := by
  unfold parseNextChunk
  simp only [h1, h2, h3, hid, hfit, if_false, if_true]
  rfl

theorem parseNextChunk_list_over (h : Heap) (file : Nat) (cs s1 s2 s3 : ChunkStream)
    (id size listID : Nat)
    (h1 : parseID (cnextCb h) cs = (some id, s1))
    (h2 : parseSize (cnextCb h) s1 = (some size, s2))
    (hid : id = LIST_ID ∨ id = RIFF_ID)
    (h3 : parseID (cnextCb h) s2 = (some listID, s3))
    (hfit : (s3.next + (sizeSub4 size + size % 2)) % WORD > (h.chunk s3.chunk).size) :
    (parseNextChunk h file cs).1 = none ∧
      (parseNextChunk h file cs).2.1.errnum = raff_ERR_CORRUPT ∧
      (parseNextChunk h file cs).2.1.bufs = h.bufs ∧
      (parseNextChunk h file cs).2.1.lists = h.lists ∧
      ∃ x, (parseNextChunk h file cs).2.1.chunks = h.chunks ++ [x] := by
  unfold parseNextChunk
  simp only [h1, h2, h3, hid, hfit, if_false, if_true]
  simp [Heap.allocChunk, Heap.setErr]

/-! ## Parsing one well-formed child -/

theorem lowByte_mod (x : Nat) : lowByte (x % 256) = x % 256 := by
  unfold lowByte; omega

theorem idOK_LIST : idOK LIST_ID := by decide
theorem idOK_RIFF : idOK RIFF_ID := by decide

theorem LIST_ne_RIFF : LIST_ID ≠ RIFF_ID := by decide

theorem leValue_le32 (n : Nat) (hn : n < 2 ^ 32) :
    leValue [lowByte (n % 256), lowByte (n / 256 % 256), lowByte (n / 65536 % 256),
      lowByte (n / 16777216 % 256)] = n := by
  simp only [lowByte_mod, leValue, List.getD_cons_zero, List.getD_cons_succ]
  omega

theorem newID_be32 (id : Nat) (hid : idOK id) :
    raff_newID [lowByte (id / 16777216 % 256), lowByte (id / 65536 % 256),
      lowByte (id / 256 % 256), lowByte (id % 256)] = id := by
  simp only [lowByte_mod]
  exact hid

theorem wireChild_length (d : Child) :
    (wireChild d).length = hdrLen d + d.payload.length + d.payload.length % 2 := by
  unfold wireChild hdrLen
  by_cases ht : d.type = TYPE_OTHER <;> by_cases hp : d.payload.length % 2 = 1 <;>
    simp [ht, hp, be32, le32] <;> omega

theorem drop_length_le {α : Type} (l : List α) (n : Nat) (x r : List α)
    (h : l.drop n = x ++ r) (hx : 0 < x.length) : n + x.length ≤ l.length := by
  have := congrArg List.length h
  simp only [List.length_drop, List.length_append] at this
  omega

theorem drop_drop_append {α : Type} (l : List α) (n : Nat) (x r : List α)
    (h : l.drop n = x ++ r) : l.drop (n + x.length) = r := by
  rw [← List.drop_drop, h, List.drop_left]

/-- The function `parseNextChunk` on the encoding of a well-formed child: it allocates the described
chunk and leaves the stream just after the encoding. -/
theorem parseNextChunk_child (h : Heap) (file c pos : Nat) (d : Child) (rest : List Nat)
    (hin : h.inBounds (h.chunk c)) (hsz : (h.chunk c).size < 2 ^ 63) (hok : okChild d)
    (hd : (h.range (h.chunk c)).drop pos = wireChild d ++ rest) :
    parseNextChunk h file { chunk := c, next := pos } =
      (some h.chunks.length,
        { h with
          chunks := h.chunks ++
            [{ next := none, file := file, list := none, type := d.type, id := d.id,
               size := d.payload.length,
               start := { buf := (h.chunk c).start.buf,
                          off := (h.chunk c).start.off + pos + hdrLen d },
               asList := none, asData := none }],
          errnum := raff_ERR_NONE },
        { chunk := c, next := pos + (wireChild d).length }) := by
  have hlen := wireChild_length d
  have hfits := drop_length_le _ _ _ _ hd (by rw [hlen]; unfold hdrLen; split <;> omega)
  rw [range_length h _ hin] at hfits
  obtain ⟨hidok, hmark, hpl⟩ := hok
  by_cases ht : d.type = TYPE_OTHER
  · -- a leaf
    have hw : wireChild d ++ rest =
        d.id / 16777216 % 256 :: d.id / 65536 % 256 :: d.id / 256 % 256 :: d.id % 256 ::
          (le32 d.payload.length ++ (d.payload ++
            ((if d.payload.length % 2 = 1 then [0] else []) ++ rest))) := by
      simp [wireChild, childTag, ht, be32]
    rw [hw] at hd
    obtain ⟨e1, d1⟩ := parseID_chunk h c pos hin _ _ _ _ _ hd
    rw [newID_be32 _ hidok] at e1
    have hw2 : le32 d.payload.length ++ (d.payload ++
        ((if d.payload.length % 2 = 1 then [0] else []) ++ rest)) =
        d.payload.length % 256 :: d.payload.length / 256 % 256 ::
          d.payload.length / 65536 % 256 :: d.payload.length / 16777216 % 256 ::
          (d.payload ++ ((if d.payload.length % 2 = 1 then [0] else []) ++ rest)) := by
      simp [le32]
    rw [hw2] at d1
    obtain ⟨e2, _⟩ := parseSize_chunk h c (pos + 4) hin _ _ _ _ _ d1
    rw [leValue_le32 _ (by omega)] at e2
    have hmk := hmark ht
    have hnid : ¬ (d.id = LIST_ID ∨ d.id = RIFF_ID) := by
      intro hc; rcases hc with hc | hc
      · exact hmk.2 hc
      · exact hmk.1 hc
    have hh : hdrLen d = 8 := by simp [hdrLen, ht]
    have hnext : (pos + 4 + 4 + (d.payload.length + d.payload.length % 2)) % WORD
        = pos + (wireChild d).length := by
      rw [hlen, hh, WORD_val]; omega
    have hfit : ¬ (((⟨c, pos + 4 + 4⟩ : ChunkStream).next +
        (d.payload.length + d.payload.length % 2)) % WORD
          > (h.chunk (⟨c, pos + 4 + 4⟩ : ChunkStream).chunk).size) := by
      simp only [hnext]; omega
    have := parseNextChunk_leaf h file _ _ _ _ _ e1 e2 hnid hfit
    rw [this]
    simp only [hnext, ht, hh]
    have e8 : (h.chunk c).start.off + (pos + 4 + 4) = (h.chunk c).start.off + pos + 8 := by omega
    rw [e8]
  · -- a container
    have hh : hdrLen d = 12 := by simp [hdrLen, ht]
    have htag : childTag d = LIST_ID ∨ childTag d = RIFF_ID := by
      unfold childTag
      rcases hty : d.type with _ | _ | _
      · exact Or.inl rfl
      · exact Or.inr rfl
      · exact absurd hty ht
    have htagok : idOK (childTag d) := by
      rcases htag with e | e <;> rw [e]
      · exact idOK_LIST
      · exact idOK_RIFF
    have hw : wireChild d ++ rest =
        childTag d / 16777216 % 256 :: childTag d / 65536 % 256 :: childTag d / 256 % 256 ::
          childTag d % 256 ::
          (le32 (d.payload.length + 4) ++ (be32 d.id ++ (d.payload ++
            ((if d.payload.length % 2 = 1 then [0] else []) ++ rest)))) := by
      simp [wireChild, ht, be32]
    rw [hw] at hd
    obtain ⟨e1, d1⟩ := parseID_chunk h c pos hin _ _ _ _ _ hd
    rw [newID_be32 _ htagok] at e1
    have hw2 : le32 (d.payload.length + 4) ++ (be32 d.id ++ (d.payload ++
        ((if d.payload.length % 2 = 1 then [0] else []) ++ rest))) =
        (d.payload.length + 4) % 256 :: (d.payload.length + 4) / 256 % 256 ::
          (d.payload.length + 4) / 65536 % 256 :: (d.payload.length + 4) / 16777216 % 256 ::
          (be32 d.id ++ (d.payload ++
            ((if d.payload.length % 2 = 1 then [0] else []) ++ rest))) := by
      simp [le32]
    rw [hw2] at d1
    obtain ⟨e2, d2⟩ := parseSize_chunk h c (pos + 4) hin _ _ _ _ _ d1
    rw [leValue_le32 _ (by omega)] at e2
    have hw3 : be32 d.id ++ (d.payload ++
        ((if d.payload.length % 2 = 1 then [0] else []) ++ rest)) =
        d.id / 16777216 % 256 :: d.id / 65536 % 256 :: d.id / 256 % 256 :: d.id % 256 ::
          (d.payload ++ ((if d.payload.length % 2 = 1 then [0] else []) ++ rest)) := by
      simp [be32]
    rw [hw3] at d2
    obtain ⟨e3, _⟩ := parseID_chunk h c (pos + 4 + 4) hin _ _ _ _ _ d2
    rw [newID_be32 _ hidok] at e3
    have hs4 : sizeSub4 (d.payload.length + 4) = d.payload.length := by
      simp [sizeSub4]
    have hpar : (d.payload.length + 4) % 2 = d.payload.length % 2 := by omega
    have hnext : (pos + 4 + 4 + 4 + (sizeSub4 (d.payload.length + 4) +
        (d.payload.length + 4) % 2)) % WORD = pos + (wireChild d).length := by
      rw [hs4, hpar, hlen, hh, WORD_val]; omega
    have hfit : ¬ (((⟨c, pos + 4 + 4 + 4⟩ : ChunkStream).next +
        (sizeSub4 (d.payload.length + 4) + (d.payload.length + 4) % 2)) % WORD
          > (h.chunk (⟨c, pos + 4 + 4 + 4⟩ : ChunkStream).chunk).size) := by
      simp only [hnext]; omega
    have := parseNextChunk_list h file _ _ _ _ _ _ _ e1 e2 htag e3 hfit
    rw [this]
    simp only [hnext, hs4, hh]
    have e12 : (h.chunk c).start.off + (pos + 4 + 4 + 4) = (h.chunk c).start.off + pos + 12 := by
      omega
    have hty : (if childTag d = LIST_ID then TYPE_LIST else TYPE_RIFF) = d.type := by
      unfold childTag
      rcases hty : d.type with _ | _ | _
      · simp
      · have : RIFF_ID ≠ LIST_ID := fun e => LIST_ne_RIFF e.symm
        simp [this]
      · exact absurd hty ht
    rw [e12, hty]
    rw [hs4] at hnext
    rw [hnext]

/-! ## The parsing loop on a sequence of well-formed children -/

theorem set_append_length {α : Type} (X : List α) (r v : α) :
    (X ++ [r]).set X.length v = X ++ [v] := by
  induction X with
  | nil => rfl
  | cons a t ih => simp [List.set, ih]

theorem set_append_lt {α : Type} (X : List α) (r v : α) (l : Nat) (hl : l < X.length) :
    (X ++ [r]).set l v = X.set l v ++ [r] := by
  induction X generalizing l with
  | nil => simp at hl
  | cons a t ih =>
    cases l with
    | zero => rfl
    | succ l =>
      have : l < t.length := by simpa using hl
      simp [List.set, ih l this]

theorem linkLast_length (X : List raff_Chunk) (last : Option Nat) (s : Nat) :
    (linkLast X last s).length = X.length := by
  unfold linkLast
  cases last <;> simp

theorem wireChild_pos (d : Child) : 0 < (wireChild d).length := by
  rw [wireChild_length]; unfold hdrLen; split <;> omega

theorem chunkAsListLoop_done (list c fuel : Nat) (h : Heap) (cs : ChunkStream)
    (first last : Option Nat) (hge : ¬ (cs.next < (h.chunk c).size)) :
    chunkAsListLoop list c (fuel + 1) h cs first last = LoopResult.done h first last := by
  rw [chunkAsListLoop]
  simp only [hge, if_false]

theorem chunkAsListLoop_fail (list c fuel : Nat) (h : Heap) (cs : ChunkStream)
    (first last : Option Nat) (hlt : cs.next < (h.chunk c).size)
    (hp : (parseNextChunk h (h.list list).file cs).1 = none) :
    chunkAsListLoop list c (fuel + 1) h cs first last =
      LoopResult.failed (parseNextChunk h (h.list list).file cs).2.1 := by
  rw [chunkAsListLoop]
  simp only [hlt, if_true]
  rcases hq : parseNextChunk h (h.list list).file cs with ⟨o, h1, cs1⟩
  rw [hq] at hp
  simp only at hp
  subst hp
  rfl

theorem chunkAsListLoop_first (list c fuel : Nat) (h h1 : Heap) (cs cs1 : ChunkStream)
    (sub : Nat) (hlt : cs.next < (h.chunk c).size)
    (hp : parseNextChunk h (h.list list).file cs = (some sub, h1, cs1)) :
    chunkAsListLoop list c (fuel + 1) h cs none none =
      chunkAsListLoop list c fuel
        (h1.setChunk sub { h1.chunk sub with list := some list }) cs1 (some sub) (some sub) := by
  rw [chunkAsListLoop]
  simp only [hlt, if_true, hp]

theorem chunkAsListLoop_more (list c fuel : Nat) (h h1 : Heap) (cs cs1 : ChunkStream)
    (sub f l : Nat) (hlt : cs.next < (h.chunk c).size)
    (hp : parseNextChunk h (h.list list).file cs = (some sub, h1, cs1)) :
    chunkAsListLoop list c (fuel + 1) h cs (some f) (some l) =
      chunkAsListLoop list c fuel
        ((h1.setChunk sub { h1.chunk sub with list := some list }).setChunk l
          { (h1.setChunk sub { h1.chunk sub with list := some list }).chunk l with
            next := some sub })
        cs1 (some f) (some sub) := by
  rw [chunkAsListLoop]
  simp only [hlt, if_true, hp]

theorem chunk_of_lt (X : List raff_Chunk) (r : raff_Chunk) (p : Nat)
    (hp : p < X.length) (f : List raff_File) (l : List raff_List) (d : List raff_Data)
    (b : List (List Nat)) (e : raff_Error) :
    Heap.chunk { files := f, chunks := X ++ [r], lists := l, datas := d, bufs := b, errnum := e } p
      = X.getD p default := by
  show (X ++ [r]).getD p default = _
  exact getD_append_lt _ _ _ _ hp

theorem linkLast_getD_ne (X : List raff_Chunk) (last : Option Nat) (s c : Nat)
    (hne : ∀ l, last = some l → l ≠ c) :
    (linkLast X last s).getD c default = X.getD c default := by
  unfold linkLast
  cases last with
  | none => rfl
  | some l => exact getD_set_ne _ _ _ _ _ (hne l rfl)

theorem linkLast_append_some (X : List raff_Chunk) (r : raff_Chunk) (s : Nat) :
    linkLast (X ++ [r]) (some X.length) s = X ++ [{ r with next := some s }] := by
  show (X ++ [r]).set X.length { (X ++ [r]).getD X.length default with next := some s } = _
  rw [getD_append_length, set_append_length]

/-- One turn of the parsing loop on the encoding of a well-formed child. -/
theorem chunkAsListLoop_step (list c : Nat) (d : Child) (rest : List Nat) (h : Heap)
    (pos : Nat) (first last : Option Nat) (fuel : Nat)
    (hin : h.inBounds (h.chunk c)) (hsz : (h.chunk c).size < 2 ^ 63) (hokd : okChild d)
    (hd1 : (h.range (h.chunk c)).drop pos = wireChild d ++ rest)
    (hfl : first = none ↔ last = none)
    (hlast : ∀ l, last = some l → l < h.chunks.length ∧ l ≠ c) :
    chunkAsListLoop list c (fuel + 1) h { chunk := c, next := pos } first last =
      chunkAsListLoop list c fuel
        { files := h.files,
          chunks := linkLast h.chunks last h.chunks.length ++
            [{ next := none, file := (h.list list).file, list := some list, type := d.type,
               id := d.id, size := d.payload.length,
               start := { buf := (h.chunk c).start.buf,
                          off := (h.chunk c).start.off + pos + hdrLen d },
               asList := none, asData := none }],
          lists := h.lists, datas := h.datas, bufs := h.bufs, errnum := raff_ERR_NONE }
        { chunk := c, next := pos + (wireChild d).length }
        (if first = none then some h.chunks.length else first)
        (some h.chunks.length) := by
  have hfits := drop_length_le _ _ _ _ hd1 (wireChild_pos d)
  rw [range_length h _ hin] at hfits
  have hpos := wireChild_pos d
  have hlt : pos < (h.chunk c).size := by omega
  have hp := parseNextChunk_child h (h.list list).file c pos d _ hin hsz hokd hd1
  cases last with
  | none =>
    have hfn : first = none := hfl.2 rfl
    subst hfn
    rw [chunkAsListLoop_first list c fuel h _ _ _ _ hlt hp]
    congr 1
    simp only [Heap.setChunk, Heap.chunk, linkLast, getD_append_length, set_append_length]
  | some l =>
    obtain ⟨f0, hf0⟩ : ∃ f0, first = some f0 := by
      cases first with
      | none => exact absurd (hfl.1 rfl) (by simp)
      | some f0 => exact ⟨f0, rfl⟩
    subst hf0
    have hl := (hlast l rfl).1
    rw [chunkAsListLoop_more list c fuel h _ _ _ _ f0 l hlt hp]
    congr 1
    simp only [Heap.setChunk, Heap.chunk, linkLast, getD_append_length, set_append_length]
    rw [set_append_lt _ _ _ _ hl, getD_append_lt _ _ _ _ hl]

/-- The parent chunk is where it was after a turn of the loop. -/
theorem chunk_after_step (h : Heap) (c : Nat) (last : Option Nat) (r0 : raff_Chunk)
    (hc : c < h.chunks.length) (hlast : ∀ l, last = some l → l < h.chunks.length ∧ l ≠ c) :
    Heap.chunk
        { files := h.files, chunks := linkLast h.chunks last h.chunks.length ++ [r0],
          lists := h.lists, datas := h.datas, bufs := h.bufs, errnum := raff_ERR_NONE } c
      = h.chunk c := by
  rw [chunk_of_lt _ _ _ (by rw [linkLast_length]; exact hc),
    linkLast_getD_ne _ _ _ _ (fun l hl => (hlast l hl).2)]
  rfl

/-- The parsing loop on the encodings of well-formed children allocates exactly
`parsedChunks` and links them after the last chunk. -/
theorem chunkAsListLoop_children (list c : Nat) (ds : List Child) :
    ∀ (h : Heap) (pos : Nat) (first last : Option Nat) (fuel : Nat),
      h.inBounds (h.chunk c) → (h.chunk c).size < 2 ^ 63 → c < h.chunks.length →
      (∀ d ∈ ds, okChild d) → (h.range (h.chunk c)).drop pos = wireChildren ds →
      ds.length < fuel → (first = none ↔ last = none) →
      (∀ l, last = some l → l < h.chunks.length ∧ l ≠ c) →
      chunkAsListLoop list c fuel h { chunk := c, next := pos } first last =
        if ds = [] then LoopResult.done h first last
        else LoopResult.done
          { files := h.files,
            chunks := linkLast h.chunks last h.chunks.length ++
              parsedChunks (h.list list).file list (h.chunk c).start.buf
                ((h.chunk c).start.off + pos) h.chunks.length ds,
            lists := h.lists, datas := h.datas, bufs := h.bufs, errnum := raff_ERR_NONE }
          (if first = none then some h.chunks.length else first)
          (some (h.chunks.length + ds.length - 1)) := by
  induction ds with
  | nil =>
    intro h pos first last fuel hin _ _ _ hd hf _ _
    match fuel, hf with
    | fuel + 1, _ =>
      have hlen := range_length h _ hin
      have hge : ¬ (pos < (h.chunk c).size) := by
        have := congrArg List.length hd
        simp [wireChildren] at this
        omega
      rw [chunkAsListLoop_done list c fuel h _ first last hge]
      simp
  | cons d ds ih =>
    intro h pos first last fuel hin hsz hc hok hd hf hfl hlast
    match fuel, hf with
    | fuel + 1, hf =>
      have hokd : okChild d := hok d (List.mem_cons_self _ _)
      have hoks : ∀ x ∈ ds, okChild x := fun x hx => hok x (List.mem_cons_of_mem _ hx)
      have hd1 : (h.range (h.chunk c)).drop pos = wireChild d ++ wireChildren ds := hd
      have hd2 := drop_drop_append _ _ _ _ hd1
      have hf2 : ds.length < fuel := by simpa using hf
      rw [chunkAsListLoop_step list c d _ h pos first last fuel hin hsz hokd hd1 hfl hlast]
      have hck := chunk_after_step h c last
        { next := none, file := (h.list list).file, list := some list, type := d.type,
          id := d.id, size := d.payload.length,
          start := { buf := (h.chunk c).start.buf,
                     off := (h.chunk c).start.off + pos + hdrLen d },
          asList := none, asData := none } hc hlast
      have hih := ih _ (pos + (wireChild d).length)
        (if first = none then some h.chunks.length else first)
        (some h.chunks.length) fuel
        (by rw [hck]; exact hin) (by rw [hck]; exact hsz)
        (by simp [linkLast_length]; omega) hoks
        (by rw [hck]; exact hd2) hf2
        (by constructor
            · intro hx; split at hx <;> simp_all
            · intro hx; simp at hx)
        (by intro l hl
            simp only [Option.some.injEq] at hl
            subst hl
            simp [linkLast_length]; omega)
      rw [hih]
      simp only [hck, List.length_append, linkLast_length, List.length_cons, List.length_nil,
        reduceCtorEq, if_false]
      by_cases hds : ds = []
      · subst hds
        simp [parsedChunks, Heap.list]
      · simp only [hds, if_false]
        have hX : (linkLast h.chunks last h.chunks.length).length = h.chunks.length :=
          linkLast_length _ _ _
        have e1 := linkLast_append_some (linkLast h.chunks last h.chunks.length)
            { next := none, file := (h.list list).file, list := some list, type := d.type,
              id := d.id, size := d.payload.length,
              start := { buf := (h.chunk c).start.buf,
                         off := (h.chunk c).start.off + pos + hdrLen d },
              asList := none, asData := none }
            (h.chunks.length + 1)
        rw [hX] at e1
        rw [e1]
        have e2 : h.chunks.length + 1 + ds.length - 1 = h.chunks.length + (ds.length + 1) - 1 := by
          omega
        have e3 : (h.chunk c).start.off + (pos + (wireChild d).length)
            = (h.chunk c).start.off + pos + (wireChild d).length := by omega
        simp [parsedChunks, hds, Heap.list, e2, e3]
        intro hx
        exfalso
        by_cases hfn : first = none
        · simp [hfn] at hx
        · simp [hfn] at hx

/-! ## What `raff_chunkAsList` builds -/

theorem parsedChunks_length (file list buf : Nat) (ds : List Child) :
    ∀ off base, (parsedChunks file list buf off base ds).length = ds.length := by
  induction ds with
  | nil => intro _ _; rfl
  | cons d ds ih => intro off base; simp [parsedChunks, ih]

theorem getD_append_right' {α : Type} (X P : List α) (i : Nat) (d : α) :
    (X ++ P).getD (X.length + i) d = P.getD i d := by
  simp [List.getD_eq_getElem?_getD, List.getElem?_append_right]

theorem HoldsParsed_tail (H : Heap) (file list buf off base : Nat) (d : Child)
    (ds : List Child) (hp : HoldsParsed H file list buf off base (d :: ds)) :
    HoldsParsed H file list buf (off + (wireChild d).length) (base + 1) ds := by
  intro i hi
  have := hp (i + 1) (by simpa using hi)
  have e : base + 1 + i = base + (i + 1) := by omega
  rw [e, this]
  rfl

theorem HoldsParsed_head (H : Heap) (file list buf off base : Nat) (d : Child)
    (ds : List Child) (hp : HoldsParsed H file list buf off base (d :: ds)) :
    H.chunk base =
      { next := if ds = [] then none else some (base + 1), file := file, list := some list,
        type := d.type, id := d.id, size := d.payload.length,
        start := { buf := buf, off := off + hdrLen d }, asList := none, asData := none } := by
  have := hp 0 (by simp)
  rw [Nat.add_zero] at this
  rw [this]
  rfl

theorem isChain_parsed (H : Heap) (file list buf : Nat) (ds : List Child) :
    ∀ off base, HoldsParsed H file list buf off base ds →
      IsChain H (if ds = [] then none else some base) (List.range' base ds.length) := by
  induction ds with
  | nil => intro _ _ _; simp [IsChain]
  | cons d ds ih =>
    intro off base hp
    have hh := HoldsParsed_head H file list buf off base d ds hp
    have ht := ih _ _ (HoldsParsed_tail H file list buf off base d ds hp)
    simp only [reduceCtorEq, if_false, List.length_cons, List.range'_succ, IsChain, true_and]
    rw [hh]
    exact ht

theorem take_drop_payload (B : List Nat) (off : Nat) (hdr payload rest : List Nat)
    (h : B.drop off = hdr ++ (payload ++ rest)) :
    (B.drop (off + hdr.length)).take payload.length = payload := by
  rw [← List.drop_drop, h, List.drop_left, List.take_left]

theorem wireChild_split (d : Child) :
    ∃ hdr pad : List Nat, hdr.length = hdrLen d ∧ wireChild d = hdr ++ (d.payload ++ pad) := by
  unfold wireChild hdrLen
  by_cases ht : d.type = TYPE_OTHER
  · refine ⟨be32 (childTag d) ++ le32 d.payload.length,
      (if d.payload.length % 2 = 1 then [0] else []), ?_, ?_⟩
    · simp [ht, be32, le32]
    · simp [ht]
  · refine ⟨be32 (childTag d) ++ le32 (d.payload.length + 4) ++ be32 d.id,
      (if d.payload.length % 2 = 1 then [0] else []), ?_, ?_⟩
    · simp [ht, be32, le32]
    · simp [ht]

theorem children_parsed (H : Heap) (file list buf : Nat) (ds : List Child) :
    ∀ off base (tail : List Nat), HoldsParsed H file list buf off base ds →
      (H.buf buf).drop off = wireChildren ds ++ tail →
      (List.range' base ds.length).map H.child = ds ∧
      ∀ p ∈ List.range' base ds.length,
        (H.chunk p).size = (H.child p).payload.length ∧ (H.chunk p).asData = none ∧
        (H.chunk p).asList = none ∧ (H.chunk p).list = some list ∧ (H.chunk p).file = file ∧
        H.inBounds (H.chunk p) := by
  induction ds with
  | nil => intro _ _ _ _ _; simp
  | cons d ds ih =>
    intro off base tail hp hb
    have hh := HoldsParsed_head H file list buf off base d ds hp
    obtain ⟨hdr, pad, hhl, hsplit⟩ := wireChild_split d
    have hb1 : (H.buf buf).drop off = hdr ++ (d.payload ++ (pad ++ (wireChildren ds ++ tail))) := by
      rw [hb]; simp [wireChildren, hsplit]
    have hpay := take_drop_payload _ _ _ _ _ hb1
    rw [hhl] at hpay
    have hb2 : (H.buf buf).drop (off + (wireChild d).length) = wireChildren ds ++ tail := by
      have : (H.buf buf).drop off = wireChild d ++ (wireChildren ds ++ tail) := by
        rw [hb]; simp [wireChildren]
      exact drop_drop_append _ _ _ _ this
    obtain ⟨ih1, ih2⟩ := ih _ _ tail (HoldsParsed_tail H file list buf off base d ds hp) hb2
    have hchild : H.child base = d := by
      simp only [Heap.child, Heap.range, hh, hpay]
    have hinb : H.inBounds (H.chunk base) := by
      have hb3 : (H.buf buf).drop off =
          (hdr ++ d.payload) ++ (pad ++ (wireChildren ds ++ tail)) := by
        rw [hb1]; simp
      have h8 : 0 < hdrLen d := by unfold hdrLen; split <;> omega
      have hl := drop_length_le _ _ _ _ hb3 (by rw [List.length_append, hhl]; omega)
      rw [List.length_append, hhl] at hl
      rw [hh]
      simp only [Heap.inBounds]
      omega
    constructor
    · simp only [List.length_cons, List.range'_succ, List.map_cons, hchild, ih1]
    · intro p hpm
      simp only [List.length_cons, List.range'_succ, List.mem_cons] at hpm
      rcases hpm with rfl | hpm
      · refine ⟨?_, ?_, ?_, ?_, ?_, hinb⟩
        · rw [hchild, hh]
        · rw [hh]
        · rw [hh]
        · rw [hh]
        · rw [hh]
      · exact ih2 p hpm

theorem chunkAsList_of_done (fuel : Nat) (h h1 : Heap) (c : Nat) (first last : Option Nat)
    (hty : (h.chunk c).type ≠ TYPE_OTHER) (hnl : (h.chunk c).asList = none)
    (hloop : chunkAsListLoop h.lists.length c fuel (withNewList h c) (makeChunkStream c)
      none none = LoopResult.done h1 first last) :
    raff_chunkAsList fuel h c =
      some (some h.lists.length,
        (((h1.setList h.lists.length
            { h1.list h.lists.length with cursor := first, first := first, last := last }).setChunk c
          { (h1.setList h.lists.length
              { h1.list h.lists.length with cursor := first, first := first, last := last }).chunk c
            with asList := some h.lists.length })).setErr raff_ERR_NONE) := by
  unfold raff_chunkAsList
  unfold withNewList at hloop
  simp only [hty, if_false, hnl, hloop]

theorem chunkAsList_of_failed (fuel : Nat) (h h1 : Heap) (c : Nat)
    (hty : (h.chunk c).type ≠ TYPE_OTHER) (hnl : (h.chunk c).asList = none)
    (hloop : chunkAsListLoop h.lists.length c fuel (withNewList h c) (makeChunkStream c)
      none none = LoopResult.failed h1) :
    raff_chunkAsList fuel h c = some (none, h1) := by
  unfold raff_chunkAsList
  unfold withNewList at hloop
  simp only [hty, if_false, hnl, hloop]

theorem withNewList_chunk (h : Heap) (c p : Nat) : (withNewList h c).chunk p = h.chunk p := rfl

theorem withNewList_range (h : Heap) (c : Nat) (x : raff_Chunk) :
    (withNewList h c).range x = h.range x := rfl

theorem withNewList_inBounds (h : Heap) (c : Nat) (x : raff_Chunk) :
    (withNewList h c).inBounds x ↔ h.inBounds x := Iff.rfl

theorem withNewList_list (h : Heap) (c : Nat) :
    (withNewList h c).list h.lists.length =
      { file := (h.chunk c).file, id := (h.chunk c).id, cursor := none,
        first := none, last := none, asChunk := some c } := by
  simp only [withNewList, Heap.list, getD_append_length]

theorem withNewList_chunks (h : Heap) (c : Nat) : (withNewList h c).chunks = h.chunks := rfl
theorem withNewList_bufs (h : Heap) (c : Nat) : (withNewList h c).bufs = h.bufs := rfl
theorem withNewList_lists (h : Heap) (c : Nat) :
    (withNewList h c).lists = h.lists ++
      [{ file := (h.chunk c).file, id := (h.chunk c).id, cursor := none,
         first := none, last := none, asChunk := some c }] := rfl

/-! ### Reading the heap after a store -/

theorem chunk_setChunk_eq (h : Heap) (p : Nat) (v : raff_Chunk) (hp : p < h.chunks.length) :
    (h.setChunk p v).chunk p = v := getD_set_eq _ _ _ _ hp

theorem chunk_setChunk_ne (h : Heap) (p q : Nat) (v : raff_Chunk) (hpq : p ≠ q) :
    (h.setChunk p v).chunk q = h.chunk q := getD_set_ne _ _ _ _ _ hpq

theorem list_setList_eq (h : Heap) (p : Nat) (v : raff_List) (hp : p < h.lists.length) :
    (h.setList p v).list p = v := getD_set_eq _ _ _ _ hp

theorem list_setList_ne (h : Heap) (p q : Nat) (v : raff_List) (hpq : p ≠ q) :
    (h.setList p v).list q = h.list q := getD_set_ne _ _ _ _ _ hpq

theorem chunk_setList (h : Heap) (p q : Nat) (v : raff_List) :
    (h.setList p v).chunk q = h.chunk q := rfl

theorem chunk_setErr (h : Heap) (e : raff_Error) (q : Nat) : (h.setErr e).chunk q = h.chunk q := rfl

theorem list_setErr (h : Heap) (e : raff_Error) (q : Nat) : (h.setErr e).list q = h.list q := rfl

theorem list_setChunk (h : Heap) (p q : Nat) (v : raff_Chunk) :
    (h.setChunk p v).list q = h.list q := rfl

theorem chunks_length_setChunk (h : Heap) (p : Nat) (v : raff_Chunk) :
    (h.setChunk p v).chunks.length = h.chunks.length := by
  simp [Heap.setChunk]

theorem lists_length_setList (h : Heap) (p : Nat) (v : raff_List) :
    (h.setList p v).lists.length = h.lists.length := by
  simp [Heap.setList]

/-- The function `raff_chunkAsList` on a chunk whose range is the encoding of well-formed children. -/
theorem chunkAsList_children (fuel : Nat) (h : Heap) (c : Nat) (ds : List Child)
    (hty : (h.chunk c).type ≠ TYPE_OTHER) (hnl : (h.chunk c).asList = none)
    (hin : h.inBounds (h.chunk c)) (hsz : (h.chunk c).size < 2 ^ 63)
    (hc : c < h.chunks.length) (hok : ∀ d ∈ ds, okChild d)
    (hrange : h.range (h.chunk c) = wireChildren ds) (hf : ds.length < fuel) :
    ∃ h1, raff_chunkAsList fuel h c = some (some h.lists.length, h1) ∧
      h1.errnum = raff_ERR_NONE ∧ h1.bufs = h.bufs ∧
      HoldsParsed h1 (h.chunk c).file h.lists.length (h.chunk c).start.buf
        (h.chunk c).start.off h.chunks.length ds ∧
      h1.list h.lists.length =
        { file := (h.chunk c).file, id := (h.chunk c).id,
          cursor := if ds = [] then none else some h.chunks.length,
          first := if ds = [] then none else some h.chunks.length,
          last := if ds = [] then none else some (h.chunks.length + ds.length - 1),
          asChunk := some c } ∧
      h1.chunk c = { h.chunk c with asList := some h.lists.length } := by
  have hloop := chunkAsListLoop_children h.lists.length c ds (withNewList h c) 0 none none fuel
    ((withNewList_inBounds h c _).2 hin) hsz hc hok
    (by rw [withNewList_chunk, withNewList_range, List.drop_zero]; exact hrange) hf
    Iff.rfl (by intro l hl; cases hl)
  simp only [withNewList_list, withNewList_chunk, withNewList_chunks, withNewList_bufs,
    withNewList_lists, Nat.add_zero, linkLast, if_true] at hloop
  obtain ⟨H1, first, last, hH1, hfirst, hlast, hchunks, hlists, hbufs⟩ :
      ∃ H1 first last,
        chunkAsListLoop h.lists.length c fuel (withNewList h c) { chunk := c, next := 0 }
          none none = LoopResult.done H1 first last ∧
        first = (if ds = [] then none else some h.chunks.length) ∧
        last = (if ds = [] then none else some (h.chunks.length + ds.length - 1)) ∧
        H1.chunks = h.chunks ++ parsedChunks (h.chunk c).file h.lists.length
          (h.chunk c).start.buf (h.chunk c).start.off h.chunks.length ds ∧
        H1.lists = h.lists ++
          [{ file := (h.chunk c).file, id := (h.chunk c).id, cursor := none,
             first := none, last := none, asChunk := some c }] ∧
        H1.bufs = h.bufs := by
    by_cases hds : ds = []
    · subst hds
      simp only [if_true] at hloop
      exact ⟨_, _, _, hloop, rfl, rfl, by simp [withNewList_chunks, parsedChunks],
        withNewList_lists h c, rfl⟩
    · simp only [hds, if_false] at hloop
      exact ⟨_, _, _, hloop, by simp [hds], by simp [hds], rfl, rfl, rfl⟩
  have hll : h.lists.length < H1.lists.length := by rw [hlists]; simp
  have hcl : c < H1.chunks.length := by rw [hchunks, List.length_append]; omega
  have hH1c : H1.chunk c = h.chunk c := by
    simp only [Heap.chunk, hchunks]
    simp [List.getD_eq_getElem?_getD, List.getElem?_append_left hc]
  have hH1l : H1.list h.lists.length =
      { file := (h.chunk c).file, id := (h.chunk c).id, cursor := none,
        first := none, last := none, asChunk := some c } := by
    simp only [Heap.list, hlists, getD_append_length]
  refine ⟨_, chunkAsList_of_done fuel h H1 c first last hty hnl hH1, rfl, hbufs, ?_, ?_, ?_⟩
  · intro i hi
    rw [chunk_setErr, chunk_setChunk_ne _ _ _ _ (by omega), chunk_setList]
    simp only [Heap.chunk, hchunks]
    exact getD_append_right' _ _ _ _
  · rw [list_setErr, list_setChunk, list_setList_eq _ _ _ hll, hH1l, hfirst, hlast]
  · rw [chunk_setErr, chunk_setChunk_eq _ _ _ (by exact hcl),
      chunk_setList, hH1c]

theorem range_eq_prefix (h : Heap) (c : raff_Chunk) (bs : List Nat) (hr : h.range c = bs) :
    (h.buf c.start.buf).drop c.start.off =
      bs ++ ((h.buf c.start.buf).drop c.start.off).drop c.size := by
  rw [← hr]
  exact (List.take_append_drop _ _).symm

/-- The list that `raff_chunkAsList` returns for the encoding of well-formed children:
its chunks are linked in order and are the described children. -/
theorem chunkAsList_children_view (fuel : Nat) (h : Heap) (c : Nat) (ds : List Child)
    (hty : (h.chunk c).type ≠ TYPE_OTHER) (hnl : (h.chunk c).asList = none)
    (hin : h.inBounds (h.chunk c)) (hsz : (h.chunk c).size < 2 ^ 63)
    (hc : c < h.chunks.length) (hok : ∀ d ∈ ds, okChild d)
    (hrange : h.range (h.chunk c) = wireChildren ds) (hf : ds.length < fuel) :
    ∃ l h1 ps, raff_chunkAsList fuel h c = some (some l, h1) ∧
      h1.errnum = raff_ERR_NONE ∧ h1.bufs = h.bufs ∧
      IsChain h1 (h1.list l).first ps ∧ ps.map h1.child = ds ∧
      (∀ p ∈ ps, (h1.chunk p).size = (h1.child p).payload.length ∧
        (h1.chunk p).asData = none ∧ (h1.chunk p).asList = none ∧
        (h1.chunk p).list = some l ∧ (h1.chunk p).file = (h.chunk c).file ∧
        h1.inBounds (h1.chunk p)) ∧
      (h1.chunk c).asList = some l ∧ (h1.list l).asChunk = some c ∧
      (h1.list l).id = (h.chunk c).id := by
  obtain ⟨h1, hres, herr, hbufs, hhp, hlist, hchunk⟩ :=
    chunkAsList_children fuel h c ds hty hnl hin hsz hc hok hrange hf
  have hpre : (h1.buf (h.chunk c).start.buf).drop (h.chunk c).start.off =
      wireChildren ds ++ ((h.buf (h.chunk c).start.buf).drop (h.chunk c).start.off).drop
        (h.chunk c).size := by
    have := range_eq_prefix h (h.chunk c) _ hrange
    simp only [Heap.buf, hbufs]
    exact this
  obtain ⟨hmap, hall⟩ := children_parsed h1 _ _ _ ds _ _ _ hhp hpre
  have hchain := isChain_parsed h1 _ _ _ ds _ _ hhp
  refine ⟨h.lists.length, h1, List.range' h.chunks.length ds.length, hres, herr, hbufs, ?_,
    hmap, hall, ?_, ?_, ?_⟩
  · rw [hlist]; exact hchain
  · rw [hchunk]
  · rw [hlist]
  · rw [hlist]

/-! ## Claim C4: the nested parser and the wire format -/

/-- C4 (as amended): let a List/Riff chunk with no cached list have as its byte range
the wire encoding (`wireChildren`) of a sequence of child descriptions in which every id
is one that `parseID` reads back from its four bytes, no leaf carries the `RIFF` or
`LIST` marker as its id, and every payload is shorter than `2 ^ 32 - 4`.  Then
`raff_chunkAsList` succeeds with `raff_ERR_NONE` and the children of the returned list
are, in order, the described ones: same type, id and payload bytes, size equal to the
payload length. -/
theorem C4_nested_parse (fuel : Nat) (h : Heap) (c : Nat) (ds : List Child)
    (hty : (h.chunk c).type ≠ TYPE_OTHER) (hnl : (h.chunk c).asList = none)
    (hin : h.inBounds (h.chunk c)) (hsz : (h.chunk c).size < 2 ^ 63)
    (hc : c < h.chunks.length) (hok : ∀ d ∈ ds, okChild d)
    (hrange : h.range (h.chunk c) = wireChildren ds) (hf : ds.length < fuel) :
    ∃ l h1 ps, raff_chunkAsList fuel h c = some (some l, h1) ∧
      raff_errorNum h1 = raff_ERR_NONE ∧
      IsChain h1 (h1.list l).first ps ∧ ps.map h1.child = ds ∧
      ∀ p ∈ ps, (h1.chunk p).size = (h1.child p).payload.length := by
  obtain ⟨l, h1, ps, hres, herr, _, hchain, hmap, hall, _⟩ :=
    chunkAsList_children_view fuel h c ds hty hnl hin hsz hc hok hrange hf
  exact ⟨l, h1, ps, hres, herr, hchain, hmap, fun p hp => (hall p hp).1⟩

/-- Witness of C4: the root chunk of `sample.wav` and its two children. -/
theorem C4_nested_parse_witness :
    ∃ l h1 ps, raff_chunkAsList 3 wavHeap 0 = some (some l, h1) ∧
      raff_errorNum h1 = raff_ERR_NONE ∧
      IsChain h1 (h1.list l).first ps ∧ ps.map h1.child = wavChildren ∧
      ∀ p ∈ ps, (h1.chunk p).size = (h1.child p).payload.length :=
  C4_nested_parse 3 wavHeap 0 wavChildren (by decide) (by decide) (by decide) (by decide)
    (by decide) (by decide) (by decide) (by decide)

/-- Counterexample to C4 as stated: the byte range of the root chunk is the wire
encoding of one leaf child whose id is the `LIST` marker and whose payload is `abcd`;
`raff_chunkAsList` succeeds, but the child it returns is a List chunk with id `abcd` and
an empty payload, not the leaf that was described. -/
theorem C4_counterexample :
    (markerLeafHeap.chunk 0).type = TYPE_RIFF ∧ (markerLeafHeap.chunk 0).asList = none ∧
    markerLeafHeap.range (markerLeafHeap.chunk 0) = wireChildren [markerLeaf] ∧
    ∃ l h1, raff_chunkAsList 2 markerLeafHeap 0 = some (some l, h1) ∧
      (chainOf h1 2 (h1.list l).first).map h1.child =
        [{ type := TYPE_LIST, id := raff_newID [97, 98, 99, 100], payload := [] }] ∧
      (chainOf h1 2 (h1.list l).first).map h1.child ≠ [markerLeaf] := by
  refine ⟨by decide, by decide, by decide, 0, ((raff_chunkAsList 2 markerLeafHeap 0).getD (none, Heap.empty)).2,
    by decide, by decide, by decide⟩

/-! ## Which four bytes are packed to a given id -/

theorem pack_be3 (a b c : Nat) (hb : b < 256) (hc : c < 256) :
    (a <<< 24) ||| (b <<< 16) ||| (c <<< 8) = a * 2 ^ 24 + b * 2 ^ 16 + c * 2 ^ 8 := by
  have := pack_be a b c 0 hb hc (by omega)
  simpa using this

theorem pack_be2 (a b : Nat) (hb : b < 256) :
    (a <<< 24) ||| (b <<< 16) = a * 2 ^ 24 + b * 2 ^ 16 := by
  have := pack_be a b 0 0 hb (by omega) (by omega)
  simpa using this

/-- Four bytes are packed to an id of four non-zero 7-bit characters only if they are
those characters. -/
theorem raff_newID_eq_ascii (b0 b1 b2 b3 t0 t1 t2 t3 : Nat) (h0 : b0 < 256) (h1 : b1 < 256)
    (h2 : b2 < 256) (h3 : b3 < 256) (g0 : 0 < t0 ∧ t0 < 128) (g1 : 0 < t1 ∧ t1 < 128)
    (g2 : 0 < t2 ∧ t2 < 128) (g3 : 0 < t3 ∧ t3 < 128) (tl : List Nat)
    (h : raff_newID (b0 :: b1 :: b2 :: b3 :: tl) = t0 * 2 ^ 24 + t1 * 2 ^ 16 + t2 * 2 ^ 8 + t3) :
    b0 = t0 ∧ b1 = t1 ∧ b2 = t2 ∧ b3 = t3 := by
  have hT : (t0 * 2 ^ 24 + t1 * 2 ^ 16 + t2 * 2 ^ 8 + t3).testBit 32 = false :=
    Nat.testBit_lt_two_pow (by omega)
  replace h : @Eq Nat (raff_newID (b0 :: b1 :: b2 :: b3 :: tl))
      (t0 * 2 ^ 24 + t1 * 2 ^ 16 + t2 * 2 ^ 8 + t3) := h
  simp only [raff_newID, List.getD_cons_zero, List.getD_cons_succ, Nat.zero_or] at h
  have hb32 := congrArg (fun x => Nat.testBit x 32) h
  simp only [hT] at hb32
  split_ifs at h hb32
  · have hm := congrArg (fun x => x % 256) h
    simp only at hm
    omega
  · have t0' := term_lo b0 24 (by omega) h0 hb32
    rw [t0'.2.1, Nat.shiftLeft_eq] at h
    have hm := congrArg (fun x => x % 256) h
    simp only at hm
    omega
  · simp only [Nat.testBit_or, Bool.or_eq_false_iff] at hb32
    have t0' := term_lo b0 24 (by omega) h0 hb32.1
    have t1' := term_lo b1 16 (by omega) h1 hb32.2
    rw [t0'.2.1, t1'.2.1, pack_be2 b0 b1 h1] at h
    have hm := congrArg (fun x => x % 256) h
    simp only at hm
    omega
  · simp only [Nat.testBit_or, Bool.or_eq_false_iff] at hb32
    have t0' := term_lo b0 24 (by omega) h0 hb32.1.1
    have t1' := term_lo b1 16 (by omega) h1 hb32.1.2
    have t2' := term_lo b2 8 (by omega) h2 hb32.2
    rw [t0'.2.1, t1'.2.1, t2'.2.1, pack_be3 b0 b1 b2 h1 h2] at h
    have hm := congrArg (fun x => x % 256) h
    simp only at hm
    omega
  · simp only [Nat.testBit_or, Bool.or_eq_false_iff] at hb32
    have t0' := term_lo b0 24 (by omega) h0 hb32.1.1.1
    have t1' := term_lo b1 16 (by omega) h1 hb32.1.1.2
    have t2' := term_lo b2 8 (by omega) h2 hb32.1.2
    have t3' := last_lo b3 h3 hb32.2
    rw [t0'.2.1, t1'.2.1, t2'.2.1, t3'.2, pack_be b0 b1 b2 b3 h1 h2 h3] at h
    exact unpack4 b0 b1 b2 b3 t0 t1 t2 t3 h1 h2 h3 (by omega) (by omega) (by omega) h

theorem raff_newID_eq_LIST (b0 b1 b2 b3 : Nat) (h0 : b0 < 256) (h1 : b1 < 256) (h2 : b2 < 256)
    (h3 : b3 < 256) (tl : List Nat) :
    raff_newID (b0 :: b1 :: b2 :: b3 :: tl) = LIST_ID ↔ (b0 = 76 ∧ b1 = 73 ∧ b2 = 83 ∧ b3 = 84) := by
  constructor
  · intro h
    rw [LIST_ID_val] at h
    exact raff_newID_eq_ascii b0 b1 b2 b3 76 73 83 84 h0 h1 h2 h3 (by omega) (by omega)
      (by omega) (by omega) tl (by rw [h]; norm_num)
  · rintro ⟨rfl, rfl, rfl, rfl⟩
    rw [raff_newID_ascii 76 73 83 84 (by omega) (by omega) (by omega) (by omega) tl, LIST_ID_val]
    norm_num

/-! ## Parsing a corrupt child -/

theorem failFrame_setErr (h : Heap) : FailFrame h (h.setErr raff_ERR_CORRUPT) :=
  ⟨rfl, rfl, rfl, [], by simp [Heap.setErr]⟩

theorem failFrame_of_one (h H : Heap)
    (hh : H.errnum = raff_ERR_CORRUPT ∧ H.bufs = h.bufs ∧ H.lists = h.lists ∧
      ∃ x, H.chunks = h.chunks ++ [x]) : FailFrame h H := by
  obtain ⟨a, b, c, x, d⟩ := hh
  exact ⟨a, b, c, [x], d⟩

theorem allBytes_drop (l : List Nat) (n : Nat) (hl : allBytes l) : allBytes (l.drop n) :=
  fun b hb => hl b (List.mem_of_mem_drop hb)

theorem parseNextChunk_corrupt (h : Heap) (file c pos : Nat) (bad : List Nat)
    (hin : h.inBounds (h.chunk c)) (hsz : (h.chunk c).size < 2 ^ 63)
    (hby : allBytes (h.range (h.chunk c)))
    (hd : (h.range (h.chunk c)).drop pos = bad) (hbad : corruptChild bad) :
    (parseNextChunk h file { chunk := c, next := pos }).1 = none ∧
      FailFrame h (parseNextChunk h file { chunk := c, next := pos }).2.1 := by
  have hbb : allBytes bad := by rw [← hd]; exact allBytes_drop _ _ hby
  have hlen : pos + bad.length = (h.chunk c).size ∨ bad = [] := by
    have := congrArg List.length hd
    rw [List.length_drop, range_length h _ hin] at this
    by_cases hb : bad = []
    · exact Or.inr hb
    · left
      have : 0 < bad.length := List.length_pos.2 hb
      omega
  obtain ⟨hne, hcase⟩ := hbad
  have hlen' : pos + bad.length = (h.chunk c).size := by
    rcases hlen with h1 | h1
    · exact h1
    · exact absurd h1 hne
  match bad, hd, hbb, hcase, hlen' with
  | [], _, _, _, _ => exact absurd rfl hne
  | [_], hd, _, _, _ =>
    have := parseNextChunk_noID h file _ (parseID_chunk_short h c pos hin (by rw [hd]; simp))
    rw [this.2]; exact ⟨this.1, failFrame_setErr h⟩
  | [_, _], hd, _, _, _ =>
    have := parseNextChunk_noID h file _ (parseID_chunk_short h c pos hin (by rw [hd]; simp))
    rw [this.2]; exact ⟨this.1, failFrame_setErr h⟩
  | [_, _, _], hd, _, _, _ =>
    have := parseNextChunk_noID h file _ (parseID_chunk_short h c pos hin (by rw [hd]; simp))
    rw [this.2]; exact ⟨this.1, failFrame_setErr h⟩
  | x0 :: x1 :: x2 :: x3 :: r, hd, hbb, hcase, hlen' =>
    obtain ⟨e1, d1⟩ := parseID_chunk h c pos hin _ _ _ _ _ hd
    have b0 : x0 < 256 := hbb x0 (by simp)
    have b1 : x1 < 256 := hbb x1 (by simp)
    have b2 : x2 < 256 := hbb x2 (by simp)
    have b3 : x3 < 256 := hbb x3 (by simp)
    rw [lowByte_of_lt _ b0, lowByte_of_lt _ b1, lowByte_of_lt _ b2, lowByte_of_lt _ b3] at e1
    by_cases hr : r.length < 4
    · have := parseNextChunk_noSize h file _ _ _ e1
        (parseSize_chunk_short h c (pos + 4) hin (by rw [d1]; exact hr))
      rw [this.2]; exact ⟨this.1, failFrame_setErr h⟩
    · match r, hr, d1, hbb, hcase, hlen' with
      | [], hr, _, _, _, _ => simp at hr
      | [_], hr, _, _, _, _ => simp at hr
      | [_, _], hr, _, _, _, _ => simp at hr
      | [_, _, _], hr, _, _, _, _ => simp at hr
      | z0 :: z1 :: z2 :: z3 :: r2, _, d1, hbb, hcase, hlen' =>
        obtain ⟨e2, d2⟩ := parseSize_chunk h c (pos + 4) hin _ _ _ _ _ d1
        have c0 : z0 < 256 := hbb z0 (by simp)
        have c1 : z1 < 256 := hbb z1 (by simp)
        have c2 : z2 < 256 := hbb z2 (by simp)
        have c3 : z3 < 256 := hbb z3 (by simp)
        rw [lowByte_of_lt _ c0, lowByte_of_lt _ c1, lowByte_of_lt _ c2, lowByte_of_lt _ c3] at e2
        have hn := leValue_lt z0 z1 z2 z3 c0 c1 c2 c3
        simp only [List.length_cons, List.take_succ_cons, List.take_zero, List.drop_succ_cons,
          List.drop_zero] at hcase hlen'
        generalize leValue [z0, z1, z2, z3] = n at e2 hn hcase
        by_cases hm : raff_newID [x0, x1, x2, x3] = LIST_ID ∨ raff_newID [x0, x1, x2, x3] = RIFF_ID
        · by_cases hr2 : r2.length < 4
          · have := parseNextChunk_noListID h file _ _ _ _ _ e1 e2 hm
              (parseID_chunk_short h c (pos + 4 + 4) hin (by rw [d2]; exact hr2))
            exact ⟨this.1, failFrame_of_one _ _ this.2⟩
          · match r2, hr2, d2, hcase, hlen' with
            | [], hr2, _, _, _ => simp at hr2
            | [_], hr2, _, _, _ => simp at hr2
            | [_, _], hr2, _, _, _ => simp at hr2
            | [_, _, _], hr2, _, _, _ => simp at hr2
            | y0 :: y1 :: y2 :: y3 :: r3, _, d2, hcase, hlen' =>
              obtain ⟨e3, _⟩ := parseID_chunk h c (pos + 4 + 4) hin _ _ _ _ _ d2
              simp only [List.length_cons] at hcase hlen'
              have hover : r3.length + 12 < 8 + n + n % 2 := by
                rcases hcase with hc | hc | hc
                · omega
                · omega
                · omega
              have hs4 : sizeSub4 n = n - 4 := by
                have : 4 ≤ n := by omega
                simp [sizeSub4, this]
              have hfit : ((⟨c, pos + 4 + 4 + 4⟩ : ChunkStream).next + (sizeSub4 n + n % 2)) % WORD
                  > (h.chunk (⟨c, pos + 4 + 4 + 4⟩ : ChunkStream).chunk).size := by
                simp only [hs4]
                rw [Nat.mod_eq_of_lt (by rw [WORD_val]; omega)]
                omega
              have := parseNextChunk_list_over h file _ _ _ _ _ _ _ e1 e2 hm e3 hfit
              exact ⟨this.1, failFrame_of_one _ _ this.2⟩
        · have hnm : ¬ ((x0 :: x1 :: x2 :: [x3]) = tagLIST ∨ (x0 :: x1 :: x2 :: [x3]) = tagRIFF) := by
            intro hc
            apply hm
            rcases hc with hc | hc
            · left
              simp only [tagLIST, List.cons.injEq, and_true] at hc
              exact (raff_newID_eq_LIST x0 x1 x2 x3 b0 b1 b2 b3 []).2 hc
            · right
              simp only [tagRIFF, List.cons.injEq, and_true] at hc
              exact (raff_newID_eq_RIFF x0 x1 x2 x3 b0 b1 b2 b3 []).2 hc
          have hover : r2.length + 8 < 8 + n + n % 2 := by
            rcases hcase with hc | hc | hc
            · omega
            · exact absurd hc.1 hnm
            · omega
          have hfit : ((⟨c, pos + 4 + 4⟩ : ChunkStream).next + (n + n % 2)) % WORD
              > (h.chunk (⟨c, pos + 4 + 4⟩ : ChunkStream).chunk).size := by
            rw [Nat.mod_eq_of_lt (by simp only; rw [WORD_val]; omega)]
            simp only
            omega
          have := parseNextChunk_leaf_over h file _ _ _ _ _ e1 e2 hm hfit
          exact ⟨this.1, failFrame_of_one _ _ this.2⟩

theorem range_congr (h H : Heap) (x : raff_Chunk) (hb : H.bufs = h.bufs) :
    H.range x = h.range x := by
  simp only [Heap.range, Heap.buf, hb]

theorem inBounds_congr (h H : Heap) (x : raff_Chunk) (hb : H.bufs = h.bufs)
    (hin : h.inBounds x) : H.inBounds x := by
  simp only [Heap.inBounds, Heap.buf, hb] at hin ⊢
  exact hin

/-- The parsing loop fails when a corrupt child follows well-formed children. -/
theorem chunkAsListLoop_corrupt (list c : Nat) (bad : List Nat) (hbad : corruptChild bad)
    (ds : List Child) :
    ∀ (h : Heap) (pos : Nat) (first last : Option Nat) (fuel : Nat),
      h.inBounds (h.chunk c) → (h.chunk c).size < 2 ^ 63 → c < h.chunks.length →
      allBytes (h.range (h.chunk c)) →
      (∀ d ∈ ds, okChild d) → (h.range (h.chunk c)).drop pos = wireChildren ds ++ bad →
      ds.length < fuel → (first = none ↔ last = none) →
      (∀ l, last = some l → l < h.chunks.length ∧ l ≠ c) →
      ∃ H, chunkAsListLoop list c fuel h { chunk := c, next := pos } first last
          = LoopResult.failed H ∧
        H.errnum = raff_ERR_CORRUPT ∧ H.bufs = h.bufs ∧ H.lists = h.lists ∧
        H.chunk c = h.chunk c ∧ h.chunks.length ≤ H.chunks.length := by
  induction ds with
  | nil =>
    intro h pos first last fuel hin hsz hc hby _ hd hf _ _
    match fuel, hf with
    | fuel + 1, _ =>
      have hd' : (h.range (h.chunk c)).drop pos = bad := by simpa [wireChildren] using hd
      have hlt : pos < (h.chunk c).size := by
        have := congrArg List.length hd'
        rw [List.length_drop, range_length h _ hin] at this
        have : 0 < bad.length := List.length_pos.2 hbad.1
        omega
      obtain ⟨hnone, herr, hbufs, hlists, xs, hxs⟩ :=
        parseNextChunk_corrupt h (h.list list).file c pos bad hin hsz hby hd' hbad
      refine ⟨_, chunkAsListLoop_fail list c fuel h _ first last hlt hnone, herr, hbufs,
        hlists, ?_, ?_⟩
      · simp only [Heap.chunk, hxs]
        simp [List.getD_eq_getElem?_getD, List.getElem?_append_left hc]
      · rw [hxs, List.length_append]; omega
  | cons d ds ih =>
    intro h pos first last fuel hin hsz hc hby hok hd hf hfl hlast
    match fuel, hf with
    | fuel + 1, hf =>
      have hokd : okChild d := hok d (List.mem_cons_self _ _)
      have hoks : ∀ x ∈ ds, okChild x := fun x hx => hok x (List.mem_cons_of_mem _ hx)
      have hd1 : (h.range (h.chunk c)).drop pos = wireChild d ++ (wireChildren ds ++ bad) := by
        rw [hd]; simp [wireChildren]
      have hd2 := drop_drop_append _ _ _ _ hd1
      have hf2 : ds.length < fuel := by simpa using hf
      rw [chunkAsListLoop_step list c d _ h pos first last fuel hin hsz hokd hd1 hfl hlast]
      have hck := chunk_after_step h c last
        { next := none, file := (h.list list).file, list := some list, type := d.type,
          id := d.id, size := d.payload.length,
          start := { buf := (h.chunk c).start.buf,
                     off := (h.chunk c).start.off + pos + hdrLen d },
          asList := none, asData := none } hc hlast
      obtain ⟨H, hres, herr, hbufs, hlists, hchunk, hlen⟩ := ih _ (pos + (wireChild d).length)
        (if first = none then some h.chunks.length else first)
        (some h.chunks.length) fuel
        (by rw [hck]; exact hin) (by rw [hck]; exact hsz)
        (by simp [linkLast_length]; omega)
        (by rw [hck]; exact hby) hoks
        (by rw [hck]; exact hd2) hf2
        (by constructor
            · intro hx; split at hx <;> simp_all
            · intro hx; simp at hx)
        (by intro l hl
            simp only [Option.some.injEq] at hl
            subst hl
            simp [linkLast_length]; omega)
      refine ⟨H, hres, herr, hbufs, hlists, ?_, ?_⟩
      · rw [hchunk, hck]
      · simp only [List.length_append, linkLast_length, List.length_cons, List.length_nil] at hlen
        omega

/-- The function `raff_chunkAsList` fails when a corrupt child follows well-formed children, and
leaves the chunk and the buffers as they were. -/
theorem chunkAsList_corrupt (fuel : Nat) (h : Heap) (c : Nat) (ds : List Child)
    (bad : List Nat)
    (hty : (h.chunk c).type ≠ TYPE_OTHER) (hnl : (h.chunk c).asList = none)
    (hin : h.inBounds (h.chunk c)) (hsz : (h.chunk c).size < 2 ^ 63)
    (hc : c < h.chunks.length) (hby : allBytes (h.range (h.chunk c)))
    (hok : ∀ d ∈ ds, okChild d)
    (hrange : h.range (h.chunk c) = wireChildren ds ++ bad) (hbad : corruptChild bad)
    (hf : ds.length < fuel) :
    ∃ h1, raff_chunkAsList fuel h c = some (none, h1) ∧ h1.errnum = raff_ERR_CORRUPT ∧
      h1.bufs = h.bufs ∧ h1.chunk c = h.chunk c ∧ c < h1.chunks.length := by
  obtain ⟨H, hres, herr, hbufs, _, hchunk, hlen⟩ :=
    chunkAsListLoop_corrupt h.lists.length c bad hbad ds (withNewList h c) 0 none none fuel
      ((withNewList_inBounds h c _).2 hin) hsz hc
      (by rw [withNewList_chunk, withNewList_range]; exact hby) hok
      (by rw [withNewList_chunk, withNewList_range, List.drop_zero]; exact hrange) hf
      Iff.rfl (by intro l hl; cases hl)
  refine ⟨H, chunkAsList_of_failed fuel h H c hty hnl hres, herr, hbufs, hchunk, ?_⟩
  rw [withNewList_chunks] at hlen
  omega

/-! ## Claim C10: corrupt nested content -/

/-- C10: let a List/Riff chunk with no cached list have a byte range that holds the
encodings of some well-formed children followed, where the next child is expected, by
bytes that are too few for the child's header (tag and size, and the sub-ID after a
`LIST`/`RIFF` tag) or by a child whose declared size plus pad byte runs past the end of
the range.  Then `raff_chunkAsList` returns no list and sets `raff_ERR_CORRUPT`, the
chunk still has no cached list, and a second call fails in the same way. -/
theorem C10_corrupt_nested (fuel : Nat) (h : Heap) (c : Nat) (ds : List Child)
    (bad : List Nat)
    (hty : (h.chunk c).type ≠ TYPE_OTHER) (hnl : (h.chunk c).asList = none)
    (hin : h.inBounds (h.chunk c)) (hsz : (h.chunk c).size < 2 ^ 63)
    (hc : c < h.chunks.length) (hby : allBytes (h.range (h.chunk c)))
    (hok : ∀ d ∈ ds, okChild d)
    (hrange : h.range (h.chunk c) = wireChildren ds ++ bad) (hbad : corruptChild bad)
    (hf : ds.length < fuel) :
    ∃ h1, raff_chunkAsList fuel h c = some (none, h1) ∧
      raff_errorNum h1 = raff_ERR_CORRUPT ∧ (h1.chunk c).asList = none ∧
      ∃ h2, raff_chunkAsList fuel h1 c = some (none, h2) ∧
        raff_errorNum h2 = raff_ERR_CORRUPT ∧ (h2.chunk c).asList = none := by
  obtain ⟨h1, hres, herr, hbufs, hchunk, hc1⟩ :=
    chunkAsList_corrupt fuel h c ds bad hty hnl hin hsz hc hby hok hrange hbad hf
  obtain ⟨h2, hres2, herr2, _, hchunk2, _⟩ :=
    chunkAsList_corrupt fuel h1 c ds bad (by rw [hchunk]; exact hty) (by rw [hchunk]; exact hnl)
      (by rw [hchunk]; exact inBounds_congr h h1 _ hbufs hin) (by rw [hchunk]; exact hsz) hc1
      (by rw [hchunk, range_congr h h1 _ hbufs]; exact hby) hok
      (by rw [hchunk, range_congr h h1 _ hbufs]; exact hrange) hbad hf
  exact ⟨h1, hres, herr, by rw [hchunk]; exact hnl, h2, hres2, herr2,
    by rw [hchunk2, hchunk]; exact hnl⟩

/-! ## Encoding a list of leaf chunks -/

theorem copyBytes_range (h : Heap) (c : raff_Chunk) (hin : h.inBounds c) :
    copyBytes (h.readByte c.start) c.size = h.range c := by
  apply List.ext_getElem?
  intro i
  by_cases hi : i < c.size
  · rw [range_getElem? h c hin i hi]
    simp [copyBytes, List.getElem?_map, List.getElem?_range hi]
  · have h1 : (h.range c)[i]? = none :=
      List.getElem?_eq_none (by rw [range_length h c hin]; omega)
    rw [h1]
    simp [copyBytes]
    omega

/-- What one turn of the serialisation loop of `raff_listAsChunk` writes for a leaf. -/
theorem leaf_bytes (h : Heap) (p : Nat) (data : List Nat)
    (hty : (h.chunk p).type = TYPE_OTHER) (hin : h.inBounds (h.chunk p)) :
    (if (h.chunk p).size % 2 = 1 then
        addSize (addID data (h.chunk p).id) (h.chunk p).size ++
          copyBytes (h.readByte (h.chunk p).start) (h.chunk p).size ++ [0]
      else
        addSize (addID data (h.chunk p).id) (h.chunk p).size ++
          copyBytes (h.readByte (h.chunk p).start) (h.chunk p).size)
      = data ++ wireChild (h.child p) := by
  have hl := range_length h _ hin
  simp only [addID, addSize, copyBytes_range h _ hin, wireChild, Heap.child, childTag, hty,
    if_true, hl, be32_eq, le32_eq]
  split <;> simp

theorem listWriteLoop_leaves (h : Heap) (ps : List Nat) :
    ∀ (first : Option Nat) (data : List Nat) (fuel : Nat), IsChain h first ps →
      (∀ p ∈ ps, (h.chunk p).type = TYPE_OTHER ∧ h.inBounds (h.chunk p)) →
      ps.length ≤ fuel →
      listWriteLoop h fuel first data = some (data ++ wireChildren (ps.map h.child)) := by
  induction ps with
  | nil =>
    intro first data fuel hch _ _
    cases first with
    | none => cases fuel <;> simp [listWriteLoop, wireChildren]
    | some p => exact absurd hch (by simp [IsChain])
  | cons q qs ih =>
    intro first data fuel hch hleaf hf
    cases first with
    | none => exact absurd hch (by simp [IsChain])
    | some p =>
      obtain ⟨rfl, hrest⟩ := hch
      match fuel, hf with
      | fuel + 1, hf =>
        have hq := hleaf p (List.mem_cons_self _ _)
        have hf2 : qs.length ≤ fuel := by simpa using hf
        have hne : ¬ ((h.chunk p).type ≠ TYPE_OTHER) := by simp [hq.1]
        rw [listWriteLoop]
        simp only [hne, if_false]
        rw [leaf_bytes h p data hq.1 hq.2]
        rw [ih _ _ fuel hrest (fun x hx => hleaf x (List.mem_cons_of_mem _ hx)) hf2]
        simp [wireChildren]

theorem wireChild_leaf_length (h : Heap) (p : Nat) (hty : (h.chunk p).type = TYPE_OTHER)
    (hin : h.inBounds (h.chunk p)) :
    (wireChild (h.child p)).length = 8 + (h.chunk p).size + (h.chunk p).size % 2 := by
  rw [wireChild_length]
  simp [hdrLen, Heap.child, hty, range_length h _ hin]

theorem listSizeLoop_leaves (h : Heap) (ps : List Nat) :
    ∀ (first : Option Nat) (size : Nat) (fuel : Nat), IsChain h first ps →
      (∀ p ∈ ps, (h.chunk p).type = TYPE_OTHER ∧ h.inBounds (h.chunk p)) →
      ps.length ≤ fuel → size + (wireChildren (ps.map h.child)).length < WORD →
      listSizeLoop h fuel first size = some (size + (wireChildren (ps.map h.child)).length) := by
  induction ps with
  | nil =>
    intro first size fuel hch _ _ _
    cases first with
    | none => cases fuel <;> simp [listSizeLoop, wireChildren]
    | some p => exact absurd hch (by simp [IsChain])
  | cons q qs ih =>
    intro first size fuel hch hleaf hf hw
    cases first with
    | none => exact absurd hch (by simp [IsChain])
    | some p =>
      obtain ⟨rfl, hrest⟩ := hch
      match fuel, hf with
      | fuel + 1, hf =>
        have hq := hleaf p (List.mem_cons_self _ _)
        have hf2 : qs.length ≤ fuel := by simpa using hf
        have hne : ¬ ((h.chunk p).type ≠ TYPE_OTHER) := by simp [hq.1]
        have hcl := wireChild_leaf_length h p hq.1 hq.2
        simp only [List.map_cons, wireChildren, List.length_append, hcl] at hw ⊢
        have hpar : (h.chunk p).size % 2 = 0 ∨ (h.chunk p).size % 2 = 1 := by omega
        have e : (if (h.chunk p).size % 2 = 1 then
              ((((size + 4) % WORD + 4) % WORD + (h.chunk p).size) % WORD + 1) % WORD
            else (((size + 4) % WORD + 4) % WORD + (h.chunk p).size) % WORD)
            = size + (8 + (h.chunk p).size + (h.chunk p).size % 2) := by
          rw [WORD_val] at hw ⊢
          split <;> omega
        rw [listSizeLoop]
        simp only [hne, if_false, e]
        rw [ih _ _ fuel hrest (fun x hx => hleaf x (List.mem_cons_of_mem _ hx)) hf2 (by omega)]
        congr 1
        omega

theorem listAsChunk_uncached (fuel : Nat) (h : Heap) (list : Nat) (riff : Bool)
    (size : Nat) (data : List Nat) (hnc : (h.list list).asChunk = none)
    (hs : listSizeLoop h fuel (h.list list).first 0 = some size)
    (hw : listWriteLoop h fuel (h.list list).first [] = some data) :
    raff_listAsChunk fuel h list riff =
      some (h.chunks.length,
        (Heap.setList
          { h with
            chunks := h.chunks ++
              [{ next := none, file := (h.list list).file, list := none,
                 type := if riff then TYPE_RIFF else TYPE_LIST, id := (h.list list).id,
                 size := size, start := { buf := h.bufs.length, off := 0 },
                 asList := some list, asData := none }],
            bufs := h.bufs ++ [data] }
          list { h.list list with asChunk := some h.chunks.length }).setErr raff_ERR_NONE) := by
  unfold raff_listAsChunk
  simp only [hnc, hs, hw]
  rfl

/-- The function `raff_listAsChunk` on a list of leaf chunks that has no cached chunk: the new chunk
spans a new buffer that holds the wire encoding of the children. -/
theorem listAsChunk_leaves (fuel : Nat) (h : Heap) (list : Nat) (riff : Bool) (ps : List Nat)
    (hnc : (h.list list).asChunk = none)
    (hch : IsChain h (h.list list).first ps)
    (hleaf : ∀ p ∈ ps, (h.chunk p).type = TYPE_OTHER ∧ h.inBounds (h.chunk p))
    (hf : ps.length ≤ fuel) (hlen : (wireChildren (ps.map h.child)).length < WORD) :
    ∃ h1, raff_listAsChunk fuel h list riff = some (h.chunks.length, h1) ∧
      h1.chunk h.chunks.length =
        { next := none, file := (h.list list).file, list := none,
          type := if riff then TYPE_RIFF else TYPE_LIST, id := (h.list list).id,
          size := (wireChildren (ps.map h.child)).length,
          start := { buf := h.bufs.length, off := 0 },
          asList := some list, asData := none } ∧
      h1.buf h.bufs.length = wireChildren (ps.map h.child) ∧
      h1.chunks.length = h.chunks.length + 1 ∧
      h1.errnum = raff_ERR_NONE := by
  have hs := listSizeLoop_leaves h ps _ 0 fuel hch hleaf hf (by omega)
  have hw := listWriteLoop_leaves h ps _ [] fuel hch hleaf hf
  rw [Nat.zero_add] at hs
  rw [List.nil_append] at hw
  refine ⟨_, listAsChunk_uncached fuel h list riff _ _ hnc hs hw, ?_, ?_, ?_, rfl⟩
  · rw [chunk_setErr, chunk_setList]
    simp only [Heap.chunk, getD_append_length]
  · simp only [Heap.buf, Heap.setErr, Heap.setList, getD_append_length]
  · simp [Heap.setErr, Heap.setList]

/-! ## Generate, serialise, reopen, parse: lists of leaf chunks -/

theorem allBytes_wireChild (d : Child) (hp : allBytes d.payload) : allBytes (wireChild d) := by
  unfold wireChild
  refine allBytes_append _ _ (allBytes_append _ _ (allBytes_append _ _ (allBytes_append _ _
    (allBytes_be32 _) (allBytes_le32 _)) ?_) hp) ?_
  · split
    · intro b hb; simp at hb
    · exact allBytes_be32 _
  · split
    · intro b hb
      simp only [List.mem_singleton] at hb
      omega
    · intro b hb; simp at hb

theorem allBytes_wireChildren (ds : List Child) (hp : ∀ d ∈ ds, allBytes d.payload) :
    allBytes (wireChildren ds) := by
  induction ds with
  | nil => intro b hb; simp [wireChildren] at hb
  | cons d ds ih =>
    exact allBytes_append _ _ (allBytes_wireChild d (hp d (List.mem_cons_self _ _)))
      (ih (fun x hx => hp x (List.mem_cons_of_mem _ hx)))

theorem wireChild_le_wireChildren (ds : List Child) (d : Child) (hd : d ∈ ds) :
    (wireChild d).length ≤ (wireChildren ds).length := by
  induction ds with
  | nil => simp at hd
  | cons x xs ih =>
    simp only [wireChildren, List.length_append]
    rcases List.mem_cons.1 hd with rfl | h
    · omega
    · have := ih h
      omega

theorem be32_RIFF : be32 RIFF_ID = tagRIFF := by decide

theorem be32_length (x : Nat) : (be32 x).length = 4 := rfl

theorem roundtrip_leaves (fuel fuelS : Nat) (h : Heap) (list : Nat) (ps : List Nat)
    (hnc : (h.list list).asChunk = none)
    (hch : IsChain h (h.list list).first ps)
    (hleaf : ∀ p ∈ ps, GoodLeaf h p)
    (hid : idOK (h.list list).id)
    (htotal : (wireChildren (ps.map h.child)).length + 12 < 2 ^ 32)
    (hf : ps.length < fuel)
    (hfS : (wireChildren (ps.map h.child)).length + 12 < fuelS) :
    ∃ c h1 bytes h2 file h3 root l h4 qs,
      raff_listAsChunk fuel h list true = some (c, h1) ∧
      raff_serializeChunkToFile fuelS h1 c = some (bytes, h2) ∧
      raff_openStream fnextCb h2 { file := bytes } = (some file, h3) ∧
      raff_errorNum h3 = raff_ERR_NONE ∧
      raff_fileAsChunk h3 file = some root ∧
      raff_getID h3 root = (h.list list).id ∧
      raff_chunkAsList fuel h3 root = some (some l, h4) ∧
      raff_errorNum h4 = raff_ERR_NONE ∧
      IsChain h4 (h4.list l).first qs ∧
      qs.map h4.child = ps.map h.child ∧
      (∀ q ∈ qs, (h4.chunk q).size = (h4.child q).payload.length ∧
        (h4.chunk q).asData = none) := by
  have hleaf' : ∀ p ∈ ps, (h.chunk p).type = TYPE_OTHER ∧ h.inBounds (h.chunk p) :=
    fun p hp => ⟨(hleaf p hp).1, (hleaf p hp).2.1⟩
  have hW : (wireChildren (ps.map h.child)).length < WORD := by rw [WORD_val]; omega
  -- list as chunk
  obtain ⟨h1, hres1, hck1, hbuf1, hlen1, _⟩ :=
    listAsChunk_leaves fuel h list true ps hnc hch hleaf' (by omega) hW
  generalize hWdef : wireChildren (ps.map h.child) = W at *
  have hrange1 : h1.range (h1.chunk h.chunks.length) = W := by
    simp only [Heap.range, hck1, hbuf1, List.drop_zero, List.take_length]
  have hin1 : h1.inBounds (h1.chunk h.chunks.length) := by
    simp only [Heap.inBounds, hck1, hbuf1]; omega
  have hWb : allBytes W := by
    rw [← hWdef]
    apply allBytes_wireChildren
    intro d hd
    obtain ⟨p, hp, rfl⟩ := List.mem_map.1 hd
    exact (hleaf p hp).2.2.2.2.2
  have hsize1 : (h1.chunk h.chunks.length).size = W.length := by rw [hck1]
  -- serialise
  have hres2 := serializeChunkToFile_eq fuelS h1 h.chunks.length
    (by rw [hsize1]; omega) hin1 (by rw [hrange1]; exact hWb)
    (by rw [wireChunk_length h1 _ hin1, hck1]; simp; omega)
  have hbytes : wireChunk h1 (h1.chunk h.chunks.length) =
      tagRIFF ++ le32 (W.length + 4) ++ be32 (h.list list).id ++ W := by
    have hr := hrange1
    rw [hck1] at hr ⊢
    simp only [if_true] at hr
    simp only [wireChunk, wireTag, if_true, reduceCtorEq, if_false, be32_RIFF, hr]
  rw [hbytes] at hres2
  -- reopen
  have hres3 := openStream_file_ok (h1.setErr raff_ERR_NONE) (W.length + 4)
    (be32 (h.list list).id) W (by omega) (by omega) (be32_length _) (allBytes_be32 _) hWb
    (by omega)
  have hsub : W.length + 4 - 4 = W.length := by omega
  rw [hsub, List.take_length] at hres3
  have hidv : raff_newID (be32 (h.list list).id) = (h.list list).id := hid
  rw [hidv] at hres3
  -- the heap after reopening
  obtain ⟨h3, hh3, hroot3, hfile3, hbufs3, hlen3, herr3⟩ : ∃ h3 : Heap,
      raff_openStream fnextCb (h1.setErr raff_ERR_NONE)
        { file := tagRIFF ++ le32 (W.length + 4) ++ be32 (h.list list).id ++ W }
        = (some h1.files.length, h3) ∧
      h3.chunk h1.chunks.length =
        { next := none, file := h1.files.length, list := none, type := TYPE_RIFF,
          id := (h.list list).id, size := W.length,
          start := { buf := h1.bufs.length, off := 0 }, asList := none, asData := none } ∧
      h3.file h1.files.length =
        { chunk := some h1.chunks.length, size := W.length, data := h1.bufs.length } ∧
      h3.buf h1.bufs.length = W ∧ h3.chunks.length = h1.chunks.length + 1 ∧
      h3.errnum = raff_ERR_NONE := by
    refine ⟨_, hres3, ?_, ?_, ?_, ?_, rfl⟩
    · simp only [Heap.chunk, Heap.setErr, getD_append_length]
    · simp only [Heap.file, Heap.setErr, getD_append_length]
    · simp only [Heap.buf, Heap.setErr, getD_append_length]
    · simp [Heap.setErr]
  have hrange3 : h3.range (h3.chunk h1.chunks.length) = W := by
    simp only [Heap.range, hroot3, hbufs3, List.drop_zero, List.take_length]
  -- parse
  have hok : ∀ d ∈ ps.map h.child, okChild d := by
    intro d hd
    obtain ⟨p, hp, rfl⟩ := List.mem_map.1 hd
    obtain ⟨hty, hin, hidp, hnr, hnl, _⟩ := hleaf p hp
    refine ⟨hidp, fun _ => ⟨hnr, hnl⟩, ?_⟩
    have hle := wireChild_le_wireChildren _ _ hd
    rw [hWdef, wireChild_length] at hle
    simp only [Heap.child] at hle ⊢
    omega
  obtain ⟨l, h4, qs, hres4, herr4, _, hchain4, hmap4, hall4, _⟩ :=
    chunkAsList_children_view fuel h3 h1.chunks.length (ps.map h.child)
      (by rw [hroot3]; simp) (by rw [hroot3]) (by simp only [Heap.inBounds, hroot3, hbufs3]; omega)
      (by rw [hroot3]; simp only; omega) (by omega) hok (by rw [hrange3, hWdef])
      (by simpa using hf)
  refine ⟨h.chunks.length, h1, _, _, h1.files.length, h3, h1.chunks.length, l, h4, qs,
    hres1, hres2, hh3, herr3, ?_, ?_, hres4, herr4, hchain4, hmap4,
    fun q hq => ⟨(hall4 q hq).1, (hall4 q hq).2.1⟩⟩
  · simp only [raff_fileAsChunk, hfile3]
  · simp only [raff_getID, hroot3]

/-! ## Claims C6 and C10 on concrete inputs -/

/-- Witness of C6: the root chunk of `sample.wav`, a Riff chunk of 40 payload bytes. -/
theorem C6_serializer_layout_witness :
    (∀ k, k < WORD →
      callSeq (snextCb wavHeap) k (raff_serializeChunk 0) =
        byteOrEnd (wireChunk wavHeap (wavHeap.chunk 0)) k) ∧
    (∀ k, k < WORD → (wireChunk wavHeap (wavHeap.chunk 0)).length ≤ k →
      callSeq (snextCb wavHeap) k (raff_serializeChunk 0) = -1) ∧
    (wireChunk wavHeap (wavHeap.chunk 0)).length =
      (if (wavHeap.chunk 0).type = TYPE_OTHER then 8 + (wavHeap.chunk 0).size
        else 12 + (wavHeap.chunk 0).size) :=
  C6_serializer_layout wavHeap 0 (by decide) (by decide) (by decide)

/-- Witness of C10: after the well-formed child `fmt ` comes a `data` child that
declares eight payload bytes where the range has two left. -/
theorem C10_corrupt_nested_witness :
    ∃ h1, raff_chunkAsList 3 corruptHeap 0 = some (none, h1) ∧
      raff_errorNum h1 = raff_ERR_CORRUPT ∧ (h1.chunk 0).asList = none ∧
      ∃ h2, raff_chunkAsList 3 h1 0 = some (none, h2) ∧
        raff_errorNum h2 = raff_ERR_CORRUPT ∧ (h2.chunk 0).asList = none :=
  C10_corrupt_nested 3 corruptHeap 0 [shortFmt] truncatedData (by decide) (by decide)
    (by decide) (by decide) (by decide) (by decide) (by decide) (by decide) (by decide)
    (by decide)

/-! ## Claims C1 and C5: a list that holds a List chunk -/

/-- C5 (defect of the code): the list `outer` of `nestedScript` has no cached chunk and
one child, the List chunk `ic` with id `abcd` and a 12-byte payload.  The documented
encoding of that child has the size field 16, the payload size plus 4 for the sub-ID;
the byte range that `raff_listAsChunk` produces has the size field 12, the payload
size alone, so it is not the documented encoding. -/
theorem C5_list_child_size_field :
    (nestedHeap.list nestedOuter).asChunk = none ∧
    chainOf nestedHeap 2 (nestedHeap.list nestedOuter).first = [nestedInner] ∧
    nestedHeap.child nestedInner =
      { type := TYPE_LIST, id := raff_newID [97, 98, 99, 100],
        payload := [100, 97, 116, 97, 4, 0, 0, 0, 1, 2, 3, 4] } ∧
    wireChildren [nestedHeap.child nestedInner] =
      tagLIST ++ le32 16 ++ [97, 98, 99, 100] ++ [100, 97, 116, 97, 4, 0, 0, 0, 1, 2, 3, 4] ∧
    ∃ c h1, raff_listAsChunk 2 nestedHeap nestedOuter true = some (c, h1) ∧
      h1.range (h1.chunk c) =
        tagLIST ++ le32 12 ++ [97, 98, 99, 100] ++ [100, 97, 116, 97, 4, 0, 0, 0, 1, 2, 3, 4] ∧
      h1.range (h1.chunk c) ≠ wireChildren [nestedHeap.child nestedInner] :=
  ⟨by decide, by decide, by decide, by decide, 2,
    ((raff_listAsChunk 2 nestedHeap nestedOuter true).getD (0, Heap.empty)).2,
    by decide, by decide, by decide⟩

/-- C1 (defect of the code): the list `outer` of `nestedScript`, whose one child is a
List chunk, is turned into a chunk by `raff_listAsChunk( outer, true )`, serialised and
reopened with `raff_openStream`; `raff_chunkAsList` of the root chunk then returns no
list and sets `raff_ERR_CORRUPT`, so the children are not read back. -/
theorem C1_nested_roundtrip_fails :
    ∃ c h1 bytes h2 file h3 root h4,
      raff_listAsChunk 2 nestedHeap nestedOuter true = some (c, h1) ∧
      raff_serializeChunkToFile 40 h1 c = some (bytes, h2) ∧
      raff_openStream fnextCb h2 { file := bytes } = (some file, h3) ∧
      raff_errorNum h3 = raff_ERR_NONE ∧
      raff_fileAsChunk h3 file = some root ∧
      raff_chunkAsList 3 h3 root = some (none, h4) ∧
      raff_errorNum h4 = raff_ERR_CORRUPT :=
  ⟨2, ((raff_listAsChunk 2 nestedHeap nestedOuter true).getD (0, Heap.empty)).2,
    [82, 73, 70, 70, 28, 0, 0, 0, 87, 65, 86, 69,
      76, 73, 83, 84, 12, 0, 0, 0, 97, 98, 99, 100, 100, 97, 116, 97, 4, 0, 0, 0, 1, 2, 3, 4],
    (((raff_listAsChunk 2 nestedHeap nestedOuter true).getD (0, Heap.empty)).2).setErr
      raff_ERR_NONE,
    1,
    (raff_openStream fnextCb
      ((((raff_listAsChunk 2 nestedHeap nestedOuter true).getD (0, Heap.empty)).2).setErr
        raff_ERR_NONE)
      { file := [82, 73, 70, 70, 28, 0, 0, 0, 87, 65, 86, 69,
          76, 73, 83, 84, 12, 0, 0, 0, 97, 98, 99, 100, 100, 97, 116, 97, 4, 0, 0, 0,
          1, 2, 3, 4] }).2,
    3,
    ((raff_chunkAsList 3
      (raff_openStream fnextCb
        ((((raff_listAsChunk 2 nestedHeap nestedOuter true).getD (0, Heap.empty)).2).setErr
          raff_ERR_NONE)
        { file := [82, 73, 70, 70, 28, 0, 0, 0, 87, 65, 86, 69,
            76, 73, 83, 84, 12, 0, 0, 0, 97, 98, 99, 100, 100, 97, 116, 97, 4, 0, 0, 0,
            1, 2, 3, 4] }).2 3).getD (none, Heap.empty)).2,
    by decide, by decide, by decide, by decide, by decide, by decide, by decide⟩

/-! ## Claim C3: odd payloads and the pad byte -/

theorem map_getD_eq {α β : Type} (f : α → β) (g : γ → β) (xs : List α) (ys : List γ)
    (a : α) (b : γ) (hm : xs.map f = ys.map g) (i : Nat) (hi : i < ys.length) :
    f (xs.getD i a) = g (ys.getD i b) := by
  have hl : xs.length = ys.length := by simpa using congrArg List.length hm
  have h1 := congrArg (fun l => l[i]?) hm
  simp only [List.getElem?_map] at h1
  rw [List.getD_eq_getElem?_getD, List.getD_eq_getElem?_getD,
    List.getElem?_eq_getElem (by omega), List.getElem?_eq_getElem hi]
  rw [List.getElem?_eq_getElem (by omega), List.getElem?_eq_getElem hi] at h1
  simpa using h1

/-- C3 (as amended): let a list with no cached chunk hold leaf chunks whose ids are read
back by `parseID` and are not the `RIFF`/`LIST` markers, and let its encoding be
shorter than `2 ^ 32 - 12`.  Then `raff_listAsChunk( list, true )`, serialisation,
`raff_openStream` and `raff_chunkAsList` all succeed, and the list read back has as
many children as the original, the child at each position with the type, id, size
and payload bytes of the original child at that position.  In particular a child of
odd size `n` is read back with size `n` and its `n` bytes, and the siblings after it
with their own id, size and bytes: the pad byte is in no payload. -/
theorem C3_odd_padding (fuel fuelS : Nat) (h : Heap) (list : Nat) (ps : List Nat)
    (hnc : (h.list list).asChunk = none)
    (hch : IsChain h (h.list list).first ps)
    (hleaf : ∀ p ∈ ps, GoodLeaf h p)
    (hid : idOK (h.list list).id)
    (htotal : (wireChildren (ps.map h.child)).length + 12 < 2 ^ 32)
    (hf : ps.length < fuel)
    (hfS : (wireChildren (ps.map h.child)).length + 12 < fuelS) :
    ∃ c h1 bytes h2 file h3 root l h4 qs,
      raff_listAsChunk fuel h list true = some (c, h1) ∧
      raff_serializeChunkToFile fuelS h1 c = some (bytes, h2) ∧
      raff_openStream fnextCb h2 { file := bytes } = (some file, h3) ∧
      raff_fileAsChunk h3 file = some root ∧
      raff_chunkAsList fuel h3 root = some (some l, h4) ∧
      IsChain h4 (h4.list l).first qs ∧ qs.length = ps.length ∧
      ∀ i, i < ps.length →
        (h4.chunk (qs.getD i 0)).type = (h.chunk (ps.getD i 0)).type ∧
        (h4.chunk (qs.getD i 0)).id = (h.chunk (ps.getD i 0)).id ∧
        (h4.chunk (qs.getD i 0)).size = (h.chunk (ps.getD i 0)).size ∧
        h4.range (h4.chunk (qs.getD i 0)) = h.range (h.chunk (ps.getD i 0)) := by
  obtain ⟨c, h1, bytes, h2, file, h3, root, l, h4, qs, e1, e2, e3, _, e5, _, e7, _, hchain,
    hmap, hall⟩ := roundtrip_leaves fuel fuelS h list ps hnc hch hleaf hid htotal hf hfS
  have hlen : qs.length = ps.length := by simpa using congrArg List.length hmap
  refine ⟨c, h1, bytes, h2, file, h3, root, l, h4, qs, e1, e2, e3, e5, e7, hchain, hlen, ?_⟩
  intro i hi
  have hc := map_getD_eq h4.child h.child qs ps 0 0 hmap i hi
  have hq : qs.getD i 0 ∈ qs := by
    rw [List.getD_eq_getElem?_getD, List.getElem?_eq_getElem (by omega)]
    exact List.getElem_mem _
  have hp : ps.getD i 0 ∈ ps := by
    rw [List.getD_eq_getElem?_getD, List.getElem?_eq_getElem hi]
    exact List.getElem_mem _
  have hsz := (hall _ hq).1
  have hin := (hleaf _ hp).2.1
  have hr := range_length h _ hin
  simp only [Heap.child, Child.mk.injEq] at hc hsz
  refine ⟨hc.1, hc.2.1, ?_, hc.2.2⟩
  rw [hsz, hc.2.2, hr]

/-- Witness of C3: the list of `oddHeap`, a three-byte leaf followed by a two-byte
leaf. -/
theorem C3_odd_padding_witness :
    ∃ c h1 bytes h2 file h3 root l h4 qs,
      raff_listAsChunk 3 oddHeap 0 true = some (c, h1) ∧
      raff_serializeChunkToFile 40 h1 c = some (bytes, h2) ∧
      raff_openStream fnextCb h2 { file := bytes } = (some file, h3) ∧
      raff_fileAsChunk h3 file = some root ∧
      raff_chunkAsList 3 h3 root = some (some l, h4) ∧
      IsChain h4 (h4.list l).first qs ∧ qs.length = [1, 0].length ∧
      ∀ i, i < [1, 0].length →
        (h4.chunk (qs.getD i 0)).type = (oddHeap.chunk ([1, 0].getD i 0)).type ∧
        (h4.chunk (qs.getD i 0)).id = (oddHeap.chunk ([1, 0].getD i 0)).id ∧
        (h4.chunk (qs.getD i 0)).size = (oddHeap.chunk ([1, 0].getD i 0)).size ∧
        h4.range (h4.chunk (qs.getD i 0)) = oddHeap.range (oddHeap.chunk ([1, 0].getD i 0)) :=
  C3_odd_padding 3 40 oddHeap 0 [1, 0] (by decide) (by decide) (by decide) (by decide)
    (by decide) (by decide) (by decide)

/-- Counterexample to C3 as stated: with `riff = false` the chunk of the list of
`oddHeap` is a List chunk, its serialisation starts with `LIST`, and
`raff_openStream` returns no container and sets `raff_ERR_NOT_RIFF`: nothing is
reparsed. -/
theorem C3_counterexample :
    ∃ c h1 bytes h2,
      raff_listAsChunk 3 oddHeap 0 false = some (c, h1) ∧
      raff_serializeChunkToFile 40 h1 c = some (bytes, h2) ∧
      (raff_openStream fnextCb h2 { file := bytes }).1 = none ∧
      raff_errorNum (raff_openStream fnextCb h2 { file := bytes }).2 = raff_ERR_NOT_RIFF :=
  ⟨2, ((raff_listAsChunk 3 oddHeap 0 false).getD (0, Heap.empty)).2,
    [76, 73, 83, 84, 26, 0, 0, 0, 87, 65, 86, 69, 100, 97, 116, 97, 3, 0, 0, 0, 1, 2, 3, 0,
      102, 109, 116, 32, 2, 0, 0, 0, 9, 8],
    (((raff_listAsChunk 3 oddHeap 0 false).getD (0, Heap.empty)).2).setErr raff_ERR_NONE,
    by decide, by decide, by decide, by decide⟩

/-! ## Packing an id, and claim C14 -/

theorem raff_newID_padded4 (cs : List Nat) : raff_newID (padded4 cs) = raff_newID cs := by
  simp [raff_newID, padded4]

theorem shl_mod_WORD (x k : Nat) (hx : x < 128) (hk : k ≤ 24) : (x <<< k) % WORD = x <<< k := by
  apply Nat.mod_eq_of_lt
  rw [Nat.shiftLeft_eq, WORD_val]
  calc x * 2 ^ k < 128 * 2 ^ k := by
        apply Nat.mul_lt_mul_of_pos_right hx (by positivity)
    _ ≤ 128 * 2 ^ 24 := Nat.mul_le_mul_left _ (Nat.pow_le_pow_right (by omega) hk)
    _ ≤ 18446744073709551616 := by norm_num

theorem be32_packed (a b c d : Nat) (ha : a < 256) (hb : b < 256) (hc : c < 256)
    (hd : d < 256) : be32 (a * 2 ^ 24 + b * 2 ^ 16 + c * 2 ^ 8 + d) = [a, b, c, d] := by
  simp only [be32, List.cons.injEq, and_true]
  refine ⟨?_, ?_, ?_, ?_⟩ <;> omega

theorem raff_newID_packed (a b c d : Nat) (ha : a < 128) (hb : b < 128) (hc : c < 128)
    (hd : d < 128) (hz1 : a = 0 → b = 0) (hz2 : b = 0 → c = 0) (hz3 : c = 0 → d = 0) :
    raff_newID [a, b, c, d] = a * 2 ^ 24 + b * 2 ^ 16 + c * 2 ^ 8 + d := by
  simp only [raff_newID, List.getD_cons_zero, List.getD_cons_succ, Nat.zero_or,
    charToLong_of_lt _ ha, charToLong_of_lt _ hb, charToLong_of_lt _ hc,
    charToLong_of_lt _ hd, shl_mod_WORD _ _ ha (le_refl _), shl_mod_WORD _ 16 hb (by omega),
    shl_mod_WORD _ 8 hc (by omega)]
  by_cases h0 : a = 0
  · have h1 := hz1 h0
    have h2 := hz2 h1
    have h3 := hz3 h2
    subst h0 h1 h2 h3
    simp
  · rw [if_neg h0]
    by_cases h1 : b = 0
    · have h2 := hz2 h1
      have h3 := hz3 h2
      subst h1 h2 h3
      simp [Nat.shiftLeft_eq]
    · rw [if_neg h1]
      by_cases h2 : c = 0
      · have h3 := hz3 h2
        subst h2 h3
        rw [if_pos rfl, pack_be2 a b (by omega)]
        simp
      · rw [if_neg h2]
        by_cases h3 : d = 0
        · subst h3
          rw [if_pos rfl, pack_be3 a b c (by omega) (by omega)]
          simp
        · rw [if_neg h3, pack_be a b c d (by omega) (by omega) (by omega)]

/-- Packing of 7-bit characters: for a string of `k ≤ 4` non-zero characters in
`1..127`, `raff_newID` returns the sum of `c_i * 2 ^ (8 * (3 - i))`, the integer whose
four big-endian bytes are the characters followed by `4 - k` zero bytes; `parseID` reads
that same id from those four bytes; and `raff_newID( "RIFF" )`, `raff_newID( "LIST" )`
are the constants `RIFF_ID`, `LIST_ID`. -/
theorem raff_newID_seven_bit (cs : List Nat) (hk : cs.length ≤ 4)
    (hc : ∀ c ∈ cs, 0 < c ∧ c < 128) :
    raff_newID cs = packedID cs ∧ be32 (raff_newID cs) = padded4 cs ∧
    (∀ rest, (parseID fnextCb { file := padded4 cs ++ rest }).1 = some (raff_newID cs)) ∧
    raff_newID [82, 73, 70, 70] = RIFF_ID ∧ raff_newID [76, 73, 83, 84] = LIST_ID := by
  have _ := hk
  have hget : ∀ i, cs.getD i 0 < 128 := by
    intro i
    rw [List.getD_eq_getElem?_getD]
    by_cases hi : i < cs.length
    · rw [List.getElem?_eq_getElem hi]
      exact (hc _ (List.getElem_mem _)).2
    · rw [List.getElem?_eq_none (by omega)]
      simp
  have hzero : ∀ i, cs.getD i 0 = 0 → cs.getD (i + 1) 0 = 0 := by
    intro i h0
    rw [List.getD_eq_getElem?_getD] at h0 ⊢
    by_cases hi : i < cs.length
    · rw [List.getElem?_eq_getElem hi] at h0
      have := (hc _ (List.getElem_mem hi)).1
      simp at h0
      omega
    · rw [List.getElem?_eq_none (by omega)]
      simp
  have key : raff_newID cs = packedID cs := by
    rw [← raff_newID_padded4]
    exact raff_newID_packed _ _ _ _ (hget 0) (hget 1) (hget 2) (hget 3) (hzero 0) (hzero 1)
      (hzero 2)
  have h256 : ∀ i, cs.getD i 0 < 256 := fun i => by have := hget i; omega
  refine ⟨key, ?_, ?_, by decide, by decide⟩
  · rw [key]
    exact be32_packed _ _ _ _ (h256 0) (h256 1) (h256 2) (h256 3)
  · intro rest
    have := parseID_file_bytes (cs.getD 0 0) (cs.getD 1 0) (cs.getD 2 0) (cs.getD 3 0) rest
      (h256 0) (h256 1) (h256 2) (h256 3)
    simp only [padded4, List.cons_append, List.nil_append]
    rw [this]
    exact congrArg some (raff_newID_padded4 cs)

/-- C14 (defect of the code): the four non-zero characters `0x41 0xC8 0x42 0x43`.
`raff_newID` widens the plain `char` `0xC8` with `(long)idstr[1]` and no cast to
`unsigned char`, so the sign is extended and the result is the 64-bit pattern
`0xFFFFFFFFFFC84243`. It is not the sum of `c_i * 2 ^ (8 * (3 - i))`, which is
`0x41C84243`; it does not fit in four bytes; its low four big-endian bytes are
`FF C8 42 43`, not the characters of the string; and `parseID`, whose byte source
`fnextCb` hands over the unsigned bytes of the file, produces this same id from the
tag `41 C8 42 43`. -/
theorem C14_high_bit_char :
    (∀ c ∈ [65, 200, 66, 67], 0 < c ∧ c < 256) ∧
    raff_newID [65, 200, 66, 67] = 18446744073705898563 ∧
    packedID [65, 200, 66, 67] = 1103643203 ∧
    raff_newID [65, 200, 66, 67] ≠ packedID [65, 200, 66, 67] ∧
    ¬ raff_newID [65, 200, 66, 67] < 2 ^ 32 ∧
    be32 (raff_newID [65, 200, 66, 67]) = [255, 200, 66, 67] ∧
    be32 (raff_newID [65, 200, 66, 67]) ≠ padded4 [65, 200, 66, 67] ∧
    (parseID fnextCb { file := [65, 200, 66, 67] }).1 = some 18446744073705898563 := by
  decide

/-! ## Claims C15, C16, C19 and C20 on concrete inputs -/

/-- C15 (defect of the code): in `twoListsHeap` the chunk `x` (chunk 0) is appended to
list 0; it is then a member of that list, yet `raff_append` of `x` to list 1 passes both
assertions, and `x` is a member of both lists; and `raff_append` of `x` to list 0 a
second time passes them too and links `x` to itself, so that `x` follows `x` in the
sequence of list 0. -/
theorem C15_member_of_two_lists :
    ∃ h1 h2 h3,
      raff_append twoListsHeap 0 0 = some h1 ∧
      chainOf h1 3 (h1.list 0).first = [0] ∧
      raff_append h1 1 0 = some h2 ∧
      chainOf h2 3 (h2.list 0).first = [0] ∧ chainOf h2 3 (h2.list 1).first = [0] ∧
      raff_append h1 0 0 = some h3 ∧
      chainOf h3 3 (h3.list 0).first = [0, 0, 0] :=
  ⟨(raff_append twoListsHeap 0 0).getD Heap.empty,
    (raff_append ((raff_append twoListsHeap 0 0).getD Heap.empty) 1 0).getD Heap.empty,
    (raff_append ((raff_append twoListsHeap 0 0).getD Heap.empty) 0 0).getD Heap.empty,
    by decide, by decide, by decide, by decide, by decide, by decide, by decide⟩

/-- C16 (defect of the code): `raff_newList` does not assign `list->last`.  In
`junkListHeap 7` the list was just created, has no children, and the memory of its
field `last` holds the stale pointer 7; after `raff_prepend( list, x )` the sequence is
`x` alone and `first` is `x`, but `last` is still the stale pointer, not `x`. -/
theorem C16_tail_after_newList :
    ((junkListHeap 7).list 0).first = none ∧
    ((junkListHeap 7).chunk 0).next = none ∧ ((junkListHeap 7).chunk 0).list = none ∧
    ∃ h1, raff_prepend (junkListHeap 7) 0 0 = some h1 ∧
      chainOf h1 3 (h1.list 0).first = [0] ∧ (h1.list 0).first = some 0 ∧
      (h1.list 0).last = some 7 ∧ (h1.list 0).last ≠ some 0 :=
  ⟨by decide, by decide, by decide, (raff_prepend (junkListHeap 7) 0 0).getD Heap.empty,
    by decide, by decide, by decide, by decide, by decide⟩

/-- C19 (defect of the code): the root chunk of `wrapHeap` has 16 bytes, a `LIST` child
that declares the size 0 and four more bytes.  `raff_chunkAsList` succeeds; the first
child it returns starts at offset 12 and has the size `2 ^ 64 - 4`, the result of
`size -= 4` on the declared size 0: it is larger than its parent and runs past the end
of the parent's range; the second child was read from offset 8, before the start of
the first. -/
theorem C19_child_overruns_parent :
    (wrapHeap.chunk 0).type = TYPE_RIFF ∧ (wrapHeap.chunk 0).size = 16 ∧
    (wrapHeap.chunk 0).start = { buf := 0, off := 0 } ∧
    ∃ l h1, raff_chunkAsList 3 wrapHeap 0 = some (some l, h1) ∧
      raff_errorNum h1 = raff_ERR_NONE ∧
      chainOf h1 3 (h1.list l).first = [1, 2] ∧
      (h1.chunk 1).type = TYPE_LIST ∧ (h1.chunk 1).start = { buf := 0, off := 12 } ∧
      (h1.chunk 1).size = 2 ^ 64 - 4 ∧
      ¬ ((h1.chunk 1).start.off + (h1.chunk 1).size ≤ (wrapHeap.chunk 0).size) ∧
      ¬ ((h1.chunk 1).size ≤ (wrapHeap.chunk 0).size) ∧
      (h1.chunk 2).start = { buf := 0, off := 16 } ∧
      ¬ ((h1.chunk 1).start.off + (h1.chunk 1).size ≤ (h1.chunk 2).start.off) :=
  ⟨by decide, by decide, by decide, 0,
    ((raff_chunkAsList 3 wrapHeap 0).getD (none, Heap.empty)).2,
    by decide, by decide, by decide, by decide, by decide, by decide, by decide, by decide,
    by decide, by decide⟩

/-- C20 (defect of the code): after `raff_append( list, x )` in `twoListsHeap`, a state
reached through the public operations, the chunk `x` is the member of list 0 and its
owning-list field is still `NULL`; the same holds for the two chunks that
`raff_prepend` added to the list of `oddHeap`. -/
theorem C20_owner_not_set :
    (∃ h1, raff_append twoListsHeap 0 0 = some h1 ∧
      chainOf h1 3 (h1.list 0).first = [0] ∧ (h1.chunk 0).list = none ∧
      (h1.chunk 0).list ≠ some 0) ∧
    chainOf oddHeap 3 (oddHeap.list 0).first = [1, 0] ∧
    (oddHeap.chunk 1).list = none ∧ (oddHeap.chunk 0).list = none :=
  ⟨⟨(raff_append twoListsHeap 0 0).getD Heap.empty, by decide, by decide, by decide,
    by decide⟩, by decide, by decide, by decide⟩

/-! ## Claim C18: finding a child by id -/

theorem findIDLoop_chain (h : Heap) (id : raff_ID) (xs : List Nat) :
    ∀ (first : Option Nat) (fuel : Nat), IsChain h first xs → xs.length ≤ fuel →
      findIDLoop h id fuel first =
        some (xs.find? (fun p => decide ((h.chunk p).id = id))) := by
  induction xs with
  | nil =>
    intro first fuel hch _
    cases first with
    | none => cases fuel <;> simp [findIDLoop]
    | some p => exact absurd hch (by simp [IsChain])
  | cons q qs ih =>
    intro first fuel hch hf
    cases first with
    | none => exact absurd hch (by simp [IsChain])
    | some p =>
      obtain ⟨rfl, hrest⟩ := hch
      match fuel, hf with
      | fuel + 1, hf =>
        have hf2 : qs.length ≤ fuel := by simpa using hf
        rw [findIDLoop]
        by_cases hid : (h.chunk p).id = id
        · simp [hid]
        · rw [if_neg hid, ih _ fuel hrest hf2]
          simp [List.find?, hid]

/-- C18: for a list whose children are `xs`, linked in this order from `first`,
`raff_findID( list, x )` returns (given fuel for the loop) the first chunk of `xs`
whose id is `x`: the chunks before it in `xs` have another id; and it returns `NULL`
if and only if no child has the id `x`.  The function reads the heap only: it has no
heap to return. -/
theorem C18_find_by_id (fuel : Nat) (h : Heap) (list : Nat) (x : raff_ID) (xs : List Nat)
    (hch : IsChain h (h.list list).first xs) (hf : xs.length ≤ fuel) :
    raff_findID fuel h list x = some (xs.find? (fun p => decide ((h.chunk p).id = x))) ∧
    (∀ q, raff_findID fuel h list x = some (some q) →
      (h.chunk q).id = x ∧
      ∃ pre post, xs = pre ++ q :: post ∧ ∀ p ∈ pre, (h.chunk p).id ≠ x) ∧
    (raff_findID fuel h list x = some none ↔ ∀ p ∈ xs, (h.chunk p).id ≠ x) := by
  have key := findIDLoop_chain h x xs _ fuel hch hf
  unfold raff_findID
  rw [key]
  refine ⟨rfl, ?_, ?_⟩
  · intro q hq
    have hq2 := Option.some.inj hq
    rw [List.find?_eq_some] at hq2
    obtain ⟨hp, pre, post, hxs, hpre⟩ := hq2
    refine ⟨by simpa using hp, pre, post, hxs, ?_⟩
    intro p hp2
    simpa using hpre p hp2
  · constructor
    · intro hn p hp
      have hn2 := Option.some.inj hn
      rw [List.find?_eq_none] at hn2
      simpa using hn2 p hp
    · intro hall
      congr 1
      rw [List.find?_eq_none]
      intro p hp
      simpa using hall p hp

/-- Witness of C18: the list of `oddHeap`, searched for the id `fmt `. -/
theorem C18_find_by_id_witness :
    raff_findID 2 oddHeap 0 (raff_newID [102, 109, 116, 32]) =
      some ([1, 0].find? (fun p =>
        decide ((oddHeap.chunk p).id = raff_newID [102, 109, 116, 32]))) ∧
    (∀ q, raff_findID 2 oddHeap 0 (raff_newID [102, 109, 116, 32]) = some (some q) →
      (oddHeap.chunk q).id = raff_newID [102, 109, 116, 32] ∧
      ∃ pre post, [1, 0] = pre ++ q :: post ∧
        ∀ p ∈ pre, (oddHeap.chunk p).id ≠ raff_newID [102, 109, 116, 32]) ∧
    (raff_findID 2 oddHeap 0 (raff_newID [102, 109, 116, 32]) = some none ↔
      ∀ p ∈ [1, 0], (oddHeap.chunk p).id ≠ raff_newID [102, 109, 116, 32]) :=
  C18_find_by_id 2 oddHeap 0 (raff_newID [102, 109, 116, 32]) [1, 0] (by decide) (by decide)

/-! ## Claim C17: the cursor -/

theorem setList_setList (h : Heap) (l : Nat) (a b : raff_List) :
    (h.setList l a).setList l b = h.setList l b := by
  simp [Heap.setList, List.set_set]

theorem nextCalls_none (h : Heap) (list : Nat) (hc : (h.list list).cursor = none) :
    ∀ m, nextCalls list m h = (List.replicate m none, h) := by
  intro m
  induction m with
  | zero => rfl
  | succ m ih =>
    have e : raff_next h list = (none, h) := by simp [raff_next, hc]
    rw [nextCalls, e, ih]
    rfl

theorem nextCalls_chain (h : Heap) (list : Nat) (hl : list < h.lists.length) (m : Nat)
    (xs : List Nat) :
    ∀ c, IsChain h c xs →
      nextCalls list (xs.length + m) (h.setList list { h.list list with cursor := c }) =
        (xs.map some ++ List.replicate m none,
          h.setList list { h.list list with cursor := none }) := by
  induction xs with
  | nil =>
    intro c hch
    cases c with
    | some p => exact absurd hch (by simp [IsChain])
    | none =>
      rw [List.length_nil, Nat.zero_add, nextCalls_none _ _ (by rw [list_setList_eq _ _ _ hl])]
      rfl
  | cons q qs ih =>
    intro c hch
    cases c with
    | none => exact absurd hch (by simp [IsChain])
    | some p =>
      obtain ⟨rfl, hrest⟩ := hch
      have e : raff_next (h.setList list { h.list list with cursor := some p }) list =
          (some p, h.setList list { h.list list with cursor := (h.chunk p).next }) := by
        simp only [raff_next, list_setList_eq _ _ _ hl, chunk_setList, setList_setList]
      rw [List.length_cons, Nat.add_right_comm, nextCalls, e, ih _ hrest]
      rfl

/-- C17: for a list whose `n` children are `xs`, linked in this order from `first`,
the `n + m` calls of `raff_next` that follow `raff_start` return the children in
order and then `NULL` from call `n + 1` on; and after any number of calls the heap
differs from the one before `raff_start` in the cursor of the list only. -/
theorem C17_cursor_iteration (h : Heap) (list : Nat) (xs : List Nat)
    (hl : list < h.lists.length) (hch : IsChain h (h.list list).first xs) :
    (∀ m, (nextCalls list (xs.length + m) (raff_start h list)).1 =
      xs.map some ++ List.replicate m none) ∧
    (raff_start h list = h.setList list { h.list list with cursor := (h.list list).first }) ∧
    (∀ k, ∃ c, (nextCalls list k (raff_start h list)).2 =
      h.setList list { h.list list with cursor := c }) := by
  refine ⟨fun m => ?_, rfl, ?_⟩
  · unfold raff_start
    rw [nextCalls_chain h list hl m xs _ hch]
  · intro k
    unfold raff_start
    generalize (h.list list).first = c
    induction k generalizing c with
    | zero => exact ⟨c, rfl⟩
    | succ k ih =>
      rw [nextCalls]
      cases c with
      | none =>
        have e : raff_next (h.setList list { h.list list with cursor := none }) list =
            (none, h.setList list { h.list list with cursor := none }) := by
          simp [raff_next, list_setList_eq _ _ _ hl]
        rw [e]
        exact ih none
      | some p =>
        have e : raff_next (h.setList list { h.list list with cursor := some p }) list =
            (some p, h.setList list { h.list list with cursor := (h.chunk p).next }) := by
          simp only [raff_next, list_setList_eq _ _ _ hl, chunk_setList, setList_setList]
        rw [e]
        exact ih _

/-- Witness of C17: the list of `oddHeap` and its two children. -/
theorem C17_cursor_iteration_witness :
    (∀ m, (nextCalls 0 ([1, 0].length + m) (raff_start oddHeap 0)).1 =
      [1, 0].map some ++ List.replicate m none) ∧
    (raff_start oddHeap 0 =
      oddHeap.setList 0 { oddHeap.list 0 with cursor := (oddHeap.list 0).first }) ∧
    (∀ k, ∃ c, (nextCalls 0 k (raff_start oddHeap 0)).2 =
      oddHeap.setList 0 { oddHeap.list 0 with cursor := c }) :=
  C17_cursor_iteration oddHeap 0 [1, 0] (by decide) (by decide)

/-! ## What the parsing loop leaves untouched -/

/-- A call of `parseNextChunk` fails and leaves a failure frame, or it allocates one
chunk at the end of the chunk array. -/
theorem parseNextChunk_cases (h : Heap) (file : Nat) (cs : ChunkStream) :
    ((parseNextChunk h file cs).1 = none ∧ FailFrame h (parseNextChunk h file cs).2.1) ∨
    ∃ ck cs1, parseNextChunk h file cs =
      (some h.chunks.length,
        { h with chunks := h.chunks ++ [ck], errnum := raff_ERR_NONE }, cs1) := by
  rcases h1 : parseID (cnextCb h) cs with ⟨_ | id, s1⟩
  · obtain ⟨a, b⟩ := parseNextChunk_noID h file cs (by rw [h1])
    exact Or.inl ⟨a, by rw [b]; exact failFrame_setErr h⟩
  · rcases h2 : parseSize (cnextCb h) s1 with ⟨_ | size, s2⟩
    · obtain ⟨a, b⟩ := parseNextChunk_noSize h file cs s1 id h1 (by rw [h2])
      exact Or.inl ⟨a, by rw [b]; exact failFrame_setErr h⟩
    · by_cases hid : id = LIST_ID ∨ id = RIFF_ID
      · rcases h3 : parseID (cnextCb h) s2 with ⟨_ | listID, s3⟩
        · obtain ⟨a, b⟩ := parseNextChunk_noListID h file cs s1 s2 id size h1 h2 hid (by rw [h3])
          exact Or.inl ⟨a, failFrame_of_one _ _ b⟩
        · by_cases hfit : (s3.next + (sizeSub4 size + size % 2)) % WORD > (h.chunk s3.chunk).size
          · obtain ⟨a, b⟩ := parseNextChunk_list_over h file cs s1 s2 s3 id size listID h1 h2
              hid h3 hfit
            exact Or.inl ⟨a, failFrame_of_one _ _ b⟩
          · exact Or.inr ⟨_, _, parseNextChunk_list h file cs s1 s2 s3 id size listID h1 h2
              hid h3 hfit⟩
      · by_cases hfit : (s2.next + (size + size % 2)) % WORD > (h.chunk s2.chunk).size
        · obtain ⟨a, b⟩ := parseNextChunk_leaf_over h file cs s1 s2 id size h1 h2 hid hfit
          exact Or.inl ⟨a, failFrame_of_one _ _ b⟩
        · exact Or.inr ⟨_, _, parseNextChunk_leaf h file cs s1 s2 id size h1 h2 hid hfit⟩

theorem chunk_append_lt (h : Heap) (ck : raff_Chunk) (e : raff_Error) (p : Nat)
    (hp : p < h.chunks.length) :
    Heap.chunk { h with chunks := h.chunks ++ [ck], errnum := e } p = h.chunk p := by
  simp only [Heap.chunk]
  exact getD_append_lt _ _ _ _ hp

/-- The parsing loop sets `raff_ERR_CORRUPT` when it fails; when it ends, the lists,
buffers, data views and files are as before, and so is every chunk below `N`, a bound
below which the loop holds no pointer. -/
theorem chunkAsListLoop_frame (list chunk N : Nat) :
    ∀ (fuel : Nat) (h : Heap) (cs : ChunkStream) (f l : Option Nat),
      N ≤ h.chunks.length → (∀ x, l = some x → N ≤ x) →
      (∀ H, chunkAsListLoop list chunk fuel h cs f l = LoopResult.failed H →
        H.errnum = raff_ERR_CORRUPT) ∧
      (∀ H f1 l1, chunkAsListLoop list chunk fuel h cs f l = LoopResult.done H f1 l1 →
        H.lists = h.lists ∧ H.bufs = h.bufs ∧ H.datas = h.datas ∧ H.files = h.files ∧
        h.chunks.length ≤ H.chunks.length ∧ ∀ p, p < N → H.chunk p = h.chunk p) := by
  intro fuel
  induction fuel with
  | zero =>
    intro h cs f l _ _
    constructor
    · intro H hH; simp [chunkAsListLoop] at hH
    · intro H f1 l1 hH; simp [chunkAsListLoop] at hH
  | succ fuel ih =>
    intro h cs f l hN hl
    by_cases hlt : cs.next < (h.chunk chunk).size
    · rcases parseNextChunk_cases h (h.list list).file cs with ⟨hn, hff⟩ | ⟨ck, cs1, hp⟩
      · rw [chunkAsListLoop_fail list chunk fuel h cs f l hlt hn]
        constructor
        · intro H hH
          cases hH
          exact hff.1
        · intro H f1 l1 hH
          cases hH
      · -- the heap after the turn of the loop
        have hstep : ∃ h2 f2, chunkAsListLoop list chunk (fuel + 1) h cs f l =
              chunkAsListLoop list chunk fuel h2 cs1 f2 (some h.chunks.length) ∧
            h2.lists = h.lists ∧ h2.bufs = h.bufs ∧ h2.datas = h.datas ∧ h2.files = h.files ∧
            h2.chunks.length = h.chunks.length + 1 ∧ ∀ p, p < N → h2.chunk p = h.chunk p := by
          rw [chunkAsListLoop]
          simp only [hlt, if_true, hp]
          cases f with
          | none =>
            refine ⟨_, _, rfl, rfl, rfl, rfl, rfl, ?_, ?_⟩
            · simp [Heap.setChunk]
            · intro p hpN
              rw [chunk_setChunk_ne _ _ _ _ (by omega), chunk_append_lt _ _ _ _ (by omega)]
          | some f0 =>
            cases l with
            | none =>
              refine ⟨_, _, rfl, rfl, rfl, rfl, rfl, ?_, ?_⟩
              · simp [Heap.setChunk]
              · intro p hpN
                rw [chunk_setChunk_ne _ _ _ _ (by omega), chunk_append_lt _ _ _ _ (by omega)]
            | some l0 =>
              have hl0 := hl l0 rfl
              refine ⟨_, _, rfl, rfl, rfl, rfl, rfl, ?_, ?_⟩
              · simp [Heap.setChunk]
              · intro p hpN
                rw [chunk_setChunk_ne _ _ _ _ (by omega), chunk_setChunk_ne _ _ _ _ (by omega),
                  chunk_append_lt _ _ _ _ (by omega)]
        obtain ⟨h2, f2, hs, e1, e2, e3, e4, e5, e6⟩ := hstep
        rw [hs]
        obtain ⟨ihf, ihd⟩ := ih h2 cs1 f2 (some h.chunks.length) (by omega)
          (by intro x hx; cases hx; exact hN)
        refine ⟨ihf, ?_⟩
        intro H f1 l1 hH
        obtain ⟨a1, a2, a3, a4, a5, a6⟩ := ihd H f1 l1 hH
        refine ⟨a1.trans e1, a2.trans e2, a3.trans e3, a4.trans e4, by omega, ?_⟩
        intro p hpN
        rw [a6 p hpN, e6 p hpN]
    · rw [chunkAsListLoop_done list chunk fuel h cs f l hlt]
      constructor
      · intro H hH; cases hH
      · intro H f1 l1 hH
        cases hH
        exact ⟨rfl, rfl, rfl, rfl, le_refl _, fun _ _ => rfl⟩

/-- The returns of `raff_chunkAsList` on a List/Riff chunk with no cached list. -/
theorem chunkAsList_uncached (fuel : Nat) (h : Heap) (c : Nat) (r : Option Nat) (h1 : Heap)
    (hty : (h.chunk c).type ≠ TYPE_OTHER) (hnl : (h.chunk c).asList = none)
    (hres : raff_chunkAsList fuel h c = some (r, h1)) :
    (r = none ∧ h1.errnum = raff_ERR_CORRUPT) ∨
    (∃ (H : Heap) (f l : Option Nat), r = some h.lists.length ∧
      h1 = ((H.setList h.lists.length
            { H.list h.lists.length with cursor := f, first := f, last := l }).setChunk c
          { H.chunk c with asList := some h.lists.length }).setErr raff_ERR_NONE ∧
      H.lists = (withNewList h c).lists ∧ H.bufs = h.bufs ∧ H.datas = h.datas ∧
      H.files = h.files ∧
      h.chunks.length ≤ H.chunks.length ∧ ∀ p, p < h.chunks.length → H.chunk p = h.chunk p) := by
  obtain ⟨hfail, hdone⟩ := chunkAsListLoop_frame h.lists.length c h.chunks.length fuel
    (withNewList h c) (makeChunkStream c) none none (le_refl _) (by intro x hx; cases hx)
  rcases hloop : chunkAsListLoop h.lists.length c fuel (withNewList h c) (makeChunkStream c)
      none none with _ | ⟨H⟩ | ⟨H, f, l⟩
  · have : raff_chunkAsList fuel h c = none := by
      unfold raff_chunkAsList
      unfold withNewList at hloop
      simp only [hty, if_false, hnl, hloop]
    rw [this] at hres
    cases hres
  · rw [chunkAsList_of_failed fuel h H c hty hnl hloop] at hres
    cases hres
    exact Or.inl ⟨rfl, hfail _ hloop⟩
  · rw [chunkAsList_of_done fuel h H c f l hty hnl hloop] at hres
    cases hres
    obtain ⟨a1, a2, a3, a4, a5, a6⟩ := hdone H f l hloop
    exact Or.inr ⟨H, f, l, rfl, rfl, a1, a2, a3, a4, a5, a6⟩

/-! ## Claim C11: asking for the wrong view -/

theorem chunkAsList_cached (fuel : Nat) (h : Heap) (c l : Nat)
    (hty : (h.chunk c).type ≠ TYPE_OTHER) (hl : (h.chunk c).asList = some l) :
    raff_chunkAsList fuel h c = some (some l, h.setErr raff_ERR_NONE) := by
  unfold raff_chunkAsList
  simp only [hty, if_false, hl]

theorem chunkAsList_other (fuel : Nat) (h : Heap) (c : Nat)
    (hty : (h.chunk c).type = TYPE_OTHER) :
    raff_chunkAsList fuel h c = some (none, h.setErr raff_ERR_NOT_LIST) := by
  unfold raff_chunkAsList
  simp only [hty, if_true]

/-- On a chunk of type Other whose cached data view, if any, is coherent,
`raff_chunkAsData` returns a data view with the id, size and bytes of the chunk. -/
theorem chunkAsData_other (h : Heap) (c : Nat) (hty : (h.chunk c).type = TYPE_OTHER)
    (hco : DataCoherent h c) :
    ∃ d, (raff_chunkAsData h c).1 = some d ∧
      raff_errorNum (raff_chunkAsData h c).2 = raff_ERR_NONE ∧
      ((raff_chunkAsData h c).2.data d).id = (h.chunk c).id ∧
      raff_dataSize (raff_chunkAsData h c).2 d = (h.chunk c).size ∧
      raff_dataContent (raff_chunkAsData h c).2 d = h.range (h.chunk c) := by
  cases hd : (h.chunk c).asData with
  | some d =>
    have e : raff_chunkAsData h c = (some d, h.setErr raff_ERR_NONE) := by
      simp [raff_chunkAsData, hty, hd]
    unfold DataCoherent at hco
    rw [hd] at hco
    simp only at hco
    obtain ⟨c1, c2, c3⟩ := hco
    rw [e]
    refine ⟨d, rfl, rfl, c1, c2, ?_⟩
    show ((h.buf (h.data d).start.buf).drop (h.data d).start.off).take (h.data d).size = _
    rw [c2, c3]
    rfl
  | none =>
    refine ⟨h.datas.length, ?_, ?_, ?_, ?_, ?_⟩
    · simp [raff_chunkAsData, hty, hd]
    · simp [raff_chunkAsData, hty, hd, raff_errorNum, Heap.setErr]
    · simp [raff_chunkAsData, hty, hd, Heap.setErr, Heap.setChunk, Heap.data]
    · simp [raff_chunkAsData, hty, hd, Heap.setErr, Heap.setChunk, Heap.data, raff_dataSize]
    · simp [raff_chunkAsData, hty, hd, Heap.setErr, Heap.setChunk, Heap.data,
        raff_dataContent, Heap.range, Heap.buf]

/-- C11: `raff_chunkAsData` returns `NULL` with `raff_ERR_IS_LIST` exactly for the
chunks of type List or Riff; `raff_chunkAsList` returns `NULL` with
`raff_ERR_NOT_LIST` on every chunk of type Other, and whenever it returns, it does so
with `NULL` and `raff_ERR_NOT_LIST` only for a chunk of type Other; and on a chunk of
type Other (whose cached data view, if it has one, is the one the library made for
it) `raff_chunkAsData` returns a data view with `raff_ERR_NONE` that has the id, the
size and the bytes of the chunk. -/
theorem C11_wrong_view (fuel : Nat) (h : Heap) (c : Nat) :
    (((raff_chunkAsData h c).1 = none ∧
        raff_errorNum (raff_chunkAsData h c).2 = raff_ERR_IS_LIST) ↔
      ((h.chunk c).type = TYPE_LIST ∨ (h.chunk c).type = TYPE_RIFF)) ∧
    ((h.chunk c).type = TYPE_OTHER →
      raff_chunkAsList fuel h c = some (none, h.setErr raff_ERR_NOT_LIST) ∧
      raff_errorNum (h.setErr raff_ERR_NOT_LIST) = raff_ERR_NOT_LIST) ∧
    (∀ r h1, raff_chunkAsList fuel h c = some (r, h1) →
      ((r = none ∧ raff_errorNum h1 = raff_ERR_NOT_LIST) ↔ (h.chunk c).type = TYPE_OTHER)) ∧
    ((h.chunk c).type = TYPE_OTHER → DataCoherent h c →
      ∃ d, (raff_chunkAsData h c).1 = some d ∧
        raff_errorNum (raff_chunkAsData h c).2 = raff_ERR_NONE ∧
        ((raff_chunkAsData h c).2.data d).id = (h.chunk c).id ∧
        raff_dataSize (raff_chunkAsData h c).2 d = (h.chunk c).size ∧
        raff_dataContent (raff_chunkAsData h c).2 d = h.range (h.chunk c)) := by
  refine ⟨?_, fun hty => ⟨chunkAsList_other fuel h c hty, rfl⟩, ?_, ?_⟩
  · cases hty : (h.chunk c).type <;> cases hd : (h.chunk c).asData <;>
      simp [raff_chunkAsData, hty, hd, raff_errorNum, Heap.setErr]
  · intro r h1 hres
    by_cases hty : (h.chunk c).type = TYPE_OTHER
    · rw [chunkAsList_other fuel h c hty] at hres
      cases hres
      simp [hty, raff_errorNum, Heap.setErr]
    · cases hnl : (h.chunk c).asList with
      | some l =>
        rw [chunkAsList_cached fuel h c l hty hnl] at hres
        cases hres
        simp [hty]
      | none =>
        rcases chunkAsList_uncached fuel h c r h1 hty hnl hres with ⟨_, he⟩ | ⟨H, f, l, hr, _⟩
        · simp [hty, raff_errorNum, he]
        · simp [hty, hr]
  · exact fun hty hco => chunkAsData_other h c hty hco

/-- Witness of C11: the three-byte leaf `data` of `oddHeap`, a chunk of type Other
that caches the data view it was made from. -/
theorem C11_wrong_view_witness :
    (oddHeap.chunk 1).type = TYPE_OTHER ∧ DataCoherent oddHeap 1 ∧
    (raff_chunkAsList 1 oddHeap 1 = some (none, oddHeap.setErr raff_ERR_NOT_LIST) ∧
      raff_errorNum (oddHeap.setErr raff_ERR_NOT_LIST) = raff_ERR_NOT_LIST) ∧
    ∃ d, (raff_chunkAsData oddHeap 1).1 = some d ∧
      raff_errorNum (raff_chunkAsData oddHeap 1).2 = raff_ERR_NONE ∧
      ((raff_chunkAsData oddHeap 1).2.data d).id = (oddHeap.chunk 1).id ∧
      raff_dataSize (raff_chunkAsData oddHeap 1).2 d = (oddHeap.chunk 1).size ∧
      raff_dataContent (raff_chunkAsData oddHeap 1).2 d = oddHeap.range (oddHeap.chunk 1) :=
  ⟨by decide, by decide, (C11_wrong_view 1 oddHeap 1).2.1 (by decide),
    (C11_wrong_view 1 oddHeap 1).2.2.2 (by decide) (by decide)⟩

/-! ## Claim C12: converting twice -/

theorem listAsChunk_cached (fuel : Nat) (h : Heap) (list : Nat) (riff : Bool) (c : Nat)
    (hc : (h.list list).asChunk = some c)
    (ht : decide ((h.chunk c).type = TYPE_RIFF) = riff) :
    raff_listAsChunk fuel h list riff = some (c, h.setErr raff_ERR_NONE) := by
  unfold raff_listAsChunk
  simp only [hc, ht, if_true]

/-- The returns of `raff_listAsChunk` when the cached chunk, if any, is not served. -/
theorem listAsChunk_miss (fuel : Nat) (h : Heap) (list : Nat) (riff : Bool)
    (hmiss : ∀ c, (h.list list).asChunk = some c →
      decide ((h.chunk c).type = TYPE_RIFF) ≠ riff)
    (c : Nat) (h1 : Heap) (hres : raff_listAsChunk fuel h list riff = some (c, h1)) :
    ∃ size data, listSizeLoop h fuel (h.list list).first 0 = some size ∧
      listWriteLoop h fuel (h.list list).first [] = some data ∧
      c = h.chunks.length ∧
      h1 = (Heap.setList
          { h with
            chunks := h.chunks ++
              [{ next := none, file := (h.list list).file, list := none,
                 type := if riff then TYPE_RIFF else TYPE_LIST, id := (h.list list).id,
                 size := size, start := { buf := h.bufs.length, off := 0 },
                 asList := some list, asData := none }],
            bufs := h.bufs ++ [data] }
          list { h.list list with asChunk := some h.chunks.length }).setErr raff_ERR_NONE := by
  rcases hs : listSizeLoop h fuel (h.list list).first 0 with _ | size
  · unfold raff_listAsChunk at hres
    cases ha : (h.list list).asChunk with
    | none => simp [ha, hs] at hres
    | some c0 => simp [ha, hmiss c0 ha, hs] at hres
  · rcases hw : listWriteLoop h fuel (h.list list).first [] with _ | data
    · unfold raff_listAsChunk at hres
      cases ha : (h.list list).asChunk with
      | none => simp [ha, hs, hw] at hres
      | some c0 => simp [ha, hmiss c0 ha, hs, hw] at hres
    · have hres2 : some (h.chunks.length,
          (Heap.setList
            { h with
              chunks := h.chunks ++
                [{ next := none, file := (h.list list).file, list := none,
                   type := if riff then TYPE_RIFF else TYPE_LIST, id := (h.list list).id,
                   size := size, start := { buf := h.bufs.length, off := 0 },
                   asList := some list, asData := none }],
              bufs := h.bufs ++ [data] }
            list { h.list list with asChunk := some h.chunks.length }).setErr raff_ERR_NONE)
          = some (c, h1) := by
        rw [← hres]
        unfold raff_listAsChunk
        cases ha : (h.list list).asChunk with
        | none => simp only [hs, hw]; rfl
        | some c0 => simp only [hmiss c0 ha, if_false, hs, hw]; rfl
      simp only [Option.some.injEq, Prod.mk.injEq] at hres2
      exact ⟨size, data, rfl, rfl, hres2.1.symm, hres2.2.symm⟩

theorem copyBytes_length (read : Nat → Nat) (n : Nat) : (copyBytes read n).length = n := by
  simp [copyBytes]

theorem encodeChild_length (h : Heap) (p : Nat) :
    (encodeChild h p).length =
      (if (h.chunk p).type ≠ TYPE_OTHER then 12 else 8) + (h.chunk p).size +
        (if (h.chunk p).size % 2 = 1 then 1 else 0) := by
  unfold encodeChild
  by_cases ht : (h.chunk p).type ≠ TYPE_OTHER <;> by_cases hr : (h.chunk p).type = TYPE_RIFF <;>
    by_cases hp : (h.chunk p).size % 2 = 1 <;>
    simp [ht, hr, hp, addID, addSize, copyBytes_length] <;> omega

/-- One turn of the serialisation loop appends `encodeChild`. -/
theorem listWrite_turn (h : Heap) (p : Nat) (data : List Nat) :
    (if (h.chunk p).size % 2 = 1 then
        (if (h.chunk p).type ≠ TYPE_OTHER then
            addID (addSize
              (if (h.chunk p).type = TYPE_RIFF then addID data RIFF_ID else addID data LIST_ID)
              (h.chunk p).size) (h.chunk p).id
          else addSize (addID data (h.chunk p).id) (h.chunk p).size) ++
          copyBytes (h.readByte (h.chunk p).start) (h.chunk p).size ++ [0]
      else
        (if (h.chunk p).type ≠ TYPE_OTHER then
            addID (addSize
              (if (h.chunk p).type = TYPE_RIFF then addID data RIFF_ID else addID data LIST_ID)
              (h.chunk p).size) (h.chunk p).id
          else addSize (addID data (h.chunk p).id) (h.chunk p).size) ++
          copyBytes (h.readByte (h.chunk p).start) (h.chunk p).size)
      = data ++ encodeChild h p := by
  unfold encodeChild
  by_cases ht : (h.chunk p).type ≠ TYPE_OTHER <;> by_cases hr : (h.chunk p).type = TYPE_RIFF <;>
    by_cases hp : (h.chunk p).size % 2 = 1 <;>
    simp [ht, hr, hp, addID, addSize]

theorem listWriteLoop_chain (h : Heap) (ps : List Nat) :
    ∀ (first : Option Nat) (data : List Nat) (fuel : Nat), IsChain h first ps →
      ps.length ≤ fuel →
      listWriteLoop h fuel first data = some (data ++ encodeChildren h ps) := by
  induction ps with
  | nil =>
    intro first data fuel hch _
    cases first with
    | none => cases fuel <;> simp [listWriteLoop, encodeChildren]
    | some p => exact absurd hch (by simp [IsChain])
  | cons q qs ih =>
    intro first data fuel hch hf
    cases first with
    | none => exact absurd hch (by simp [IsChain])
    | some p =>
      obtain ⟨rfl, hrest⟩ := hch
      match fuel, hf with
      | fuel + 1, hf =>
        have hf2 : qs.length ≤ fuel := by simpa using hf
        rw [listWriteLoop]
        simp only []
        rw [listWrite_turn h p data, ih _ _ fuel hrest hf2]
        simp [encodeChildren]

theorem listSizeLoop_chain (h : Heap) (ps : List Nat) :
    ∀ (first : Option Nat) (size : Nat) (fuel : Nat), IsChain h first ps →
      ps.length ≤ fuel → size + (encodeChildren h ps).length < WORD →
      listSizeLoop h fuel first size = some (size + (encodeChildren h ps).length) := by
  induction ps with
  | nil =>
    intro first size fuel hch _ _
    cases first with
    | none => cases fuel <;> simp [listSizeLoop, encodeChildren]
    | some p => exact absurd hch (by simp [IsChain])
  | cons q qs ih =>
    intro first size fuel hch hf hw
    cases first with
    | none => exact absurd hch (by simp [IsChain])
    | some p =>
      obtain ⟨rfl, hrest⟩ := hch
      match fuel, hf with
      | fuel + 1, hf =>
        have hf2 : qs.length ≤ fuel := by simpa using hf
        have hcl := encodeChild_length h p
        simp only [encodeChildren, List.length_append] at hw ⊢
        have e : (if (h.chunk p).size % 2 = 1 then
              (((if (h.chunk p).type ≠ TYPE_OTHER then (((size + 4) % WORD + 4) % WORD + 4) % WORD
                  else ((size + 4) % WORD + 4) % WORD) + (h.chunk p).size) % WORD + 1) % WORD
            else ((if (h.chunk p).type ≠ TYPE_OTHER then (((size + 4) % WORD + 4) % WORD + 4) % WORD
                  else ((size + 4) % WORD + 4) % WORD) + (h.chunk p).size) % WORD)
            = size + (encodeChild h p).length := by
          rw [hcl]
          rw [WORD_val] at hw ⊢
          rw [hcl] at hw
          split_ifs at hw ⊢ <;> omega
        rw [listSizeLoop]
        simp only [e]
        rw [ih _ _ fuel hrest hf2 (by omega)]
        congr 1
        omega

/-- For a leaf chunk whose range lies in its buffer, the bytes written are the
documented encoding of the child. -/
theorem encodeChild_leaf (h : Heap) (p : Nat) (hty : (h.chunk p).type = TYPE_OTHER)
    (hin : h.inBounds (h.chunk p)) : encodeChild h p = wireChild (h.child p) := by
  have := leaf_bytes h p [] hty hin
  rw [List.nil_append] at this
  rw [← this]
  unfold encodeChild
  simp [hty]

theorem encodeChildren_leaves (h : Heap) (ps : List Nat)
    (hleaf : ∀ p ∈ ps, (h.chunk p).type = TYPE_OTHER ∧ h.inBounds (h.chunk p)) :
    encodeChildren h ps = wireChildren (ps.map h.child) := by
  induction ps with
  | nil => rfl
  | cons q qs ih =>
    simp only [encodeChildren, List.map_cons, wireChildren]
    rw [encodeChild_leaf h q (hleaf q (List.mem_cons_self _ _)).1
      (hleaf q (List.mem_cons_self _ _)).2, ih (fun x hx => hleaf x (List.mem_cons_of_mem _ hx))]

/-- The function `raff_listAsChunk` on a list with no cached chunk: the new chunk spans
a new buffer that holds what the serialisation loop writes for the children. -/
theorem listAsChunk_chain (fuel : Nat) (h : Heap) (list : Nat) (riff : Bool) (ps : List Nat)
    (hnc : (h.list list).asChunk = none)
    (hch : IsChain h (h.list list).first ps)
    (hf : ps.length ≤ fuel) (hlen : (encodeChildren h ps).length < WORD) :
    ∃ h1, raff_listAsChunk fuel h list riff = some (h.chunks.length, h1) ∧
      h1.chunk h.chunks.length =
        { next := none, file := (h.list list).file, list := none,
          type := if riff then TYPE_RIFF else TYPE_LIST, id := (h.list list).id,
          size := (encodeChildren h ps).length,
          start := { buf := h.bufs.length, off := 0 },
          asList := some list, asData := none } ∧
      h1.buf h.bufs.length = encodeChildren h ps ∧
      h1.range (h1.chunk h.chunks.length) = encodeChildren h ps ∧
      h1.errnum = raff_ERR_NONE := by
  have hs := listSizeLoop_chain h ps _ 0 fuel hch hf (by omega)
  have hw := listWriteLoop_chain h ps _ [] fuel hch hf
  rw [Nat.zero_add] at hs
  rw [List.nil_append] at hw
  have hck : ∀ h1 : Heap, h1 = (Heap.setList
          { h with
            chunks := h.chunks ++
              [{ next := none, file := (h.list list).file, list := none,
                 type := if riff then TYPE_RIFF else TYPE_LIST, id := (h.list list).id,
                 size := (encodeChildren h ps).length,
                 start := { buf := h.bufs.length, off := 0 },
                 asList := some list, asData := none }],
            bufs := h.bufs ++ [encodeChildren h ps] }
          list { h.list list with asChunk := some h.chunks.length }).setErr raff_ERR_NONE →
      h1.chunk h.chunks.length =
        { next := none, file := (h.list list).file, list := none,
          type := if riff then TYPE_RIFF else TYPE_LIST, id := (h.list list).id,
          size := (encodeChildren h ps).length,
          start := { buf := h.bufs.length, off := 0 },
          asList := some list, asData := none } ∧
      h1.buf h.bufs.length = encodeChildren h ps := by
    intro h1 hh1
    subst hh1
    constructor
    · rw [chunk_setErr, chunk_setList]
      simp only [Heap.chunk, getD_append_length]
    · simp only [Heap.buf, Heap.setErr, Heap.setList, getD_append_length]
  obtain ⟨e1, e2⟩ := hck _ rfl
  refine ⟨_, listAsChunk_uncached fuel h list riff _ _ hnc hs hw, e1, e2, ?_, rfl⟩
  simp only [Heap.range, e1, e2, List.drop_zero, List.take_length]

/-! ## Chains of chunks -/

theorem isChain_congr (h h1 : Heap) (xs : List Nat) :
    ∀ first, (∀ p ∈ xs, (h1.chunk p).next = (h.chunk p).next) →
      IsChain h first xs → IsChain h1 first xs := by
  induction xs with
  | nil =>
    intro first _ hch
    cases first with
    | none => trivial
    | some p => exact absurd hch (by simp [IsChain])
  | cons q qs ih =>
    intro first hn hch
    cases first with
    | none => exact absurd hch (by simp [IsChain])
    | some p =>
      obtain ⟨rfl, hrest⟩ := hch
      refine ⟨rfl, ?_⟩
      rw [hn p (List.mem_cons_self _ _)]
      exact ih _ (fun x hx => hn x (List.mem_cons_of_mem _ hx)) hrest

theorem isChain_unique (h : Heap) (xs : List Nat) :
    ∀ (ys : List Nat) (first : Option Nat), IsChain h first xs → IsChain h first ys →
      xs = ys := by
  induction xs with
  | nil =>
    intro ys first h1 h2
    cases first with
    | some p => exact absurd h1 (by simp [IsChain])
    | none =>
      cases ys with
      | nil => rfl
      | cons y ys => exact absurd h2 (by simp [IsChain])
  | cons q qs ih =>
    intro ys first h1 h2
    cases first with
    | none => exact absurd h1 (by simp [IsChain])
    | some p =>
      cases ys with
      | nil => exact absurd h2 (by simp [IsChain])
      | cons y ys =>
        obtain ⟨rfl, r1⟩ := h1
        obtain ⟨rfl, r2⟩ := h2
        rw [ih ys _ r1 r2]

theorem isChain_suffix (h : Heap) (q : Nat) (post : List Nat) (pre : List Nat) :
    ∀ first, IsChain h first (pre ++ q :: post) → IsChain h (some q) (q :: post) := by
  induction pre with
  | nil =>
    intro first hch
    cases first with
    | none => exact absurd hch (by simp [IsChain])
    | some p =>
      obtain ⟨rfl, r⟩ := hch
      exact ⟨rfl, r⟩
  | cons a pre ih =>
    intro first hch
    cases first with
    | none => exact absurd hch (by simp [IsChain])
    | some p =>
      obtain ⟨_, r⟩ := hch
      exact ih _ r

/-- A chain that ends holds no chunk twice. -/
theorem isChain_nodup (h : Heap) (xs : List Nat) :
    ∀ first, IsChain h first xs → xs.Nodup := by
  induction xs with
  | nil => intro _ _; exact List.nodup_nil
  | cons q qs ih =>
    intro first hch
    cases first with
    | none => exact absurd hch (by simp [IsChain])
    | some p =>
      obtain ⟨rfl, r⟩ := hch
      refine List.nodup_cons.2 ⟨?_, ih _ r⟩
      intro hmem
      obtain ⟨pre, post, hs⟩ := List.append_of_mem hmem
      rw [hs] at r
      have r2 := (isChain_suffix h p post pre _ r).2
      have := isChain_unique h _ _ _ r r2
      have hl := congrArg List.length this
      simp at hl
      omega

/-- Linking a new chunk after the last chunk of a chain. -/
theorem isChain_snoc (h h1 : Heap) (x : Nat) (xs : List Nat) :
    ∀ first, IsChain h first xs → xs.Nodup → x ∉ xs →
      (∀ p ∈ xs, some p ≠ xs.getLast? → (h1.chunk p).next = (h.chunk p).next) →
      (∀ p, xs.getLast? = some p → (h1.chunk p).next = some x) →
      (h1.chunk x).next = none →
      IsChain h1 (if xs = [] then some x else first) (xs ++ [x]) := by
  induction xs with
  | nil =>
    intro first _ _ _ _ _ hx
    simp only [if_true, List.nil_append]
    exact ⟨rfl, by rw [hx]; trivial⟩
  | cons q qs ih =>
    intro first hch hnd hxn hkeep hlast hx
    cases first with
    | none => exact absurd hch (by simp [IsChain])
    | some p =>
      obtain ⟨rfl, r⟩ := hch
      have hnd2 := (List.nodup_cons.1 hnd).2
      have hpq := (List.nodup_cons.1 hnd).1
      simp only [reduceCtorEq, if_false, List.cons_append]
      refine ⟨rfl, ?_⟩
      cases qs with
      | nil =>
        have hn : (h.chunk p).next = none := by
          cases hnx : (h.chunk p).next with
          | none => rfl
          | some z => rw [hnx] at r; exact absurd r (by simp [IsChain])
        rw [hlast p rfl]
        exact ⟨rfl, by rw [hx]; trivial⟩
      | cons a as =>
        have hk : (h1.chunk p).next = (h.chunk p).next := by
          apply hkeep p (List.mem_cons_self _ _)
          intro he
          have he2 : (a :: as).getLast? = some p := by
            rw [List.getLast?_cons_cons] at he
            exact he.symm
          exact hpq (List.mem_of_getLast?_eq_some he2)
        rw [hk]
        have := ih _ r hnd2 (fun hm => hxn (List.mem_cons_of_mem _ hm))
          (fun y hy hne => hkeep y (List.mem_cons_of_mem _ hy)
            (by rw [List.getLast?_cons_cons]; exact hne))
          (fun y hy => hlast y (by rw [List.getLast?_cons_cons]; exact hy)) hx
        simpa using this

/-! ## Insertion: what `raff_prepend` and `raff_append` change -/

theorem clearCache_nocache (h : Heap) (list : Nat) (hnc : (h.list list).asChunk = none) :
    clearCache h list = h := by
  unfold clearCache
  simp only [hnc]

/-- What dropping the cached chunk of a list changes: the field `asChunk` of the list
and the field `asList` of chunks. -/
theorem clearCache_spec (h : Heap) (list : Nat) (hl : list < h.lists.length) :
    (clearCache h list).bufs = h.bufs ∧ (clearCache h list).datas = h.datas ∧
    (clearCache h list).files = h.files ∧ (clearCache h list).errnum = h.errnum ∧
    (clearCache h list).chunks.length = h.chunks.length ∧
    (clearCache h list).lists.length = h.lists.length ∧
    (∀ p, ∃ v, (clearCache h list).chunk p = { h.chunk p with asList := v }) ∧
    (clearCache h list).list list = { h.list list with asChunk := none } ∧
    (∀ l, l ≠ list → (clearCache h list).list l = h.list l) := by
  cases hc : (h.list list).asChunk with
  | none =>
    rw [clearCache_nocache h list hc]
    refine ⟨rfl, rfl, rfl, rfl, rfl, rfl, fun p => ⟨(h.chunk p).asList, rfl⟩, ?_, fun _ _ => rfl⟩
    rw [← hc]
  | some c =>
    by_cases ha : (h.chunk c).asList = some list
    · have e : clearCache h list =
          (h.setChunk c { h.chunk c with asList := none }).setList list
            { h.list list with asChunk := none } := by
        unfold clearCache
        simp only [hc, ha, if_true, list_setChunk]
      rw [e]
      refine ⟨rfl, rfl, rfl, rfl, by simp [Heap.setList, Heap.setChunk],
        by simp [Heap.setList, Heap.setChunk], ?_, ?_, ?_⟩
      · intro p
        rw [chunk_setList]
        by_cases hp : c = p
        · subst hp
          by_cases hv : c < h.chunks.length
          · exact ⟨none, chunk_setChunk_eq _ _ _ hv⟩
          · refine ⟨(h.chunk c).asList, ?_⟩
            simp only [Heap.setChunk, Heap.chunk]
            rw [List.set_eq_of_length_le (by omega)]
        · exact ⟨(h.chunk p).asList, chunk_setChunk_ne _ _ _ _ hp⟩
      · exact list_setList_eq _ _ _ hl
      · intro l hne
        rw [list_setList_ne _ _ _ _ (Ne.symm hne), list_setChunk]
    · have e : clearCache h list = h.setList list { h.list list with asChunk := none } := by
        unfold clearCache
        simp only [hc, ha, if_false]
      rw [e]
      refine ⟨rfl, rfl, rfl, rfl, by simp [Heap.setList], by simp [Heap.setList],
        fun p => ⟨(h.chunk p).asList, rfl⟩, ?_, ?_⟩
      · exact list_setList_eq _ _ _ hl
      · intro l hne
        rw [list_setList_ne _ _ _ _ (Ne.symm hne)]

theorem clearCache_idem (h : Heap) (list : Nat) (hl : list < h.lists.length) :
    clearCache (clearCache h list) list = clearCache h list := by
  apply clearCache_nocache
  rw [(clearCache_spec h list hl).2.2.2.2.2.2.2.1]

theorem prepend_clear (h : Heap) (list x : Nat) (hl : list < h.lists.length) :
    raff_prepend h list x = raff_prepend (clearCache h list) list x := by
  unfold raff_prepend
  rw [clearCache_idem h list hl]

theorem append_clear (h : Heap) (list x : Nat) (hl : list < h.lists.length) :
    raff_append h list x = raff_append (clearCache h list) list x := by
  unfold raff_append
  rw [clearCache_idem h list hl]

/-- The function `raff_prepend` on a list that has no cached chunk. -/
theorem prepend_nocache (h : Heap) (list x : Nat) (hl : list < h.lists.length)
    (hnc : (h.list list).asChunk = none)
    (hfile : (h.chunk x).file = (h.list list).file) (hlist : (h.chunk x).list = none) :
    raff_prepend h list x = some
      { h with
        chunks := h.chunks.set x { h.chunk x with next := (h.list list).first },
        lists := h.lists.set list
          { h.list list with
            first := some x,
            last := if (h.list list).last = none then some x else (h.list list).last } } := by
  unfold raff_prepend
  rw [clearCache_nocache h list hnc]
  have hf : ¬ ((h.chunk x).file ≠ (h.list list).file) := by simp [hfile]
  have hn : ¬ ((h.chunk x).list ≠ none) := by simp [hlist]
  simp only [hf, hn, if_false, chunk_setList, list_setChunk,
    list_setList_eq _ _ _ (show list < (h.setChunk x _).lists.length from hl)]
  by_cases hlast : (h.list list).last = none
  · simp only [hlast, if_true]
    simp [Heap.setList, Heap.setChunk, List.set_set]
  · simp only [hlast, if_false]
    simp [Heap.setList, Heap.setChunk]

/-- The function `raff_append` on a list that has no cached chunk. -/
theorem append_nocache (h : Heap) (list x : Nat) (hl : list < h.lists.length)
    (hnc : (h.list list).asChunk = none)
    (hfile : (h.chunk x).file = (h.list list).file) (hlist : (h.chunk x).list = none) :
    raff_append h list x = some
      { h with
        chunks := (match (h.list list).last with
          | some l => h.chunks.set l { h.chunk l with next := some x }
          | none => h.chunks),
        lists := h.lists.set list
          { h.list list with
            last := some x,
            first := if (h.list list).first = none then some x else (h.list list).first } } := by
  unfold raff_append
  rw [clearCache_nocache h list hnc]
  have hf : ¬ ((h.chunk x).file ≠ (h.list list).file) := by simp [hfile]
  have hn : ¬ ((h.chunk x).list ≠ none) := by simp [hlist]
  simp only [hf, hn, if_false]
  cases hlast : (h.list list).last with
  | none =>
    simp only [list_setList_eq _ _ _ hl]
    by_cases hfirst : (h.list list).first = none
    · simp only [hfirst, if_true]
      simp [Heap.setList, List.set_set, hlast, hfirst]
    · simp only [hfirst, if_false]
      simp [Heap.setList, hlast]
  | some l0 =>
    simp only [list_setChunk,
      list_setList_eq _ _ _ (show list < (h.setChunk l0 _).lists.length from hl)]
    by_cases hfirst : (h.list list).first = none
    · simp only [hfirst, if_true]
      simp [Heap.setList, Heap.setChunk, List.set_set, hlast, hfirst]
    · simp only [hfirst, if_false]
      simp [Heap.setList, Heap.setChunk, hlast]

/-- What `raff_prepend` changes, for a chunk that passes its assertions: the cached
chunk of the list is dropped, the chunk is linked before the first child, and the
list records it as its first child (and as its last, if it had none). -/
theorem prepend_spec (h : Heap) (list x : Nat) (hl : list < h.lists.length)
    (hx : x < h.chunks.length)
    (hfile : (h.chunk x).file = (h.list list).file) (hlist : (h.chunk x).list = none) :
    ∃ h1, raff_prepend h list x = some h1 ∧
      h1.bufs = h.bufs ∧ h1.chunks.length = h.chunks.length ∧
      h1.lists.length = h.lists.length ∧
      (∀ p, p ≠ x → ∃ v, h1.chunk p = { h.chunk p with asList := v }) ∧
      (∃ v, h1.chunk x = { h.chunk x with asList := v, next := (h.list list).first }) ∧
      h1.list list =
        { h.list list with
          asChunk := none, first := some x,
          last := if (h.list list).last = none then some x else (h.list list).last } ∧
      (∀ l, l ≠ list → h1.list l = h.list l) := by
  obtain ⟨b1, _, _, _, b5, b6, b7, b8, b9⟩ := clearCache_spec h list hl
  obtain ⟨vx, hvx⟩ := b7 x
  have hl' : list < (clearCache h list).lists.length := by omega
  have hx' : x < (clearCache h list).chunks.length := by omega
  have e := prepend_nocache (clearCache h list) list x hl' (by rw [b8])
    (by rw [hvx, b8]; exact hfile) (by rw [hvx]; exact hlist)
  rw [prepend_clear h list x hl, e]
  refine ⟨_, rfl, b1, ?_, ?_, ?_, ?_, ?_, ?_⟩
  · simp only [List.length_set]; exact b5
  · simp only [List.length_set]; exact b6
  · intro p hp
    obtain ⟨v, hv⟩ := b7 p
    refine ⟨v, ?_⟩
    rw [← hv]
    exact getD_set_ne _ _ _ _ _ (Ne.symm hp)
  · refine ⟨vx, ?_⟩
    have : Heap.chunk
        { clearCache h list with
          chunks := (clearCache h list).chunks.set x
            { (clearCache h list).chunk x with next := ((clearCache h list).list list).first },
          lists := (clearCache h list).lists.set list
            { (clearCache h list).list list with
              first := some x,
              last := if ((clearCache h list).list list).last = none then some x
                else ((clearCache h list).list list).last } } x =
        { (clearCache h list).chunk x with next := ((clearCache h list).list list).first } :=
      getD_set_eq _ _ _ _ hx'
    rw [this, hvx, b8]
  · have : Heap.list
        { clearCache h list with
          chunks := (clearCache h list).chunks.set x
            { (clearCache h list).chunk x with next := ((clearCache h list).list list).first },
          lists := (clearCache h list).lists.set list
            { (clearCache h list).list list with
              first := some x,
              last := if ((clearCache h list).list list).last = none then some x
                else ((clearCache h list).list list).last } } list =
        { (clearCache h list).list list with
          first := some x,
          last := if ((clearCache h list).list list).last = none then some x
            else ((clearCache h list).list list).last } :=
      getD_set_eq _ _ _ _ hl'
    rw [this, b8]
  · intro l hne
    rw [← b9 l hne]
    exact getD_set_ne _ _ _ _ _ (Ne.symm hne)

/-- What `raff_append` changes, for a chunk that passes its assertions: the cached
chunk of the list is dropped, the chunk is linked after the last child, and the list
records it as its last child (and as its first, if it had none). -/
theorem append_spec (h : Heap) (list x : Nat) (hl : list < h.lists.length)
    (hlv : ∀ l0, (h.list list).last = some l0 → l0 < h.chunks.length)
    (hfile : (h.chunk x).file = (h.list list).file) (hlist : (h.chunk x).list = none) :
    ∃ h1, raff_append h list x = some h1 ∧
      h1.bufs = h.bufs ∧ h1.chunks.length = h.chunks.length ∧
      h1.lists.length = h.lists.length ∧
      (∀ p, (h.list list).last ≠ some p → ∃ v, h1.chunk p = { h.chunk p with asList := v }) ∧
      (∀ l0, (h.list list).last = some l0 →
        ∃ v, h1.chunk l0 = { h.chunk l0 with asList := v, next := some x }) ∧
      h1.list list =
        { h.list list with
          asChunk := none, last := some x,
          first := if (h.list list).first = none then some x else (h.list list).first } ∧
      (∀ l, l ≠ list → h1.list l = h.list l) := by
  obtain ⟨b1, _, _, _, b5, b6, b7, b8, b9⟩ := clearCache_spec h list hl
  obtain ⟨vx, hvx⟩ := b7 x
  have hl' : list < (clearCache h list).lists.length := by omega
  have e := append_nocache (clearCache h list) list x hl' (by rw [b8])
    (by rw [hvx, b8]; exact hfile) (by rw [hvx]; exact hlist)
  rw [append_clear h list x hl, e]
  have hlast' : ((clearCache h list).list list).last = (h.list list).last := by rw [b8]
  have hlist' : ∀ (cks : List raff_Chunk), Heap.list
        { clearCache h list with
          chunks := cks,
          lists := (clearCache h list).lists.set list
            { (clearCache h list).list list with
              last := some x,
              first := if ((clearCache h list).list list).first = none then some x
                else ((clearCache h list).list list).first } } list =
        { (clearCache h list).list list with
          last := some x,
          first := if ((clearCache h list).list list).first = none then some x
            else ((clearCache h list).list list).first } :=
    fun _ => getD_set_eq _ _ _ _ hl'
  cases hlast : (h.list list).last with
  | none =>
    rw [hlast] at hlast'
    simp only [hlast']
    refine ⟨_, rfl, b1, b5, ?_, ?_, ?_, ?_, ?_⟩
    · simp only [List.length_set]; exact b6
    · intro p _
      exact b7 p
    · intro l0 hl0
      cases hl0
    · rw [hlist', b8]
    · intro l hne
      rw [← b9 l hne]
      exact getD_set_ne _ _ _ _ _ (Ne.symm hne)
  | some l0 =>
    rw [hlast] at hlast'
    simp only [hlast']
    have hl0 : l0 < (clearCache h list).chunks.length := by
      have := hlv l0 hlast
      omega
    refine ⟨_, rfl, b1, ?_, ?_, ?_, ?_, ?_, ?_⟩
    · simp only [List.length_set]; exact b5
    · simp only [List.length_set]; exact b6
    · intro p hp
      obtain ⟨v, hv⟩ := b7 p
      refine ⟨v, ?_⟩
      rw [← hv]
      exact getD_set_ne _ _ _ _ _ (fun he => hp (by rw [he]))
    · intro l1 hl1
      cases hl1
      obtain ⟨v, hv⟩ := b7 l0
      refine ⟨v, ?_⟩
      have : Heap.chunk
          { clearCache h list with
            chunks := (clearCache h list).chunks.set l0
              { (clearCache h list).chunk l0 with next := some x },
            lists := (clearCache h list).lists.set list
              { (clearCache h list).list list with
                last := some x,
                first := if ((clearCache h list).list list).first = none then some x
                  else ((clearCache h list).list list).first } } l0 =
          { (clearCache h list).chunk l0 with next := some x } :=
        getD_set_eq _ _ _ _ hl0
      rw [this, hv]
    · rw [hlist', b8]
    · intro l hne
      rw [← b9 l hne]
      exact getD_set_ne _ _ _ _ _ (Ne.symm hne)

/-! ## The encoding does not read the links -/

theorem encodeChild_congr (h h1 : Heap) (p : Nat) (hb : h1.bufs = h.bufs)
    (hc : ∃ v n, h1.chunk p = { h.chunk p with asList := v, next := n }) :
    encodeChild h1 p = encodeChild h p := by
  obtain ⟨v, n, hv⟩ := hc
  have hr : ∀ s, h1.readByte s = h.readByte s := by
    intro s
    funext j
    simp only [Heap.readByte, Heap.buf, hb]
  unfold encodeChild
  rw [hv]
  simp only [hr]

theorem encodeChildren_congr (h h1 : Heap) (ps : List Nat) (hb : h1.bufs = h.bufs)
    (hc : ∀ p ∈ ps, ∃ v n, h1.chunk p = { h.chunk p with asList := v, next := n }) :
    encodeChildren h1 ps = encodeChildren h ps := by
  induction ps with
  | nil => rfl
  | cons q qs ih =>
    simp only [encodeChildren]
    rw [encodeChild_congr h h1 q hb (hc q (List.mem_cons_self _ _)),
      ih (fun x hx => hc x (List.mem_cons_of_mem _ hx))]

theorem encodeChildren_append (h : Heap) (a b : List Nat) :
    encodeChildren h (a ++ b) = encodeChildren h a ++ encodeChildren h b := by
  induction a with
  | nil => rfl
  | cons q qs ih => simp [encodeChildren, ih]

/-! ## Claim C13: insertion drops the cached chunk -/

theorem isChain_first_none (h : Heap) (first : Option Nat) (xs : List Nat)
    (hch : IsChain h first xs) : first = none ↔ xs = [] := by
  cases first <;> cases xs <;> simp_all [IsChain]

/-- C13: let a list with children `xs` (linked from `first`, `last` being the last of
them) have the cached chunk `c0`, and let `x` be a chunk of the same container that is
in no list, is not among `xs` and has no successor.  After `raff_prepend( list, x )`
the children are `x` followed by `xs`, after `raff_append( list, x )` they are `xs`
followed by `x`, and in both cases the next `raff_listAsChunk( list, riff )`, for
either flag, returns a chunk other than `c0` whose size and byte range are the
encoding of the new sequence: the records that the serialisation loop writes for
the children (`encodeChild`), in the new order.  For leaf children these records are
the documented encoding of the children. -/
theorem C13_cache_invalidation (fuel : Nat) (h : Heap) (list x c0 : Nat) (xs : List Nat)
    (riff : Bool)
    (hl : list < h.lists.length) (hx : x < h.chunks.length)
    (hc0 : (h.list list).asChunk = some c0) (hc0v : c0 < h.chunks.length)
    (hch : IsChain h (h.list list).first xs) (hval : ∀ p ∈ xs, p < h.chunks.length)
    (hlast : (h.list list).last = xs.getLast?)
    (hfile : (h.chunk x).file = (h.list list).file) (hlist : (h.chunk x).list = none)
    (hnext : (h.chunk x).next = none) (hnew : x ∉ xs)
    (hlen : (encodeChildren h (x :: xs)).length < WORD) (hf : xs.length < fuel) :
    (∃ h1 c h2, raff_prepend h list x = some h1 ∧
      IsChain h1 (h1.list list).first (x :: xs) ∧
      raff_listAsChunk fuel h1 list riff = some (c, h2) ∧ c ≠ c0 ∧
      (h2.chunk c).size = (encodeChildren h (x :: xs)).length ∧
      h2.range (h2.chunk c) = encodeChildren h (x :: xs)) ∧
    (∃ h1 c h2, raff_append h list x = some h1 ∧
      IsChain h1 (h1.list list).first (xs ++ [x]) ∧
      raff_listAsChunk fuel h1 list riff = some (c, h2) ∧ c ≠ c0 ∧
      (h2.chunk c).size = (encodeChildren h (xs ++ [x])).length ∧
      h2.range (h2.chunk c) = encodeChildren h (xs ++ [x])) ∧
    ((∀ p ∈ x :: xs, (h.chunk p).type = TYPE_OTHER ∧ h.inBounds (h.chunk p)) →
      encodeChildren h (x :: xs) = wireChildren ((x :: xs).map h.child) ∧
      encodeChildren h (xs ++ [x]) = wireChildren ((xs ++ [x]).map h.child)) := by
  have _ := hc0
  refine ⟨?_, ?_, ?_⟩
  · obtain ⟨h1, e, b1, b2, _, b4, ⟨vx, b5⟩, b6, _⟩ := prepend_spec h list x hl hx hfile hlist
    have hsame : ∀ p ∈ x :: xs, ∃ v n, h1.chunk p = { h.chunk p with asList := v, next := n } := by
      intro p hp
      by_cases hpx : p = x
      · subst hpx
        exact ⟨vx, _, b5⟩
      · obtain ⟨v, hv⟩ := b4 p hpx
        exact ⟨v, (h.chunk p).next, hv⟩
    have hchain : IsChain h1 (h1.list list).first (x :: xs) := by
      rw [b6]
      refine ⟨rfl, ?_⟩
      rw [b5]
      apply isChain_congr h h1 xs _ _ hch
      intro p hp
      obtain ⟨v, hv⟩ := b4 p (fun he => hnew (he ▸ hp))
      rw [hv]
    have henc := encodeChildren_congr h h1 (x :: xs) b1 hsame
    obtain ⟨h2, r1, r2, _, r4, _⟩ := listAsChunk_chain fuel h1 list riff (x :: xs)
      (by rw [b6]) hchain (by simpa using hf) (by rw [henc]; exact hlen)
    refine ⟨h1, _, h2, e, hchain, r1, by omega, ?_, ?_⟩
    · rw [r2, henc]
    · rw [r4, henc]
  · have hlv : ∀ l0, (h.list list).last = some l0 → l0 < h.chunks.length := by
      intro l0 hl0
      rw [hlast] at hl0
      exact hval l0 (List.mem_of_getLast?_eq_some hl0)
    obtain ⟨h1, e, b1, b2, _, b4, b5, b6, _⟩ := append_spec h list x hl hlv hfile hlist
    have hxl : (h.list list).last ≠ some x := by
      rw [hlast]
      intro he
      exact hnew (List.mem_of_getLast?_eq_some he)
    have hsame : ∀ p ∈ xs ++ [x],
        ∃ v n, h1.chunk p = { h.chunk p with asList := v, next := n } := by
      intro p _
      by_cases hpl : (h.list list).last = some p
      · obtain ⟨v, hv⟩ := b5 p hpl
        exact ⟨v, _, hv⟩
      · obtain ⟨v, hv⟩ := b4 p hpl
        exact ⟨v, (h.chunk p).next, hv⟩
    have hchain : IsChain h1 (h1.list list).first (xs ++ [x]) := by
      rw [b6]
      have key := isChain_snoc h h1 x xs _ hch (isChain_nodup h xs _ hch) hnew
        (by
          intro p _ hne
          obtain ⟨v, hv⟩ := b4 p (by rw [hlast]; exact fun he => hne he.symm)
          rw [hv])
        (by
          intro p hp
          obtain ⟨v, hv⟩ := b5 p (by rw [hlast]; exact hp)
          rw [hv])
        (by
          obtain ⟨v, hv⟩ := b4 x hxl
          rw [hv]
          exact hnext)
      have hiff := isChain_first_none h _ xs hch
      by_cases hxs : xs = []
      · rw [if_pos hxs] at key
        simp only [hiff.2 hxs, if_true]
        exact key
      · rw [if_neg hxs] at key
        have hne : ¬ (h.list list).first = none := fun he => hxs (hiff.1 he)
        simp only [hne, if_false]
        exact key
    have henc := encodeChildren_congr h h1 (xs ++ [x]) b1 hsame
    have hlen2 : (encodeChildren h (xs ++ [x])).length < WORD := by
      rw [encodeChildren_append]
      simp only [encodeChildren, List.length_append, List.append_nil] at hlen ⊢
      omega
    obtain ⟨h2, r1, r2, _, r4, _⟩ := listAsChunk_chain fuel h1 list riff (xs ++ [x])
      (by rw [b6]) hchain (by simpa using hf) (by rw [henc]; exact hlen2)
    refine ⟨h1, _, h2, e, hchain, r1, by omega, ?_, ?_⟩
    · rw [r2, henc]
    · rw [r4, henc]
  · intro hleaf
    constructor
    · exact encodeChildren_leaves h _ hleaf
    · apply encodeChildren_leaves
      intro p hp
      apply hleaf
      rcases List.mem_append.1 hp with hp | hp
      · exact List.mem_cons_of_mem _ hp
      · rw [List.mem_singleton] at hp
        rw [hp]
        exact List.mem_cons_self _ _

/-- Witness of C13: the list of `cachedHeap`, with children `data` and `fmt ` and the
cached chunk 2, and the new leaf `note` (chunk 3). -/
theorem C13_cache_invalidation_witness :
    (∃ h1 c h2, raff_prepend cachedHeap 0 3 = some h1 ∧
      IsChain h1 (h1.list 0).first (3 :: [1, 0]) ∧
      raff_listAsChunk 4 h1 0 false = some (c, h2) ∧ c ≠ 2 ∧
      (h2.chunk c).size = (encodeChildren cachedHeap (3 :: [1, 0])).length ∧
      h2.range (h2.chunk c) = encodeChildren cachedHeap (3 :: [1, 0])) ∧
    (∃ h1 c h2, raff_append cachedHeap 0 3 = some h1 ∧
      IsChain h1 (h1.list 0).first ([1, 0] ++ [3]) ∧
      raff_listAsChunk 4 h1 0 false = some (c, h2) ∧ c ≠ 2 ∧
      (h2.chunk c).size = (encodeChildren cachedHeap ([1, 0] ++ [3])).length ∧
      h2.range (h2.chunk c) = encodeChildren cachedHeap ([1, 0] ++ [3])) ∧
    ((∀ p ∈ 3 :: [1, 0],
        (cachedHeap.chunk p).type = TYPE_OTHER ∧ cachedHeap.inBounds (cachedHeap.chunk p)) →
      encodeChildren cachedHeap (3 :: [1, 0]) =
        wireChildren ((3 :: [1, 0]).map cachedHeap.child) ∧
      encodeChildren cachedHeap ([1, 0] ++ [3]) =
        wireChildren (([1, 0] ++ [3]).map cachedHeap.child)) :=
  C13_cache_invalidation 4 cachedHeap 0 3 2 [1, 0] false (by decide) (by decide) (by decide)
    (by decide) (by decide) (by decide) (by decide) (by decide) (by decide) (by decide)
    (by decide) (by decide) (by decide)

/-! ## The generator builds a list of leaf chunks -/

theorem copyBytes_content (content : List Nat) :
    copyBytes (fun i => content.getD i 0) content.length = content := by
  apply List.ext_getElem?
  intro i
  by_cases hi : i < content.length
  · simp [copyBytes, List.getElem?_map, List.getElem?_range hi, List.getD_eq_getElem?_getD,
      List.getElem?_eq_getElem hi]
  · simp [copyBytes, List.getElem?_eq_none (Nat.le_of_not_lt hi)]
    omega

/-- The calls `raff_newData` and `raff_dataAsChunk` for a leaf: one chunk, one data
view and one buffer are allocated. -/
theorem newLeaf_spec (h : Heap) (file : Nat) (lf : Leaf) :
    ∃ h2, raff_dataAsChunk (raff_newData h file lf.id lf.content lf.content.length).2
        (raff_newData h file lf.id lf.content lf.content.length).1 lf.asListJunk
        = (h.chunks.length, h2) ∧
      h2.bufs = h.bufs ++ [lf.content] ∧
      h2.chunks = h.chunks ++
        [{ next := none, file := file, list := none, type := TYPE_OTHER, id := lf.id,
           size := lf.content.length, start := { buf := h.bufs.length, off := 0 },
           asList := lf.asListJunk, asData := some h.datas.length }] ∧
      h2.lists = h.lists := by
  have hd : (Heap.data (raff_newData h file lf.id lf.content lf.content.length).2
      (raff_newData h file lf.id lf.content lf.content.length).1) =
      { file := file, id := lf.id, size := lf.content.length,
        start := { buf := h.bufs.length, off := 0 }, asChunk := none } := by
    simp only [raff_newData, Heap.data, getD_append_length]
  refine ⟨(raff_dataAsChunk (raff_newData h file lf.id lf.content lf.content.length).2
        (raff_newData h file lf.id lf.content lf.content.length).1 lf.asListJunk).2,
    Prod.ext ?_ rfl, ?_, ?_, ?_⟩
  · unfold raff_dataAsChunk
    rw [hd]
    simp only [raff_newData]
  · unfold raff_dataAsChunk
    rw [hd]
    simp only [Heap.setErr, Heap.setData, raff_newData, copyBytes_content]
  · unfold raff_dataAsChunk
    rw [hd]
    simp only [Heap.setErr, Heap.setData, raff_newData]
  · unfold raff_dataAsChunk
    rw [hd]
    simp only [Heap.setErr, Heap.setData, raff_newData]

theorem buf_append_lt (h1 h : Heap) (b : List Nat) (hb : h1.bufs = h.bufs ++ [b]) (i : Nat)
    (hi : i < h.bufs.length) : h1.buf i = h.buf i := by
  simp only [Heap.buf, hb]
  exact getD_append_lt _ _ _ _ hi

theorem buf_append_length (h1 h : Heap) (b : List Nat) (hb : h1.bufs = h.bufs ++ [b]) :
    h1.buf h.bufs.length = b := by
  simp only [Heap.buf, hb]
  exact getD_append_length _ _ _

/-- One leaf prepended: the invariant of the list under construction is kept, with
the new chunk and the new child in front. -/
theorem prependLeaf_inv (h : Heap) (file list : Nat) (lf : Leaf) (ps : List Nat)
    (ds : List Child) (hinv : LeafListInv h file list ps ds) :
    ∃ h1, prependLeaf h file list lf = some h1 ∧
      LeafListInv h1 file list (h.chunks.length :: ps) (leafChild lf :: ds) ∧
      (h1.list list).id = (h.list list).id := by
  obtain ⟨hl, hfl, hnc, hch, hmap, hps⟩ := hinv
  obtain ⟨h2, e2, hb2, hc2, hl2⟩ := newLeaf_spec h file lf
  have hck2 : h2.chunk h.chunks.length =
      { next := none, file := file, list := none, type := TYPE_OTHER, id := lf.id,
        size := lf.content.length, start := { buf := h.bufs.length, off := 0 },
        asList := lf.asListJunk, asData := some h.datas.length } := by
    simp only [Heap.chunk, hc2, getD_append_length]
  have hold2 : ∀ p, p < h.chunks.length → h2.chunk p = h.chunk p := by
    intro p hp
    simp only [Heap.chunk, hc2]
    exact getD_append_lt _ _ _ _ hp
  have hlist2 : h2.list list = h.list list := by simp only [Heap.list, hl2]
  have hlen2 : h2.chunks.length = h.chunks.length + 1 := by simp [hc2]
  obtain ⟨h3, e3, b1, b2, b3, b4, ⟨vx, b5⟩, b6, _⟩ := prepend_spec h2 list h.chunks.length
    (by rw [hl2]; exact hl) (by omega) (by rw [hck2, hlist2, hfl]) (by rw [hck2])
  have hb3 : h3.bufs = h.bufs ++ [lf.content] := b1.trans hb2
  have hold3 : ∀ p, p < h.chunks.length → ∃ v, h3.chunk p = { h.chunk p with asList := v } := by
    intro p hp
    obtain ⟨v, hv⟩ := b4 p (by omega)
    exact ⟨v, by rw [hv, hold2 p hp]⟩
  refine ⟨h3, ?_, ⟨?_, ?_, ?_, ?_, ?_, ?_⟩, ?_⟩
  · unfold prependLeaf
    simp only [e2]
    exact e3
  · rw [b3, hl2]; exact hl
  · rw [b6, hlist2]; exact hfl
  · rw [b6]
  · rw [b6]
    refine ⟨rfl, ?_⟩
    rw [b5, hlist2]
    apply isChain_congr h h3 ps _ _ hch
    intro p hp
    obtain ⟨v, hv⟩ := hold3 p (hps p hp).1
    rw [hv]
  · rw [List.map_cons, ← hmap]
    congr 1
    · simp only [Heap.child, Heap.range, b5, hck2, leafChild, List.drop_zero]
      rw [buf_append_length h3 h _ hb3, List.take_length]
    · apply List.map_congr_left
      intro p hp
      obtain ⟨hp1, hp2, _, _⟩ := hps p hp
      obtain ⟨v, hv⟩ := hold3 p hp1
      simp only [Heap.child, Heap.range, hv]
      rw [buf_append_lt h3 h _ hb3 _ hp2]
  · intro p hp
    rcases List.mem_cons.1 hp with rfl | hp
    · refine ⟨by omega, ?_, ?_, ?_⟩
      · rw [b5, hck2, hb3]; simp
      · rw [b5, hck2]
      · simp only [Heap.inBounds, b5, hck2]
        rw [buf_append_length h3 h _ hb3]
        omega
    · obtain ⟨hp1, hp2, hp3, hp4⟩ := hps p hp
      obtain ⟨v, hv⟩ := hold3 p hp1
      refine ⟨by omega, ?_, ?_, ?_⟩
      · rw [hv, hb3]; simp; omega
      · rw [hv]; exact hp3
      · simp only [Heap.inBounds, hv]
        rw [buf_append_lt h3 h _ hb3 _ hp2]
        exact hp4
  · rw [b6, hlist2]

theorem prependLeaves_inv (file list : Nat) (leaves : List Leaf) :
    ∀ (h : Heap) (ps : List Nat) (ds : List Child), LeafListInv h file list ps ds →
      ∃ h1 ps1, prependLeaves file list h leaves = some h1 ∧
        LeafListInv h1 file list ps1 (leaves.reverse.map leafChild ++ ds) ∧
        (h1.list list).id = (h.list list).id := by
  induction leaves with
  | nil =>
    intro h ps ds hinv
    exact ⟨h, ps, rfl, by simpa using hinv, rfl⟩
  | cons lf lfs ih =>
    intro h ps ds hinv
    obtain ⟨h1, e1, hinv1, hid1⟩ := prependLeaf_inv h file list lf ps ds hinv
    obtain ⟨h2, ps2, e2, hinv2, hid2⟩ := ih h1 _ _ hinv1
    refine ⟨h2, ps2, ?_, ?_, hid2.trans hid1⟩
    · rw [prependLeaves, e1]
      exact e2
    · simpa using hinv2

/-- The generator reaches a heap in which the list holds the generated leaves. -/
theorem genList_inv (h : Heap) (F : raff_ID) (lastJunk : Option Nat) (leaves : List Leaf) :
    ∃ h1 ps, genList h F lastJunk leaves = some (h.lists.length, h1) ∧
      LeafListInv h1 h.files.length h.lists.length ps (genChildren leaves) ∧
      (h1.list h.lists.length).id = F := by
  have hinv0 : LeafListInv (raff_newList (raff_newFile h).2 (raff_newFile h).1 F lastJunk).2
      h.files.length h.lists.length [] [] := by
    refine ⟨?_, ?_, ?_, ?_, rfl, ?_⟩
    · simp [raff_newList, raff_newFile]
    · simp only [raff_newList, raff_newFile, Heap.list, getD_append_length]
    · simp only [raff_newList, raff_newFile, Heap.list, getD_append_length]
    · simp only [raff_newList, raff_newFile, Heap.list, getD_append_length]
      trivial
    · intro p hp
      cases hp
  obtain ⟨h1, ps, e, hinv, hid⟩ := prependLeaves_inv h.files.length h.lists.length leaves _ _ _
    hinv0
  refine ⟨h1, ps, ?_, by simpa [genChildren] using hinv, ?_⟩
  · unfold genList
    have e' : prependLeaves (raff_newFile h).1
        (raff_newList (raff_newFile h).2 (raff_newFile h).1 F lastJunk).1
        (raff_newList (raff_newFile h).2 (raff_newFile h).1 F lastJunk).2 leaves = some h1 := e
    simp only [e']
    rfl
  · rw [hid]
    simp only [raff_newList, raff_newFile, Heap.list, getD_append_length]

theorem idOK_of_ascii (id : raff_ID) (ha : asciiID id) : idOK id := by
  obtain ⟨hlt, hb⟩ := ha
  unfold idOK
  have h0 := hb (id / 16777216 % 256) (by simp [be32])
  have h1 := hb (id / 65536 % 256) (by simp [be32])
  have h2 := hb (id / 256 % 256) (by simp [be32])
  have h3 := hb (id % 256) (by simp [be32])
  show raff_newID [id / 16777216 % 256, id / 65536 % 256, id / 256 % 256, id % 256] = id
  rw [raff_newID_ascii _ _ _ _ h0 h1 h2 h3 []]
  replace hlt : @LT.lt Nat _ id (2 ^ 32) := hlt
  show @Eq Nat _ id
  omega

/-! ## Claim C2: generate, then parse -/

theorem genChildren_mem (leaves : List Leaf) (d : Child) (hd : d ∈ genChildren leaves) :
    ∃ lf ∈ leaves, d = leafChild lf := by
  unfold genChildren at hd
  obtain ⟨lf, hlf, rfl⟩ := List.mem_map.1 hd
  exact ⟨lf, List.mem_reverse.1 hlf, rfl⟩

/-- C2: the generator of `test-gen.c`, for any leaves, builds a list with id `F` whose
children are leaf chunks made by `raff_newData` and `raff_dataAsChunk` and added
with `raff_prepend`.  If `F` and the ids of the leaves are four non-zero 7-bit
characters, no leaf id is `RIFF` or `LIST`, the contents are bytes and the encoding is
shorter than `2 ^ 32 - 12`, then `raff_listAsChunk( list, true )`, serialisation and
`raff_openStream` succeed, `raff_getID` of the root chunk is `F`, `raff_chunkAsList`
of the root chunk succeeds, and for every id `X` that occurs in the list, `d` being
the first child with id `X`, `raff_findID` returns a chunk and `raff_chunkAsData` of
it a data view whose `raff_dataSize` and `raff_dataContent` are the size and the
bytes of `d`. -/
theorem C2_generate_parse (fuel fuelS : Nat) (h : Heap) (F : raff_ID)
    (lastJunk : Option Nat) (leaves : List Leaf)
    (hF : asciiID F)
    (hids : ∀ lf ∈ leaves, asciiID lf.id ∧ lf.id ≠ RIFF_ID ∧ lf.id ≠ LIST_ID)
    (hbytes : ∀ lf ∈ leaves, allBytes lf.content)
    (htotal : (wireChildren (genChildren leaves)).length + 12 < 2 ^ 32)
    (hf : leaves.length < fuel)
    (hfS : (wireChildren (genChildren leaves)).length + 12 < fuelS) :
    ∃ list h1 c h2 bytes h3 file h4 root l h5,
      genList h F lastJunk leaves = some (list, h1) ∧
      raff_listAsChunk fuel h1 list true = some (c, h2) ∧
      raff_serializeChunkToFile fuelS h2 c = some (bytes, h3) ∧
      raff_openStream fnextCb h3 { file := bytes } = (some file, h4) ∧
      raff_fileAsChunk h4 file = some root ∧
      raff_getID h4 root = F ∧
      raff_chunkAsList fuel h4 root = some (some l, h5) ∧
      ∀ X d, (genChildren leaves).find? (fun d => decide (d.id = X)) = some d →
        ∃ q dat, raff_findID fuel h5 l X = some (some q) ∧
          (raff_chunkAsData h5 q).1 = some dat ∧
          raff_dataSize (raff_chunkAsData h5 q).2 dat = d.payload.length ∧
          raff_dataContent (raff_chunkAsData h5 q).2 dat = d.payload := by
  obtain ⟨h1, ps, e1, ⟨_, _, hnc, hch, hmap, hps⟩, hid⟩ := genList_inv h F lastJunk leaves
  have hleaf : ∀ p ∈ ps, GoodLeaf h1 p := by
    intro p hp
    obtain ⟨_, _, hty, hin⟩ := hps p hp
    have hmem : h1.child p ∈ genChildren leaves := by
      rw [← hmap]
      exact List.mem_map_of_mem _ hp
    obtain ⟨lf, hlf, hc⟩ := genChildren_mem leaves _ hmem
    have hidp : (h1.chunk p).id = lf.id := congrArg Child.id hc
    have hrp : h1.range (h1.chunk p) = lf.content := congrArg Child.payload hc
    obtain ⟨ha, hnr, hnl⟩ := hids lf hlf
    refine ⟨hty, hin, ?_, ?_, ?_, ?_⟩
    · rw [hidp]; exact idOK_of_ascii _ ha
    · rw [hidp]; exact hnr
    · rw [hidp]; exact hnl
    · rw [hrp]; exact hbytes lf hlf
  have hlen : ps.length = leaves.length := by
    have := congrArg List.length hmap
    simpa [genChildren] using this
  obtain ⟨c, h2, bytes, h3, file, h4, root, l, h5, qs, r1, r2, r3, _, r5, r6, r7, _, hchain,
    hmap5, hall⟩ := roundtrip_leaves fuel fuelS h1 h.lists.length ps hnc hch hleaf
      (by rw [hid]; exact idOK_of_ascii _ hF) (by rw [hmap]; exact htotal) (by omega)
      (by rw [hmap]; exact hfS)
  refine ⟨_, h1, c, h2, bytes, h3, file, h4, root, l, h5, e1, r1, r2, r3, r5,
    r6.trans hid, r7, ?_⟩
  intro X d hd
  have hqlen : qs.length = ps.length := by simpa using congrArg List.length hmap5
  have hfind := findIDLoop_chain h5 X qs _ fuel hchain (by omega)
  rw [← hmap, ← hmap5, List.find?_map] at hd
  obtain ⟨q, hq, hqd⟩ := Option.map_eq_some'.1 hd
  have hqmem : q ∈ qs := List.mem_of_find?_eq_some hq
  have hdmem : d ∈ genChildren leaves := by
    rw [← hmap, ← hmap5, ← hqd]
    exact List.mem_map_of_mem _ hqmem
  obtain ⟨lf, _, hdl⟩ := genChildren_mem leaves d hdmem
  have hty : (h5.chunk q).type = TYPE_OTHER := by
    have := congrArg Child.type hqd
    rw [hdl] at this
    exact this
  have hco : DataCoherent h5 q := by
    unfold DataCoherent
    rw [(hall q hqmem).2]
    trivial
  obtain ⟨dat, a1, _, _, a4, a5⟩ := chunkAsData_other h5 q hty hco
  refine ⟨q, dat, ?_, a1, ?_, ?_⟩
  · unfold raff_findID
    rw [hfind]
    exact congrArg some hq
  · rw [a4, (hall q hqmem).1, hqd]
  · rw [a5]
    exact congrArg Child.payload hqd

/-- Witness of C2: the generator of `test-gen.c` with its two leaves, `data` prepended
first and `fmt ` second, and the form id `WAVE`. -/
theorem C2_generate_parse_witness :
    ∃ list h1 c h2 bytes h3 file h4 root l h5,
      genList Heap.empty (raff_newID [87, 65, 86, 69]) none wavLeaves = some (list, h1) ∧
      raff_listAsChunk 3 h1 list true = some (c, h2) ∧
      raff_serializeChunkToFile 64 h2 c = some (bytes, h3) ∧
      raff_openStream fnextCb h3 { file := bytes } = (some file, h4) ∧
      raff_fileAsChunk h4 file = some root ∧
      raff_getID h4 root = raff_newID [87, 65, 86, 69] ∧
      raff_chunkAsList 3 h4 root = some (some l, h5) ∧
      ∀ X d, (genChildren wavLeaves).find? (fun d => decide (d.id = X)) = some d →
        ∃ q dat, raff_findID 3 h5 l X = some (some q) ∧
          (raff_chunkAsData h5 q).1 = some dat ∧
          raff_dataSize (raff_chunkAsData h5 q).2 dat = d.payload.length ∧
          raff_dataContent (raff_chunkAsData h5 q).2 dat = d.payload :=
  C2_generate_parse 3 64 Heap.empty (raff_newID [87, 65, 86, 69]) none wavLeaves (by decide)
    (by decide) (by decide) (by decide) (by decide) (by decide)

/-! ## Claim C21: a list view that went stale -/

/-- C21 (defect of the code): in `cachedHeap` the list has the cached Riff chunk 2, which
caches the list in turn.  `raff_listAsChunk( list, false )` makes the List chunk 4 and
overwrites the cache of the list, and `raff_append( list, x )` then clears the cache
of the list and the back-link of chunk 4 only.  Chunk 2 still caches the list:
`raff_chunkAsList` of chunk 2 returns the list without parsing, but the size and the
byte range of chunk 2 are the encoding of the two old children, not of the three
current ones. -/
theorem C21_stale_list_view :
    (cachedHeap.list 0).asChunk = some 2 ∧ (cachedHeap.chunk 2).type = TYPE_RIFF ∧
    (cachedHeap.chunk 2).asList = some 0 ∧
    raff_listAsChunk 3 cachedHeap 0 false = some (4, overwrittenHeap) ∧
    raff_append overwrittenHeap 0 3 = some staleHeap ∧
    chainOf staleHeap 4 (staleHeap.list 0).first = [1, 0, 3] ∧
    raff_chunkAsList 0 staleHeap 2 = some (some 0, staleHeap.setErr raff_ERR_NONE) ∧
    staleHeap.range (staleHeap.chunk 2) = encodeChildren staleHeap [1, 0] ∧
    staleHeap.range (staleHeap.chunk 2) ≠ encodeChildren staleHeap [1, 0, 3] ∧
    (staleHeap.chunk 2).size ≠ (encodeChildren staleHeap [1, 0, 3]).length := by
  decide

/-! ## Claim C23: the two-way caches -/

theorem setErr_setErr (h : Heap) (e1 e2 : raff_Error) : (h.setErr e1).setErr e2 = h.setErr e2 :=
  rfl

/-- The function `raff_listAsChunk` when the cached chunk, if any, is not served. -/
theorem listAsChunk_recompute (fuel : Nat) (h : Heap) (list : Nat) (riff : Bool)
    (size : Nat) (data : List Nat)
    (hmiss : ∀ c0, (h.list list).asChunk = some c0 →
      decide ((h.chunk c0).type = TYPE_RIFF) ≠ riff)
    (hs : listSizeLoop h fuel (h.list list).first 0 = some size)
    (hw : listWriteLoop h fuel (h.list list).first [] = some data) :
    raff_listAsChunk fuel h list riff =
      some (h.chunks.length,
        (Heap.setList
          { h with
            chunks := h.chunks ++
              [{ next := none, file := (h.list list).file, list := none,
                 type := if riff then TYPE_RIFF else TYPE_LIST, id := (h.list list).id,
                 size := size, start := { buf := h.bufs.length, off := 0 },
                 asList := some list, asData := none }],
            bufs := h.bufs ++ [data] }
          list { h.list list with asChunk := some h.chunks.length }).setErr raff_ERR_NONE) := by
  unfold raff_listAsChunk
  cases ha : (h.list list).asChunk with
  | none => simp only [hs, hw]; rfl
  | some c0 => simp only [hmiss c0 ha, if_false, hs, hw]; rfl

theorem encodeChildren_length (h : Heap) (ps : List Nat) :
    (encodeChildren h ps).length = listSizeSpec h ps := by
  induction ps with
  | nil => rfl
  | cons q qs ih =>
    simp only [encodeChildren, listSizeSpec, List.length_append, encodeChild_length, ih]
    by_cases ht : (h.chunk q).type = TYPE_OTHER <;>
      by_cases hp : (h.chunk q).size % 2 = 1 <;> simp [ht, hp] <;> omega

theorem listSizeSpec_even (h : Heap) (ps : List Nat) : listSizeSpec h ps % 2 = 0 := by
  induction ps with
  | nil => rfl
  | cons q qs ih =>
    simp only [listSizeSpec]
    split <;> omega

/-- C22: when `raff_listAsChunk( list, riff )` does not serve a cached chunk, the
chunk it returns (given fuel for its loops, and a sum below `2 ^ 64`, the range of
`size_t`) has the type Riff if `riff` is set and List otherwise, the id of the list,
and a size that is the sum over the children of 8, plus 4 for a List/Riff child, plus
the payload size rounded up to even; the encoding loop writes exactly that many
bytes, which fill the buffer allocated for the chunk, and the size is even. -/
theorem C22_list_chunk_size (fuel : Nat) (h : Heap) (list : Nat) (riff : Bool)
    (ps : List Nat)
    (hmiss : ∀ c0, (h.list list).asChunk = some c0 →
      decide ((h.chunk c0).type = TYPE_RIFF) ≠ riff)
    (hch : IsChain h (h.list list).first ps) (hf : ps.length ≤ fuel)
    (hlen : listSizeSpec h ps < WORD) :
    ∃ c h1 data, raff_listAsChunk fuel h list riff = some (c, h1) ∧
      (h1.chunk c).type = (if riff then TYPE_RIFF else TYPE_LIST) ∧
      (h1.chunk c).id = (h.list list).id ∧
      (h1.chunk c).size = listSizeSpec h ps ∧
      listWriteLoop h fuel (h.list list).first [] = some data ∧
      data.length = (h1.chunk c).size ∧
      (h1.chunk c).start.off = 0 ∧ h1.buf (h1.chunk c).start.buf = data ∧
      (h1.chunk c).size % 2 = 0 := by
  have hl := encodeChildren_length h ps
  have hs := listSizeLoop_chain h ps _ 0 fuel hch hf (by omega)
  have hw := listWriteLoop_chain h ps _ [] fuel hch hf
  rw [Nat.zero_add] at hs
  rw [List.nil_append] at hw
  have e := listAsChunk_recompute fuel h list riff _ _ hmiss hs hw
  have hck : Heap.chunk ((Heap.setList
          { h with
            chunks := h.chunks ++
              [{ next := none, file := (h.list list).file, list := none,
                 type := if riff then TYPE_RIFF else TYPE_LIST, id := (h.list list).id,
                 size := (encodeChildren h ps).length,
                 start := { buf := h.bufs.length, off := 0 },
                 asList := some list, asData := none }],
            bufs := h.bufs ++ [encodeChildren h ps] }
          list { h.list list with asChunk := some h.chunks.length }).setErr raff_ERR_NONE)
        h.chunks.length =
        { next := none, file := (h.list list).file, list := none,
          type := if riff then TYPE_RIFF else TYPE_LIST, id := (h.list list).id,
          size := (encodeChildren h ps).length,
          start := { buf := h.bufs.length, off := 0 },
          asList := some list, asData := none } := by
    rw [chunk_setErr, chunk_setList]
    simp only [Heap.chunk, getD_append_length]
  refine ⟨_, _, encodeChildren h ps, e, ?_, ?_, ?_, hw, ?_, ?_, ?_, ?_⟩
  · rw [hck]
  · rw [hck]
  · rw [hck]; exact hl
  · rw [hck]
  · rw [hck]
  · rw [hck]
    simp only [Heap.buf, Heap.setErr, Heap.setList, getD_append_length]
  · rw [hck]
    simp only [hl]
    exact listSizeSpec_even h ps

/-- Witness of C22: the list of `cachedHeap`, whose cached chunk is a Riff chunk, is
asked for as a List chunk. -/
theorem C22_list_chunk_size_witness :
    ∃ c h1 data, raff_listAsChunk 3 cachedHeap 0 false = some (c, h1) ∧
      (h1.chunk c).type = (if false then TYPE_RIFF else TYPE_LIST) ∧
      (h1.chunk c).id = (cachedHeap.list 0).id ∧
      (h1.chunk c).size = listSizeSpec cachedHeap [1, 0] ∧
      listWriteLoop cachedHeap 3 (cachedHeap.list 0).first [] = some data ∧
      data.length = (h1.chunk c).size ∧
      (h1.chunk c).start.off = 0 ∧ h1.buf (h1.chunk c).start.buf = data ∧
      (h1.chunk c).size % 2 = 0 :=
  C22_list_chunk_size 3 cachedHeap 0 false [1, 0]
    (by
      intro c0 hc0
      have : c0 = 2 := by
        have h2 : (cachedHeap.list 0).asChunk = some 2 := by decide
        rw [h2] at hc0
        exact (Option.some.inj hc0).symm
      subst this
      decide)
    (by decide) (by decide) (by decide)

/-! ## Claim C24: the bytes of an id -/

/-- C24 (as amended): for four bytes that are 7-bit and in which zero bytes come only
as padding at the end, the id that `parseID` reads from them is written back as
exactly these four bytes by `addID` and by the serializer, as the tag of a leaf and
as the sub-ID of a List/Riff chunk; and no other four bytes of that kind are read as
the same id. -/
theorem C24_tag_roundtrip (bs : List Nat) (hb : plainTag bs) :
    ∃ id, (∀ rest, (parseID fnextCb { file := bs ++ rest }).1 = some id) ∧
      (∀ data, addID data id = data ++ bs) ∧
      (∀ (h : Heap) (c i : Nat), i < 4 → (h.chunk c).id = id →
        ((h.chunk c).type = TYPE_OTHER →
          (snextCb h { chunk := c, next := i }).1 = ((bs.getD i 0 : Nat) : Int)) ∧
        ((h.chunk c).type ≠ TYPE_OTHER →
          (snextCb h { chunk := c, next := 8 + i }).1 = ((bs.getD i 0 : Nat) : Int))) ∧
      (∀ bs2, plainTag bs2 → (parseID fnextCb { file := bs2 }).1 = some id → bs2 = bs) := by
  obtain ⟨hlen, hlt, hz1, hz2, hz3⟩ := hb
  obtain ⟨a, b, c, d, rfl⟩ := list_len4 bs hlen
  have ha : a < 128 := hlt a (by simp)
  have hb' : b < 128 := hlt b (by simp)
  have hc : c < 128 := hlt c (by simp)
  have hd : d < 128 := hlt d (by simp)
  have hid := raff_newID_packed a b c d ha hb' hc hd hz1 hz2 hz3
  have hbe := be32_packed a b c d (by omega) (by omega) (by omega) (by omega)
  rw [be32_eq] at hbe
  simp only [List.cons.injEq, and_true] at hbe
  obtain ⟨e0, e1, e2, e3⟩ := hbe
  refine ⟨a * 2 ^ 24 + b * 2 ^ 16 + c * 2 ^ 8 + d, ?_, ?_, ?_, ?_⟩
  · intro rest
    have := parseID_file_bytes a b c d rest (by omega) (by omega) (by omega) (by omega)
    simp only [List.cons_append, List.nil_append]
    rw [this, hid]
  · intro data
    unfold addID
    rw [e0, e1, e2, e3]
  · intro h ck i hi hidc
    constructor
    · intro hty
      rw [snextCb_fst]
      simp only [hi, if_true, hty, hidc]
      interval_cases i
      · simp only [Nat.sub_zero, List.getD_cons_zero]
        rw [show 8 * 3 = 24 from rfl, e0]
      · simp only [List.getD_cons_succ, List.getD_cons_zero]
        rw [show 8 * (3 - 1) = 16 from rfl, e1]
      · simp only [List.getD_cons_succ, List.getD_cons_zero]
        rw [show 8 * (3 - 2) = 8 from rfl, e2]
      · simp only [List.getD_cons_succ, List.getD_cons_zero]
        rw [show 8 * (3 - 3) = 0 from rfl, Nat.shiftRight_zero, e3]
    · intro hty
      rw [snextCb_fst]
      have n4 : ¬ (8 + i < 4) := by omega
      have n8 : ¬ (8 + i < 8) := by omega
      have l12 : 8 + i < 12 := by omega
      simp only [n4, n8, l12, if_false, if_true, hty, ne_eq, not_false_eq_true, hidc]
      interval_cases i
      · simp only [List.getD_cons_zero]
        rw [show 8 * (11 - (8 + 0)) = 24 from rfl, e0]
      · simp only [List.getD_cons_succ, List.getD_cons_zero]
        rw [show 8 * (11 - (8 + 1)) = 16 from rfl, e1]
      · simp only [List.getD_cons_succ, List.getD_cons_zero]
        rw [show 8 * (11 - (8 + 2)) = 8 from rfl, e2]
      · simp only [List.getD_cons_succ, List.getD_cons_zero]
        rw [show 8 * (11 - (8 + 3)) = 0 from rfl, Nat.shiftRight_zero, e3]
  · intro bs2 hb2 hp
    obtain ⟨hlen2, hlt2, y1, y2, y3⟩ := hb2
    obtain ⟨a2, b2, c2, d2, rfl⟩ := list_len4 bs2 hlen2
    have ha2 : a2 < 128 := hlt2 a2 (by simp)
    have hb2' : b2 < 128 := hlt2 b2 (by simp)
    have hc2 : c2 < 128 := hlt2 c2 (by simp)
    have hd2 : d2 < 128 := hlt2 d2 (by simp)
    have hid2 := raff_newID_packed a2 b2 c2 d2 ha2 hb2' hc2 hd2 y1 y2 y3
    have := parseID_file_bytes a2 b2 c2 d2 [] (by omega) (by omega) (by omega) (by omega)
    rw [this, hid2] at hp
    have hp2 := Option.some.inj hp
    obtain ⟨r0, r1, r2, r3⟩ := unpack4 a2 b2 c2 d2 a b c d (by omega) (by omega) (by omega)
      (by omega) (by omega) (by omega) hp2
    rw [r0, r1, r2, r3]

/-- Witness of C24: the bytes of the tag `fmt` padded with a zero byte. -/
theorem C24_tag_roundtrip_witness :
    ∃ id, (∀ rest, (parseID fnextCb { file := [102, 109, 116, 0] ++ rest }).1 = some id) ∧
      (∀ data, addID data id = data ++ [102, 109, 116, 0]) ∧
      (∀ (h : Heap) (c i : Nat), i < 4 → (h.chunk c).id = id →
        ((h.chunk c).type = TYPE_OTHER →
          (snextCb h { chunk := c, next := i }).1 =
            (([102, 109, 116, 0].getD i 0 : Nat) : Int)) ∧
        ((h.chunk c).type ≠ TYPE_OTHER →
          (snextCb h { chunk := c, next := 8 + i }).1 =
            (([102, 109, 116, 0].getD i 0 : Nat) : Int))) ∧
      (∀ bs2, plainTag bs2 → (parseID fnextCb { file := bs2 }).1 = some id →
        bs2 = [102, 109, 116, 0]) :=
  C24_tag_roundtrip [102, 109, 116, 0] (by decide)

/-- Counterexample to C24 as stated: the four bytes `0x41 0x00 0x42 0x43` are read by
`parseID` as the id `0x41000000`, since `raff_newID` stops at the zero byte; `addID`
writes it back as `0x41 0x00 0x00 0x00`, and these other four bytes are read as the
same id.  The four bytes `0x41 0xC8 0x42 0x43` are read as `0xFFFFFFFFFFC84243`, the
`char` `0xC8` being negative, and written back as `0xFF 0xC8 0x42 0x43`. -/
theorem C24_counterexample :
    (parseID fnextCb { file := [65, 0, 66, 67] }).1 = some 1090519040 ∧
    addID [] 1090519040 = [65, 0, 0, 0] ∧ addID [] 1090519040 ≠ [65, 0, 66, 67] ∧
    (parseID fnextCb { file := [65, 0, 0, 0] }).1 = some 1090519040 ∧
    (parseID fnextCb { file := [65, 200, 66, 67] }).1 = some 18446744073705898563 ∧
    addID [] 18446744073705898563 = [255, 200, 66, 67] := by
  decide

/-! ## The read cursor of the nested parser -/

theorem cnextCb_ok (h : Heap) (c pos : Nat) (hlt : pos < (h.chunk c).size) :
    cnextCb h { chunk := c, next := pos } =
      (((lowByte (h.readByte (h.chunk c).start pos) : Nat) : Int),
        { chunk := c, next := pos + 1 }) := by
  unfold cnextCb
  have : ¬ (pos ≥ (h.chunk c).size) := by omega
  simp only [this, if_false]

theorem cnextCb_end (h : Heap) (c pos : Nat) (hge : ¬ pos < (h.chunk c).size) :
    cnextCb h { chunk := c, next := pos } = (-1, { chunk := c, next := pos }) := by
  unfold cnextCb
  have : pos ≥ (h.chunk c).size := by omega
  simp only [this, if_true]

/-- The function `parseID` on a chunk stream reads four bytes and moves the cursor by
four, or fails when fewer than four bytes are left. -/
theorem parseID_cursor (h : Heap) (c pos : Nat) :
    (pos + 4 ≤ (h.chunk c).size ∧
      ∃ id, parseID (cnextCb h) { chunk := c, next := pos } =
        (some id, { chunk := c, next := pos + 4 })) ∨
    (¬ (pos + 4 ≤ (h.chunk c).size) ∧
      (parseID (cnextCb h) { chunk := c, next := pos }).1 = none) := by
  have neg1 : ((-1 : Int) < 0) := by omega
  by_cases l0 : pos < (h.chunk c).size
  · have e0 := cnextCb_ok h c pos l0
    by_cases l1 : pos + 1 < (h.chunk c).size
    · have e1 := cnextCb_ok h c (pos + 1) l1
      by_cases l2 : pos + 2 < (h.chunk c).size
      · have e2 := cnextCb_ok h c (pos + 2) l2
        by_cases l3 : pos + 3 < (h.chunk c).size
        · have e3 := cnextCb_ok h c (pos + 3) l3
          refine Or.inl ⟨by omega, ?_⟩
          unfold parseID
          simp only [e0, e1, e2, e3, natCast_not_neg, or_self, if_false]
          exact ⟨_, rfl⟩
        · have e3 := cnextCb_end h c (pos + 3) l3
          refine Or.inr ⟨by omega, ?_⟩
          unfold parseID
          simp only [e0, e1, e2, e3, neg1, or_true, if_true]
      · have e2 := cnextCb_end h c (pos + 2) l2
        refine Or.inr ⟨by omega, ?_⟩
        unfold parseID
        simp only [e0, e1, e2, neg1, or_true, true_or, if_true]
    · have e1 := cnextCb_end h c (pos + 1) l1
      refine Or.inr ⟨by omega, ?_⟩
      unfold parseID
      simp only [e0, e1, neg1, or_true, true_or, if_true]
  · have e0 := cnextCb_end h c pos l0
    refine Or.inr ⟨by omega, ?_⟩
    unfold parseID
    simp only [e0, neg1, true_or, if_true]

/-- The function `parseSize` on a chunk stream reads a value below `2 ^ 32` and moves
the cursor by four, or fails when fewer than four bytes are left. -/
theorem parseSize_cursor (h : Heap) (c pos : Nat) :
    (pos + 4 ≤ (h.chunk c).size ∧
      ∃ v, v < 2 ^ 32 ∧ parseSize (cnextCb h) { chunk := c, next := pos } =
        (some v, { chunk := c, next := pos + 4 })) ∨
    (¬ (pos + 4 ≤ (h.chunk c).size) ∧
      (parseSize (cnextCb h) { chunk := c, next := pos }).1 = none) := by
  have neg1 : ((-1 : Int) < 0) := by omega
  by_cases l0 : pos < (h.chunk c).size
  · have e0 := cnextCb_ok h c pos l0
    by_cases l1 : pos + 1 < (h.chunk c).size
    · have e1 := cnextCb_ok h c (pos + 1) l1
      by_cases l2 : pos + 2 < (h.chunk c).size
      · have e2 := cnextCb_ok h c (pos + 2) l2
        by_cases l3 : pos + 3 < (h.chunk c).size
        · have e3 := cnextCb_ok h c (pos + 3) l3
          have hv : ∀ x0 x1 x2 x3 : Nat,
              (lowByte x0 ||| lowByte x1 <<< 8 ||| lowByte x2 <<< 16 ||| lowByte x3 <<< 24) % WORD
                < 2 ^ 32 := by
            intro x0 x1 x2 x3
            have b0 := lowByte_lt x0
            have b1 := lowByte_lt x1
            have b2 := lowByte_lt x2
            have b3 := lowByte_lt x3
            rw [pack_le _ _ _ _ b0 b1 b2, WORD_val]
            omega
          refine Or.inl ⟨by omega, ?_⟩
          unfold parseSize
          simp only [e0, e1, e2, e3, natCast_not_neg, or_self, if_false, Int.toNat_ofNat]
          exact ⟨_, hv _ _ _ _, rfl⟩
        · have e3 := cnextCb_end h c (pos + 3) l3
          refine Or.inr ⟨by omega, ?_⟩
          unfold parseSize
          simp only [e0, e1, e2, e3, neg1, or_true, if_true]
      · have e2 := cnextCb_end h c (pos + 2) l2
        refine Or.inr ⟨by omega, ?_⟩
        unfold parseSize
        simp only [e0, e1, e2, neg1, or_true, true_or, if_true]
    · have e1 := cnextCb_end h c (pos + 1) l1
      refine Or.inr ⟨by omega, ?_⟩
      unfold parseSize
      simp only [e0, e1, neg1, or_true, true_or, if_true]
  · have e0 := cnextCb_end h c pos l0
    refine Or.inr ⟨by omega, ?_⟩
    unfold parseSize
    simp only [e0, neg1, true_or, if_true]

/-- A successful call of `parseNextChunk` leaves the cursor at least 8 bytes further,
and not past the end of the parent, also when the size of a `LIST`/`RIFF` child
wraps. -/
theorem parseNextChunk_advance (h : Heap) (file c pos sub : Nat) (h1 : Heap)
    (cs1 : ChunkStream) (hsz : (h.chunk c).size < 2 ^ 63)
    (hp : parseNextChunk h file { chunk := c, next := pos } = (some sub, h1, cs1)) :
    cs1.chunk = c ∧ pos + 8 ≤ cs1.next ∧ cs1.next ≤ (h.chunk c).size ∧
    sub = h.chunks.length ∧
    ∃ ck, h1 = { h with chunks := h.chunks ++ [ck], errnum := raff_ERR_NONE } ∧
      ck.next = none := by
  have hfst : (parseNextChunk h file { chunk := c, next := pos }).1 = some sub := by rw [hp]
  rcases parseID_cursor h c pos with ⟨_, id, e1⟩ | ⟨_, e1⟩
  · rcases parseSize_cursor h c (pos + 4) with ⟨hb8, v, hv, e2⟩ | ⟨_, e2⟩
    · by_cases hid : id = LIST_ID ∨ id = RIFF_ID
      · rcases parseID_cursor h c (pos + 4 + 4) with ⟨hb12, lid, e3⟩ | ⟨_, e3⟩
        · by_cases hfit : (pos + 4 + 4 + 4 + (sizeSub4 v + v % 2)) % WORD > (h.chunk c).size
          · have := (parseNextChunk_list_over h file _ _ _ _ id v lid e1 e2 hid e3 hfit).1
            rw [this] at hfst
            cases hfst
          · have e := parseNextChunk_list h file _ _ _ _ id v lid e1 e2 hid e3 hfit
            rw [e] at hp
            simp only [Prod.mk.injEq, Option.some.injEq] at hp
            obtain ⟨hs, hh, hc⟩ := hp
            subst hc
            refine ⟨rfl, ?_, ?_, hs.symm, _, hh.symm, rfl⟩
            · show pos + 8 ≤ (pos + 4 + 4 + 4 + (sizeSub4 v + v % 2)) % WORD
              unfold sizeSub4
              rw [WORD_val]
              split <;> omega
            · show (pos + 4 + 4 + 4 + (sizeSub4 v + v % 2)) % WORD ≤ (h.chunk c).size
              omega
        · have := (parseNextChunk_noListID h file _ _ _ id v e1 e2 hid e3).1
          rw [this] at hfst
          cases hfst
      · by_cases hfit : (pos + 4 + 4 + (v + v % 2)) % WORD > (h.chunk c).size
        · have := (parseNextChunk_leaf_over h file _ _ _ id v e1 e2 hid hfit).1
          rw [this] at hfst
          cases hfst
        · have e := parseNextChunk_leaf h file _ _ _ id v e1 e2 hid hfit
          rw [e] at hp
          simp only [Prod.mk.injEq, Option.some.injEq] at hp
          obtain ⟨hs, hh, hc⟩ := hp
          subst hc
          refine ⟨rfl, ?_, ?_, hs.symm, _, hh.symm, rfl⟩
          · show pos + 8 ≤ (pos + 4 + 4 + (v + v % 2)) % WORD
            rw [WORD_val]
            omega
          · show (pos + 4 + 4 + (v + v % 2)) % WORD ≤ (h.chunk c).size
            omega
    · have := (parseNextChunk_noSize h file _ _ id e1 e2).1
      rw [this] at hfst
      cases hfst
  · have := (parseNextChunk_noID h file _ e1).1
    rw [this] at hfst
    cases hfst

/-! ## Claim C25: the nested parser terminates -/

theorem linked_chain_aux (h : Heap) (base k : Nat)
    (hn : ∀ i, i < k → (h.chunk (base + i)).next =
      if i + 1 < k then some (base + i + 1) else none) :
    ∀ (n i : Nat), i + n = k →
      IsChain h (if n = 0 then none else some (base + i)) (List.range' (base + i) n) := by
  intro n
  induction n with
  | zero =>
    intro i _
    simp only [if_true, List.range'_zero]
    trivial
  | succ n ih =>
    intro i hi
    simp only [Nat.succ_ne_zero, if_false, List.range'_succ]
    refine ⟨rfl, ?_⟩
    rw [hn i (by omega)]
    have := ih (i + 1) (by omega)
    by_cases hz : n = 0
    · subst hz
      have hlt : ¬ (i + 1 < k) := by omega
      simp only [hlt, if_false, List.range'_zero]
      trivial
    · have hlt : i + 1 < k := by omega
      simp only [hlt, if_true]
      simp only [hz, if_false] at this
      exact this

/-- The chunks that the parsing loop has made are a chain from `first`. -/
theorem linked_isChain (h : Heap) (base k : Nat) (f l : Option Nat)
    (hl : Linked h base k f l) : IsChain h f (List.range' base k) := by
  obtain ⟨h0, h1, hn⟩ := hl
  have := linked_chain_aux h base k hn k 0 (by omega)
  by_cases hk : k = 0
  · subst hk
    rw [(h0 rfl).1]
    trivial
  · rw [(h1 (by omega)).1]
    simpa [hk] using this

/-- With fuel for one turn per 8 bytes the parsing loop ends: it fails, or it is done
with at most one chunk per 8 bytes of the range, the chunks being linked in order. -/
theorem chunkAsListLoop_total (list c base : Nat) (hcb : c < base) :
    ∀ (fuel : Nat) (h : Heap) (pos : Nat) (f l : Option Nat) (j : Nat),
      h.chunks.length = base + j → (h.chunk c).size < 2 ^ 63 →
      pos ≤ (h.chunk c).size → ((h.chunk c).size - pos) / 8 < fuel → Linked h base j f l →
      (∃ H, chunkAsListLoop list c fuel h { chunk := c, next := pos } f l =
        LoopResult.failed H) ∨
      (∃ H f1 l1 k, chunkAsListLoop list c fuel h { chunk := c, next := pos } f l =
          LoopResult.done H f1 l1 ∧
        H.chunks.length = base + k ∧ Linked H base k f1 l1 ∧ j ≤ k ∧
        8 * (k - j) + pos ≤ (h.chunk c).size) := by
  intro fuel
  induction fuel with
  | zero =>
    intro h pos f l j _ _ _ hf _
    omega
  | succ fuel ih =>
    intro h pos f l j hlen hsz hpos hf hlk
    by_cases hlt : pos < (h.chunk c).size
    · rcases hq : parseNextChunk h (h.list list).file { chunk := c, next := pos } with
        ⟨o, h1, cs1⟩
      cases o with
      | none =>
        left
        exact ⟨_, chunkAsListLoop_fail list c fuel h _ f l hlt (by rw [hq])⟩
      | some sub =>
        obtain ⟨hc1, hadv, hle, hsub, ck, hh1, hcknext⟩ :=
          parseNextChunk_advance h _ c pos sub h1 cs1 hsz hq
        obtain ⟨cc, cn⟩ := cs1
        simp only at hc1 hadv hle
        rw [hc1] at hq
        subst hsub
        have hlen1 : h1.chunks.length = h.chunks.length + 1 := by rw [hh1]; simp
        have hsubck : h1.chunk h.chunks.length = ck := by
          rw [hh1]
          simp only [Heap.chunk, getD_append_length]
        have hold1 : ∀ p, p < h.chunks.length → h1.chunk p = h.chunk p := by
          intro p hp
          rw [hh1]
          exact chunk_append_lt h ck _ p hp
        obtain ⟨l0, l1, ln⟩ := hlk
        by_cases hj : j = 0
        · subst hj
          obtain ⟨rfl, rfl⟩ := l0 rfl
          rw [chunkAsListLoop_first list c fuel h h1 _ _ _ hlt hq]
          have hc2 : (h1.setChunk h.chunks.length
              { h1.chunk h.chunks.length with list := some list }).chunk c = h.chunk c := by
            rw [chunk_setChunk_ne _ _ _ _ (by omega), hold1 c (by omega)]
          have hnew : (h1.setChunk h.chunks.length
              { h1.chunk h.chunks.length with list := some list }).chunk h.chunks.length =
              { h1.chunk h.chunks.length with list := some list } :=
            chunk_setChunk_eq _ _ _ (by omega)
          rcases ih (h1.setChunk h.chunks.length
              { h1.chunk h.chunks.length with list := some list }) cn
              (some h.chunks.length) (some h.chunks.length) 1
              (by rw [chunks_length_setChunk]; omega) (by rw [hc2]; exact hsz)
              (by rw [hc2]; exact hle) (by rw [hc2]; omega)
              ⟨by omega, fun _ => ⟨congrArg some (by omega), congrArg some (by omega)⟩, by
                intro i hi
                have hi0 : i = 0 := by omega
                subst hi0
                have e : base + 0 = h.chunks.length := by omega
                rw [e, hnew, hsubck]
                simp only [hcknext]
                simp⟩ with ⟨H, e⟩ | ⟨H, f1, l1', k, e, a1, a2, a3, a4⟩
          · exact Or.inl ⟨H, e⟩
          · refine Or.inr ⟨H, f1, l1', k, e, a1, a2, by omega, ?_⟩
            rw [hc2] at a4
            omega
        · obtain ⟨rfl, rfl⟩ := l1 (by omega)
          rw [chunkAsListLoop_more list c fuel h h1 _ _ _ _ _ hlt hq]
          have hlastlt : base + j - 1 < h.chunks.length := by omega
          have hlen2 : (h1.setChunk h.chunks.length
              { h1.chunk h.chunks.length with list := some list }).chunks.length =
              h.chunks.length + 1 := by rw [chunks_length_setChunk]; exact hlen1
          have hnew2 : (h1.setChunk h.chunks.length
              { h1.chunk h.chunks.length with list := some list }).chunk h.chunks.length =
              { h1.chunk h.chunks.length with list := some list } :=
            chunk_setChunk_eq _ _ _ (by omega)
          have hold2 : ∀ p, p < h.chunks.length → (h1.setChunk h.chunks.length
              { h1.chunk h.chunks.length with list := some list }).chunk p = h.chunk p := by
            intro p hp
            rw [chunk_setChunk_ne _ _ _ _ (by omega), hold1 p hp]
          generalize hH2 : h1.setChunk h.chunks.length
              { h1.chunk h.chunks.length with list := some list } = h2 at hlen2 hnew2 hold2 ⊢
          have hc3 : (h2.setChunk (base + j - 1)
              { h2.chunk (base + j - 1) with next := some h.chunks.length }).chunk c =
              h.chunk c := by
            rw [chunk_setChunk_ne _ _ _ _ (by omega), hold2 c (by omega)]
          rcases ih (h2.setChunk (base + j - 1)
              { h2.chunk (base + j - 1) with next := some h.chunks.length }) cn
              (some base) (some h.chunks.length) (j + 1)
              (by rw [chunks_length_setChunk]; omega) (by rw [hc3]; exact hsz)
              (by rw [hc3]; exact hle) (by rw [hc3]; omega)
              ⟨by omega, fun _ => ⟨rfl, congrArg some (by omega)⟩, by
                intro i hi
                by_cases hij : i = j
                · subst hij
                  have e : base + i = h.chunks.length := by omega
                  rw [e, chunk_setChunk_ne _ _ _ _ (by omega), hnew2, hsubck]
                  simp only [hcknext]
                  simp
                · by_cases hil : i + 1 = j
                  · have e : base + i = base + j - 1 := by omega
                    rw [e, chunk_setChunk_eq _ _ _ (by omega)]
                    have hlt2 : i + 1 < j + 1 := by omega
                    simp only [hlt2, if_true]
                    congr 1
                    omega
                  · rw [chunk_setChunk_ne _ _ _ _ (by omega), hold2 _ (by omega),
                      ln i (by omega)]
                    have g1 : i + 1 < j := by omega
                    have g2 : i + 1 < j + 1 := by omega
                    simp only [g1, g2, if_true]⟩ with
            ⟨H, e⟩ | ⟨H, f1, l1', k, e, a1, a2, a3, a4⟩
          · exact Or.inl ⟨H, e⟩
          · refine Or.inr ⟨H, f1, l1', k, e, a1, a2, by omega, ?_⟩
            rw [hc3] at a4
            omega
    · right
      refine ⟨h, f, l, j, chunkAsListLoop_done list c fuel h _ f l hlt, hlen, hlk, le_refl _, ?_⟩
      omega

/-- C25: for a List/Riff chunk with no cached list and a range of less than `2 ^ 63`
bytes, whatever the bytes, `raff_chunkAsList` returns as soon as the fuel exceeds
`size / 8`: every successful call of `parseNextChunk` leaves the cursor at least 8
bytes further and not past the end of the range, also when a `LIST`/`RIFF` child
declares a size below 4 and `size -= 4` wraps; and a list that is returned has at
most `size / 8` children. -/
theorem C25_parse_terminates (fuel : Nat) (h : Heap) (c : Nat)
    (hty : (h.chunk c).type ≠ TYPE_OTHER) (hnl : (h.chunk c).asList = none)
    (hc : c < h.chunks.length) (hsz : (h.chunk c).size < 2 ^ 63)
    (hf : (h.chunk c).size / 8 < fuel) :
    (∃ r h1, raff_chunkAsList fuel h c = some (r, h1) ∧
      ∀ l, r = some l →
        ∃ ps, IsChain h1 (h1.list l).first ps ∧ ps.length ≤ (h.chunk c).size / 8) ∧
    (∀ file pos sub h1 cs1,
      parseNextChunk h file { chunk := c, next := pos } = (some sub, h1, cs1) →
      pos + 8 ≤ cs1.next ∧ cs1.next ≤ (h.chunk c).size) := by
  constructor
  · rcases chunkAsListLoop_total h.lists.length c h.chunks.length hc fuel (withNewList h c) 0
        none none 0 (by simp [withNewList]) (by rw [withNewList_chunk]; exact hsz)
        (Nat.zero_le _) (by rw [withNewList_chunk]; simpa using hf)
        ⟨fun _ => ⟨rfl, rfl⟩, fun h0 => absurd h0 (by omega), fun i hi => absurd hi (by omega)⟩
      with ⟨H, e⟩ | ⟨H, f1, l1, k, e, a1, a2, _, a4⟩
    · exact ⟨none, H, chunkAsList_of_failed fuel h H c hty hnl e, fun l hl => by cases hl⟩
    · refine ⟨_, _, chunkAsList_of_done fuel h H c f1 l1 hty hnl e, ?_⟩
      intro l hl
      cases hl
      have hchain := linked_isChain H h.chunks.length k f1 l1 a2
      obtain ⟨_, hdone⟩ := chunkAsListLoop_frame h.lists.length c h.chunks.length fuel
        (withNewList h c) (makeChunkStream c) none none (le_refl _) (by intro x hx; cases hx)
      obtain ⟨b1, _, _, _, _, _⟩ := hdone H f1 l1 e
      refine ⟨List.range' h.chunks.length k, ?_, ?_⟩
      · have hfirst : (Heap.list (((H.setList h.lists.length
            { H.list h.lists.length with cursor := f1, first := f1, last := l1 }).setChunk c
              { (H.setList h.lists.length
                { H.list h.lists.length with cursor := f1, first := f1, last := l1 }).chunk c
                with asList := some h.lists.length }).setErr raff_ERR_NONE)
            h.lists.length).first = f1 := by
          rw [list_setErr, list_setChunk,
            list_setList_eq _ _ _ (by rw [b1]; simp [withNewList])]
        rw [hfirst]
        apply isChain_congr H _ _ _ _ hchain
        intro p hp
        have hpc : c ≠ p := by
          have := (List.mem_range'_1.1 hp).1
          omega
        rw [chunk_setErr, chunk_setChunk_ne _ _ _ _ hpc, chunk_setList]
      · rw [List.length_range']
        rw [withNewList_chunk] at a4
        omega
  · intro file pos sub h1 cs1 hp
    obtain ⟨_, a, b, _⟩ := parseNextChunk_advance h file c pos sub h1 cs1 hsz hp
    exact ⟨a, b⟩

/-- Witness of C25: the root chunk of `wrapHeap`, 16 bytes that start with a `LIST` child
of declared size 0. -/
theorem C25_parse_terminates_witness :
    (∃ r h1, raff_chunkAsList 3 wrapHeap 0 = some (r, h1) ∧
      ∀ l, r = some l →
        ∃ ps, IsChain h1 (h1.list l).first ps ∧ ps.length ≤ (wrapHeap.chunk 0).size / 8) ∧
    (∀ file pos sub h1 cs1,
      parseNextChunk wrapHeap file { chunk := 0, next := pos } = (some sub, h1, cs1) →
      pos + 8 ≤ cs1.next ∧ cs1.next ≤ (wrapHeap.chunk 0).size) :=
  C25_parse_terminates 3 wrapHeap 0 (by decide) (by decide) (by decide) (by decide)
    (by decide)

end Raff
